import Mathlib

/-!
# pbf_parser: a shallow embedding of `ext/pbf_parser/pbf_parser.c`

The development follows the C source function by function.

Modelling conventions.

* Machine integers are `Int`/`Nat` values; every arithmetic step that the C code
  performs on a fixed-width variable is reduced explicitly (`wrap64`, `wrap32`,
  `% 2^64`, `% 2^32`).  Signed overflow is taken to wrap (two's complement).
* A read of an array outside its bounds is undefined behaviour in C.  The model
  makes it observable: such a read ends the run with `Err.ub arr idx`, naming the
  array and the offending index.
* Ruby exceptions (`rb_raise`) are the other constructors of `Err`.  Allocation is
  assumed to succeed, so `rb_eNoMemError` is never raised.
* Array lengths are bounded by the blob size limit (32 MiB), far below `2^32`, so the
  `unsigned` loop counters `j`, `k` never wrap and are modelled as `Nat`.
* Byte strings are modelled as `String`, a byte being a character and the NUL byte
  being `Char.ofNat 0`.
* The generated protobuf layer, zlib and the C library are external collaborators:
  the unpack functions and `inflate` are fields of `Ext`; `FILE` is modelled by
  `CFile` with the semantics of `fread`/`fseek`/`ftell`/`feof` on a regular file.
* Coordinates are emitted by the source as `FIX7(rb_float_new(NANO_DEGREE * x))` for
  a 64-bit integer `x`.  The floating point product and the rounding are outside
  the embedding; the emitted record holds the integer `x` (nanodegrees).
-/

namespace PbfParser

/-! ## Errors -/

/-- Ways in which a call can end without returning a value: the Ruby exception
classes raised by the source, `ub` for an out-of-bounds array read, and `fuel` for
a loop of the model that reached its iteration bound. -/
inductive Err where
  | io (msg : String)
  | eof (msg : String)
  | runtime (msg : String)
  | notimp (msg : String)
  | range (msg : String)
  | ub (arr : String) (idx : Int)
  | fuel
  deriving DecidableEq, Repr

deriving instance DecidableEq for Except

/-! ## Fixed-width arithmetic -/

/-- Value of a 64-bit two's complement register holding `x` (type `int64_t`). -/
def wrap64 (x : Int) : Int :=
  (x + 9223372036854775808) % 18446744073709551616 - 9223372036854775808

/-- Value of a 32-bit two's complement register holding `x` (type `int32_t`). -/
def wrap32 (x : Int) : Int :=
  (x + 2147483648) % 4294967296 - 2147483648

/-- Value of `x` converted to `uint64_t`. -/
def to_u64 (x : Int) : Int := x % 18446744073709551616

/-- Value of `x` converted to `uint32_t`. -/
def to_u32 (x : Int) : Int := x % 4294967296

/-- Number of low bits that a `double` cannot keep of the natural number `m`:
the least `s` with `m / 2^s < 2^53` (the argument `fuel` bounds `s`). -/
def mantissa_shift : Nat → Nat → Nat
  | 0, _ => 0
  | fuel + 1, m => if m < 9007199254740992 then 0 else 1 + mantissa_shift fuel (m / 2)

/-- Conversion of the integer `n` to `double` (round to nearest, ties to even).
The result of the conversion is again an integer. -/
def double_of_int (n : Int) : Int :=
  let m := n.natAbs
  let s := mantissa_shift 256 m
  let q := m / 2 ^ s
  let r := m % 2 ^ s
  let q1 := if 2 * r > 2 ^ s ∨ (2 * r = 2 ^ s ∧ q % 2 = 1) then q + 1 else q
  if n < 0 then -((q1 * 2 ^ s : Nat) : Int) else ((q1 * 2 ^ s : Nat) : Int)

/-- A Ruby `Float`, that is a C `double`, which is 0 or of magnitude at least `2^-30`:
such a `double` is a multiple of `2^-82`, and it is kept as the integer `scaled`, its
value times `2^82`. -/
structure RFloat where
  scaled : Int
  deriving DecidableEq, Repr

/-- Constant `NANO_DEGREE`, the macro `.000000001`: the `double` nearest to `10^-9`, which
is `4835703278458517 * 2^-82`. -/
def NANO_DEGREE : RFloat := ⟨4835703278458517⟩

/-- Model of `rb_float_new(NANO_DEGREE * x)` for an `int64_t` `x`: `x` is converted to
`double` and the product of the two doubles is rounded to `double` (for `x` other than
0 the product has a magnitude between `2^-30` and `2^34`). -/
def nano_degree_times (x : Int) : RFloat :=
  ⟨double_of_int (NANO_DEGREE.scaled * double_of_int x)⟩

/-! ## Strings, string table, tag hashes -/

/-- The NUL byte. -/
def NUL : Char := Char.ofNat 0

/-- Model of `str_new(parse_binary_str(bstr))`: the bytes of `bstr` are copied into a
NUL-terminated buffer, of which `rb_str_new2` takes the C string, i.e. the bytes
before the first NUL. -/
def str_new (bstr : String) : String :=
  String.mk (bstr.data.takeWhile (fun c => c != NUL))

/-- Model of `string_table->s[i]`. -/
def string_table_s (st : List String) (i : Int) : Except Err String :=
  if 0 ≤ i ∧ i < st.length then .ok (st.getD i.toNat "") else .error (.ub "string_table" i)

/-- Read of `arr[i]` for an array of 64- or 32-bit integers. -/
def arr_get (name : String) (arr : List Int) (i : Nat) : Except Err Int :=
  match arr[i]? with
  | some v => .ok v
  | none => .error (.ub name i)

/-- A Ruby hash with string keys, as an association list in insertion order. -/
abbrev Tags := List (String × String)

/-- Model of `rb_hash_aset(hash, key, value)`: replaces the value of an existing key, keeps
its place; appends a new key at the end. -/
def rb_hash_aset : Tags → String → String → Tags
  | [], k, v => [(k, v)]
  | (k0, v0) :: rest, k, v =>
    if k0 = k then (k0, v) :: rest else (k0, v0) :: rb_hash_aset rest k v

/-! ## Unpacked protobuf messages (`osmformat.pb-c.h`) -/

structure Info where
  version : Int
  timestamp : Int
  changeset : Int
  uid : Int
  user_sid : Int
  deriving DecidableEq, Repr

structure Node where
  id : Int
  keys : List Int
  vals : List Int
  info : Option Info
  lat : Int
  lon : Int
  deriving DecidableEq, Repr

structure DenseInfo where
  version : List Int
  timestamp : List Int
  changeset : List Int
  uid : List Int
  user_sid : List Int
  deriving DecidableEq, Repr

structure DenseNodes where
  id : List Int
  denseinfo : Option DenseInfo
  lat : List Int
  lon : List Int
  keys_vals : List Int
  deriving DecidableEq, Repr

structure Way where
  id : Int
  keys : List Int
  vals : List Int
  info : Option Info
  refs : List Int
  deriving DecidableEq, Repr

structure Relation where
  id : Int
  keys : List Int
  vals : List Int
  info : Option Info
  roles_sid : List Int
  memids : List Int
  types : List Int
  deriving DecidableEq, Repr

structure PrimitiveGroup where
  nodes : List Node
  dense : Option DenseNodes
  ways : List Way
  relations : List Relation
  deriving DecidableEq, Repr

structure PrimitiveBlock where
  stringtable : List String
  primitivegroup : List PrimitiveGroup
  granularity : Int
  lat_offset : Int
  lon_offset : Int
  date_granularity : Int
  deriving DecidableEq, Repr

/-- Constant `RELATION__MEMBER_TYPE__NODE`. -/
def MEMBER_TYPE_NODE : Int := 0

/-- Constant `RELATION__MEMBER_TYPE__WAY`. -/
def MEMBER_TYPE_WAY : Int := 1

/-- Constant `RELATION__MEMBER_TYPE__RELATION`. -/
def MEMBER_TYPE_RELATION : Int := 2

/-! ## Emitted records (the Ruby hashes built by the source) -/

/-- The five keys written by `add_info`; `none` is Ruby `nil`. -/
structure Meta where
  version : Option Int
  timestamp : Option Int
  changeset : Option Int
  uid : Option Int
  user : Option String
  deriving DecidableEq, Repr

/-- A node hash: `lat_nano`/`lon_nano` is the 64-bit integer `x` of
`FIX7(rb_float_new(NANO_DEGREE * x))`, and the values stored under `lat` and `lon` are
`NodeOut.lat` and `NodeOut.lon` below; `meta` is `none` when `add_info` was not
called. -/
structure NodeOut where
  id : Int
  lat_nano : Int
  lon_nano : Int
  meta : Option Meta
  tags : Tags
  deriving DecidableEq, Repr

structure WayOut where
  id : Int
  meta : Option Meta
  tags : Tags
  refs : List Int
  deriving DecidableEq, Repr

/-- A member hash: key `id`, and key `role` when it was set. -/
structure Member where
  id : Int
  role : Option String
  deriving DecidableEq, Repr

structure RelationOut where
  id : Int
  meta : Option Meta
  tags : Tags
  nodes : List Member
  ways : List Member
  relations : List Member
  deriving DecidableEq, Repr

/-- The hash of `init_data_arr`, stored in `@data`. -/
structure Data where
  nodes : List NodeOut
  ways : List WayOut
  relations : List RelationOut
  deriving DecidableEq, Repr

/-- Result of `init_data_arr()`. -/
def init_data_arr : Data := { nodes := [], ways := [], relations := [] }

/-! ## `add_info` -/

/-- Model of `LL2NUM(info->timestamp * ts_granularity)`: the `int64_t` timestamp is converted
to `double`, multiplied by the `double` granularity, and the product is converted
to `long long`, which is undefined when it is out of range. -/
def timestamp_ll (timestamp ts_granularity : Int) : Except Err Int :=
  let x := double_of_int (double_of_int timestamp * ts_granularity)
  if -9223372036854775808 ≤ x ∧ x < 9223372036854775808 then .ok x
  else .error (.ub "double to long long" x)

/-- Model of `add_info(hash, info, string_table, ts_granularity)`: the five values set on
the entity hash. -/
def add_info (info : Info) (string_table : List String) (ts_granularity : Int) :
    Except Err Meta :=
  let version := if info.version ≠ 0 then some info.version else none
  match (if info.timestamp ≠ 0 then (timestamp_ll info.timestamp ts_granularity).map some
         else .ok none) with
  | .error e => .error e
  | .ok timestamp =>
    let changeset := if info.changeset ≠ 0 then some info.changeset else none
    let uid := if info.uid ≠ 0 then some info.uid else none
    if info.user_sid ≠ 0 then
      match string_table_s string_table info.user_sid with
      | .error e => .error e
      | .ok s =>
        .ok { version := version, timestamp := timestamp, changeset := changeset,
              uid := uid, user := some (str_new s) }
    else
      .ok { version := version, timestamp := timestamp, changeset := changeset,
            uid := uid, user := none }

/-- The optional call `if(x->info) add_info(...)`. -/
def add_info_opt (info : Option Info) (string_table : List String) (ts_granularity : Int) :
    Except Err (Option Meta) :=
  match info with
  | none => .ok none
  | some i => (add_info i string_table ts_granularity).map some

/-! ## Row-wise tags (`keys`/`vals` loops of nodes, ways and relations) -/

/-- The loop `for(j = 0; j < n_keys; j++)` from index `j` on, `keys` being what is left
of the `keys` array. -/
def tags_loop (string_table : List String) (vals : List Int) :
    List Int → Nat → Tags → Except Err Tags
  | [], _, tags => .ok tags
  | key_sid :: keys, j, tags =>
    match string_table_s string_table key_sid with
    | .error e => .error e
    | .ok key =>
      match arr_get "vals" vals j with
      | .error e => .error e
      | .ok val_sid =>
        match string_table_s string_table val_sid with
        | .error e => .error e
        | .ok value =>
          tags_loop string_table vals keys (j + 1) (rb_hash_aset tags (str_new key) (str_new value))

/-! ## `process_ways` -/

/-- The loop `for(k = 0; k < way->n_refs; k++)`: `delta_refs` and the `refs` array built
so far are threaded through. -/
def refs_loop : List Int → Int → List Int → List Int
  | [], _, out => out
  | r :: refs, delta_refs, out =>
    let delta_refs := wrap64 (delta_refs + r)
    refs_loop refs delta_refs (out ++ [delta_refs])

/-- Body of the loop over ways in `process_ways`. -/
def process_way (way : Way) (string_table : List String) (ts_granularity : Int) :
    Except Err WayOut :=
  match tags_loop string_table way.vals way.keys 0 [] with
  | .error e => .error e
  | .ok tags =>
    let refs := refs_loop way.refs 0 []
    match add_info_opt way.info string_table ts_granularity with
    | .error e => .error e
    | .ok meta => .ok { id := way.id, meta := meta, tags := tags, refs := refs }

/-- Model of `process_ways(out, group, string_table, ts_granularity)` over the ways still to
be processed. -/
def process_ways (out : List WayOut) (ways : List Way) (string_table : List String)
    (ts_granularity : Int) : Except Err (List WayOut) :=
  match ways with
  | [] => .ok out
  | way :: rest =>
    match process_way way string_table ts_granularity with
    | .error e => .error e
    | .ok way_out => process_ways (out ++ [way_out]) rest string_table ts_granularity

/-! ## `process_nodes` -/

/-- The integer `lat_offset + (lat * granularity)` of the coordinate formula, in
`int64_t` arithmetic. -/
def nano_coord (offset raw granularity : Int) : Int :=
  wrap64 (offset + wrap64 (raw * granularity))

/-- Body of the loop over row-wise nodes in `process_nodes`. -/
def process_node (node : Node) (string_table : List String)
    (lat_offset lon_offset granularity ts_granularity : Int) : Except Err NodeOut :=
  let lat := nano_coord lat_offset node.lat granularity
  let lon := nano_coord lon_offset node.lon granularity
  match add_info_opt node.info string_table ts_granularity with
  | .error e => .error e
  | .ok meta =>
    match tags_loop string_table node.vals node.keys 0 [] with
    | .error e => .error e
    | .ok tags =>
      .ok { id := node.id, lat_nano := lat, lon_nano := lon, meta := meta, tags := tags }

/-- Model of `process_nodes(out, group, ...)` over the nodes still to be processed. -/
def process_nodes (out : List NodeOut) (nodes : List Node) (string_table : List String)
    (lat_offset lon_offset granularity ts_granularity : Int) : Except Err (List NodeOut) :=
  match nodes with
  | [] => .ok out
  | node :: rest =>
    match process_node node string_table lat_offset lon_offset granularity ts_granularity with
    | .error e => .error e
    | .ok node_out =>
      process_nodes (out ++ [node_out]) rest string_table lat_offset lon_offset granularity
        ts_granularity

/-! ## `process_dense_nodes` -/

/-- The local variables of `process_dense_nodes` that live across iterations, and
the output array. -/
structure DenseState where
  node_id : Int
  delta_lat : Int
  delta_lon : Int
  delta_timestamp : Int
  delta_changeset : Int
  delta_user_sid : Int
  delta_uid : Int
  j : Nat
  out : List NodeOut
  deriving DecidableEq, Repr

/-- State at entry of `process_dense_nodes`, `out` being the array passed in. -/
def DenseState.init (out : List NodeOut) : DenseState :=
  { node_id := 0, delta_lat := 0, delta_lon := 0, delta_timestamp := 0, delta_changeset := 0,
    delta_user_sid := 0, delta_uid := 0, j := 0, out := out }

/-- The loop `while((keys_vals[j] != 0) && (j < n_keys_vals))`.  The element
`keys_vals[j]` is read first, the bound on `j` is tested second.  Each iteration
adds 2 to `j`, so `fuel` iterations with `fuel > n_keys_vals` are never used up;
the result is the value of `j` at exit and the tag hash. -/
def dense_tags_while (string_table : List String) (keys_vals : List Int) :
    Nat → Nat → Tags → Except Err (Nat × Tags)
  | 0, _, _ => .error .fuel
  | fuel + 1, j, tags =>
    match arr_get "keys_vals" keys_vals j with
    | .error e => .error e
    | .ok key_sid =>
      if key_sid ≠ 0 ∧ j < keys_vals.length then
        match string_table_s string_table key_sid with
        | .error e => .error e
        | .ok key =>
          match arr_get "keys_vals" keys_vals (j + 1) with
          | .error e => .error e
          | .ok val_sid =>
            match string_table_s string_table val_sid with
            | .error e => .error e
            | .ok value =>
              dense_tags_while string_table keys_vals fuel (j + 2)
                (rb_hash_aset tags (str_new key) (str_new value))
      else .ok (j, tags)

/-- The block `if(j < n_keys_vals) { while ... ; j += 1; }` for one node: the new
value of `j` and the node's tag hash. -/
def dense_tags (string_table : List String) (keys_vals : List Int) (j : Nat) :
    Except Err (Nat × Tags) :=
  if j < keys_vals.length then
    match dense_tags_while string_table keys_vals (keys_vals.length + 1) j [] with
    | .error e => .error e
    | .ok (j1, tags) => .ok (j1 + 1, tags)
  else .ok (j, [])

/-- The block `if(dense_nodes->denseinfo) { ... }` for index `i`: the four updated
running sums and the meta values. -/
def dense_info (denseinfo : Option DenseInfo) (i : Nat) (s : DenseState)
    (string_table : List String) (ts_granularity : Int) :
    Except Err (DenseState × Option Meta) :=
  match denseinfo with
  | none => .ok (s, none)
  | some di =>
    match arr_get "denseinfo.timestamp" di.timestamp i with
    | .error e => .error e
    | .ok ts =>
      match arr_get "denseinfo.changeset" di.changeset i with
      | .error e => .error e
      | .ok cs =>
        match arr_get "denseinfo.user_sid" di.user_sid i with
        | .error e => .error e
        | .ok us =>
          match arr_get "denseinfo.uid" di.uid i with
          | .error e => .error e
          | .ok ui =>
            match arr_get "denseinfo.version" di.version i with
            | .error e => .error e
            | .ok ver =>
              let s1 := { s with
                delta_timestamp := wrap64 (s.delta_timestamp + ts)
                delta_changeset := wrap64 (s.delta_changeset + cs)
                delta_user_sid := wrap32 (s.delta_user_sid + us)
                delta_uid := wrap32 (s.delta_uid + ui) }
              let info : Info :=
                { version := ver, timestamp := s1.delta_timestamp,
                  changeset := s1.delta_changeset, user_sid := to_u32 s1.delta_user_sid,
                  uid := s1.delta_uid }
              match add_info info string_table ts_granularity with
              | .error e => .error e
              | .ok m => .ok (s1, some m)

/-- One iteration, for index `i`, of the loop of `process_dense_nodes`; `id_i` is
`dense_nodes->id[i]`. -/
def dense_step (dense_nodes : DenseNodes) (string_table : List String)
    (lat_offset lon_offset granularity ts_granularity : Int) (i : Nat) (id_i : Int)
    (s : DenseState) : Except Err DenseState :=
  let node_id := to_u64 (s.node_id + id_i)
  match arr_get "lat" dense_nodes.lat i with
  | .error e => .error e
  | .ok lat_i =>
    match arr_get "lon" dense_nodes.lon i with
    | .error e => .error e
    | .ok lon_i =>
      let delta_lat := wrap64 (s.delta_lat + lat_i)
      let delta_lon := wrap64 (s.delta_lon + lon_i)
      let lat := nano_coord lat_offset delta_lat granularity
      let lon := nano_coord lon_offset delta_lon granularity
      let s1 := { s with node_id := node_id, delta_lat := delta_lat, delta_lon := delta_lon }
      match dense_info dense_nodes.denseinfo i s1 string_table ts_granularity with
      | .error e => .error e
      | .ok (s2, meta) =>
        match dense_tags string_table dense_nodes.keys_vals s2.j with
        | .error e => .error e
        | .ok (j, tags) =>
          let node : NodeOut :=
            { id := wrap64 node_id, lat_nano := lat, lon_nano := lon, meta := meta, tags := tags }
          .ok { s2 with j := j, out := s2.out ++ [node] }

/-- The loop `for(i = 0; i < dense_nodes->n_id; i++)` from index `i` on, `ids` being
what is left of the `id` array. -/
def dense_loop (dense_nodes : DenseNodes) (string_table : List String)
    (lat_offset lon_offset granularity ts_granularity : Int) :
    List Int → Nat → DenseState → Except Err DenseState
  | [], _, s => .ok s
  | id_i :: ids, i, s =>
    match dense_step dense_nodes string_table lat_offset lon_offset granularity ts_granularity
        i id_i s with
    | .error e => .error e
    | .ok s1 =>
      dense_loop dense_nodes string_table lat_offset lon_offset granularity ts_granularity
        ids (i + 1) s1

/-- The whole loop of `process_dense_nodes`, returning the final local state (the
cursor `j` included). -/
def process_dense_nodes_state (out : List NodeOut) (dense_nodes : DenseNodes)
    (string_table : List String) (lat_offset lon_offset granularity ts_granularity : Int) :
    Except Err DenseState :=
  dense_loop dense_nodes string_table lat_offset lon_offset granularity ts_granularity
    dense_nodes.id 0 (DenseState.init out)

/-- Model of `process_dense_nodes(out, dense_nodes, string_table, lat_offset, lon_offset,
granularity, ts_granularity)`: the array `out` after the call. -/
def process_dense_nodes (out : List NodeOut) (dense_nodes : DenseNodes)
    (string_table : List String) (lat_offset lon_offset granularity ts_granularity : Int) :
    Except Err (List NodeOut) :=
  match process_dense_nodes_state out dense_nodes string_table lat_offset lon_offset
      granularity ts_granularity with
  | .error e => .error e
  | .ok s => .ok s.out

/-! ## `process_relations` -/

/-- The three member arrays of a relation and the running sum `delta_memids`. -/
structure MemberState where
  delta_memids : Int
  nodes : List Member
  ways : List Member
  relations : List Member
  deriving DecidableEq, Repr

/-- The `switch(relation->types[k])`: the member is pushed on the array of its type;
no array receives it for another value. -/
def push_member (s : MemberState) (type : Int) (member : Member) : MemberState :=
  if type = MEMBER_TYPE_NODE then { s with nodes := s.nodes ++ [member] }
  else if type = MEMBER_TYPE_WAY then { s with ways := s.ways ++ [member] }
  else if type = MEMBER_TYPE_RELATION then { s with relations := s.relations ++ [member] }
  else s

/-- The loop `for(k = 0; k < relation->n_memids; k++)` from index `k` on, `memids`
being what is left of the `memids` array. -/
def members_loop (relation : Relation) (string_table : List String) :
    List Int → Nat → MemberState → Except Err MemberState
  | [], _, s => .ok s
  | memid :: memids, k, s =>
    let delta_memids := wrap64 (s.delta_memids + memid)
    match arr_get "roles_sid" relation.roles_sid k with
    | .error e => .error e
    | .ok role_sid =>
      match (if role_sid ≠ 0 then (string_table_s string_table role_sid).map
                (fun r => some (str_new r)) else .ok none) with
      | .error e => .error e
      | .ok role =>
        match arr_get "types" relation.types k with
        | .error e => .error e
        | .ok type =>
          members_loop relation string_table memids (k + 1)
            (push_member { s with delta_memids := delta_memids } type
              { id := delta_memids, role := role })

/-- Body of the loop over relations in `process_relations`. -/
def process_relation (relation : Relation) (string_table : List String)
    (ts_granularity : Int) : Except Err RelationOut :=
  match tags_loop string_table relation.vals relation.keys 0 [] with
  | .error e => .error e
  | .ok tags =>
    match members_loop relation string_table relation.memids 0
        { delta_memids := 0, nodes := [], ways := [], relations := [] } with
    | .error e => .error e
    | .ok m =>
      match add_info_opt relation.info string_table ts_granularity with
      | .error e => .error e
      | .ok meta =>
        .ok { id := relation.id, meta := meta, tags := tags, nodes := m.nodes, ways := m.ways,
              relations := m.relations }

/-- Model of `process_relations(out, group, string_table, ts_granularity)` over the relations
still to be processed. -/
def process_relations (out : List RelationOut) (relations : List Relation)
    (string_table : List String) (ts_granularity : Int) : Except Err (List RelationOut) :=
  match relations with
  | [] => .ok out
  | relation :: rest =>
    match process_relation relation string_table ts_granularity with
    | .error e => .error e
    | .ok relation_out =>
      process_relations (out ++ [relation_out]) rest string_table ts_granularity

/-! ## The loop over primitive groups in `parse_osm_data` -/

/-- One iteration of `for(i = 0; i < primitive_block->n_primitivegroup; i++)`. -/
def process_group (pb : PrimitiveBlock) (g : PrimitiveGroup) (data : Data) : Except Err Data :=
  match process_nodes data.nodes g.nodes pb.stringtable pb.lat_offset pb.lon_offset
      pb.granularity pb.date_granularity with
  | .error e => .error e
  | .ok nodes1 =>
    match (match g.dense with
           | none => Except.ok nodes1
           | some d => process_dense_nodes nodes1 d pb.stringtable pb.lat_offset pb.lon_offset
               pb.granularity pb.date_granularity) with
    | .error e => .error e
    | .ok nodes2 =>
      match process_ways data.ways g.ways pb.stringtable pb.date_granularity with
      | .error e => .error e
      | .ok ways =>
        match process_relations data.relations g.relations pb.stringtable pb.date_granularity with
        | .error e => .error e
        | .ok relations => .ok { nodes := nodes2, ways := ways, relations := relations }

/-- The loop over the primitive groups of a block. -/
def process_groups (pb : PrimitiveBlock) : List PrimitiveGroup → Data → Except Err Data
  | [], data => .ok data
  | g :: rest, data =>
    match process_group pb g data with
    | .error e => .error e
    | .ok data1 => process_groups pb rest data1

/-- The records materialised from an unpacked `PrimitiveBlock`. -/
def decode_block (pb : PrimitiveBlock) : Except Err Data :=
  process_groups pb pb.primitivegroup init_data_arr

/-! ## The C library: `FILE` on a regular file opened for reading -/

/-- A `FILE *` opened with mode `rb`: the bytes of the file, the file position and
the end-of-file indicator. -/
structure CFile where
  content : List Nat
  pos : Nat
  eof : Bool
  deriving DecidableEq, Repr

/-- Model of `fread(buffer, size, 1, input)`: `some bytes` when the call returns 1.  When fewer
than `size` bytes are left the call returns 0, the position moves to the end of the
file and the end-of-file indicator is set. -/
def fread (f : CFile) (size : Nat) : Option (List Nat) × CFile :=
  if size = 0 then (none, f)
  else if f.pos + size ≤ f.content.length then
    (some ((f.content.drop f.pos).take size), { f with pos := f.pos + size })
  else (none, { f with pos := max f.pos f.content.length, eof := true })

/-- Model of `fseek(input, offset, SEEK_SET)`: `none` when the call fails (negative offset),
otherwise the file with the new position and the end-of-file indicator cleared. -/
def fseek_set (f : CFile) (offset : Int) : Option CFile :=
  if offset < 0 then none else some { f with pos := offset.toNat, eof := false }

/-- Model of `fseek(input, offset, SEEK_CUR)`. -/
def fseek_cur (f : CFile) (offset : Int) : Option CFile :=
  if (f.pos : Int) + offset < 0 then none
  else some { f with pos := ((f.pos : Int) + offset).toNat, eof := false }

/-- Model of `ftell(input)`. -/
def ftell (f : CFile) : Int := f.pos

/-- Model of `feof(input)`. -/
def feof (f : CFile) : Bool := f.eof

/-! ## Unpacked protobuf messages (`fileformat.pb-c.h`) and external collaborators -/

structure BlobHeader where
  type : String
  datasize : Int
  deriving DecidableEq, Repr

/-- A `Blob`: an optional field is `none` when its `has_` flag is not set; `raw_size` is
0 when absent. -/
structure Blob where
  raw : Option (List Nat)
  raw_size : Int
  zlib_data : Option (List Nat)
  lzma_data : Option (List Nat)
  deriving DecidableEq, Repr

/-- The fields of a `HeaderBlock` that `parse_osm_header` copies into `@header`
(the bounding box in nanodegrees). -/
structure HeaderBlock where
  bbox : Option (Int × Int × Int × Int)
  required_features : List String
  optional_features : List String
  writingprogram : Option String
  source : Option String
  osmosis_replication_timestamp : Option Int
  osmosis_replication_sequence_number : Option Int
  osmosis_replication_base_url : Option String
  deriving DecidableEq, Repr

/-- The code outside the repository that the parser calls: the unpack functions
generated by protobuf-c (`none` is a `NULL` result), zlib, the content of memory
that `malloc` returns, and the method `Float#round` of the Ruby runtime.  `inflate zdata`
is the data that the zlib stream `zdata` decompresses to, `none` when `zdata` is not a
complete valid stream; `float_round ndigits x` is the result of `x.round(ndigits)`. -/
structure Ext where
  blob_header__unpack : List Nat → Option BlobHeader
  blob__unpack : List Nat → Option Blob
  header_block__unpack : List Nat → Option HeaderBlock
  primitive_block__unpack : List Nat → Option PrimitiveBlock
  inflate : List Nat → Option (List Nat)
  uninitialised : Nat → Nat
  float_round : Int → RFloat → RFloat

/-- Macro `FIX7(num)`, that is `rb_funcall(num, rb_intern("round"), 1, INT2NUM(7))`. -/
def FIX7 (ext : Ext) (num : RFloat) : RFloat := ext.float_round 7 num

/-- The value stored under `lat` in a node hash: `FIX7(rb_float_new(lat))` for
`lat = NANO_DEGREE * x`, `x` being the 64-bit integer `lat_nano`. -/
def NodeOut.lat (ext : Ext) (node : NodeOut) : RFloat :=
  FIX7 ext (nano_degree_times node.lat_nano)

/-- The value stored under `lon` in a node hash: `FIX7(rb_float_new(lon))` for
`lon = NANO_DEGREE * x`, `x` being the 64-bit integer `lon_nano`. -/
def NodeOut.lon (ext : Ext) (node : NodeOut) : RFloat :=
  FIX7 ext (nano_degree_times node.lon_nano)

/-- Constant `MAX_BLOB_HEADER_SIZE`, the macro `64 * 1024`. -/
def MAX_BLOB_HEADER_SIZE : Nat := 64 * 1024

/-- Constant `MAX_BLOB_SIZE`, the macro `32 * 1024 * 1024`. -/
def MAX_BLOB_SIZE : Nat := 32 * 1024 * 1024

/-! ## Framing: `get_header_size`, `read_blob_header`, `read_blob` -/

/-- Model of `ntohl` of four bytes taken in file order: the big-endian 32-bit value. -/
def ntohl (buffer : List Nat) : Nat :=
  buffer.foldl (fun acc b => acc * 256 + b) 0

/-- Model of `get_header_size(input)`: 0 when four bytes cannot be read. -/
def get_header_size (input : CFile) : Nat × CFile :=
  match fread input 4 with
  | (none, f) => (0, f)
  | (some buffer, f) => (ntohl buffer, f)

/-- Model of `read_blob_header(input)`: `.ok none` is the `NULL` return at end of file. -/
def read_blob_header (ext : Ext) (input : CFile) : Except Err (Option BlobHeader) × CFile :=
  match get_header_size input with
  | (length, f) =>
    if length < 1 ∨ length > MAX_BLOB_HEADER_SIZE then
      if feof f then (.ok none, f) else (.error (.io "Invalid blob header size"), f)
    else
      match fread f length with
      | (none, f1) => (.error (.io "Unable to read the blob header"), f1)
      | (some buffer, f1) =>
        match ext.blob_header__unpack buffer with
        | none => (.error (.io "Unable to unpack the blob header"), f1)
        | some header => (.ok (some header), f1)

/-- The part of `read_blob` after the `Blob` is unpacked: the `*raw_length` bytes at
`data`.  On the zlib path the buffer has `MAX_BLOB_SIZE` bytes, `avail_out` is
`raw_size` as `unsigned int`, one `inflate` call must end with `Z_STREAM_END`, and
`*raw_length` is `raw_size` as `size_t`; bytes of the buffer that `inflate` did not
write are uninitialised. -/
def blob_data (ext : Ext) (blob : Blob) : Except Err (List Nat) :=
  match blob.raw with
  | some raw => .ok raw
  | none =>
    match blob.zlib_data with
    | some zlib_data =>
      let avail_out := (to_u32 blob.raw_size).toNat
      match ext.inflate zlib_data with
      | none => .error (.runtime "Zlib compression failed")
      | some out =>
        if min out.length avail_out > MAX_BLOB_SIZE then .error (.ub "inflate buffer" MAX_BLOB_SIZE)
        else if out.length ≤ avail_out then
          let raw_length := (to_u64 blob.raw_size).toNat
          if raw_length > MAX_BLOB_SIZE then .error (.ub "inflate buffer" MAX_BLOB_SIZE)
          else .ok (out ++ (List.range (raw_length - out.length)).map
                 (fun k => ext.uninitialised (out.length + k)))
        else .error (.runtime "Zlib compression failed")
    | none =>
      match blob.lzma_data with
      | some _ => .error (.notimp "LZMA compression is not supported")
      | none => .error (.notimp "Unknown blob format")

/-- Model of `read_blob(input, length, &raw_length)`: the bytes `data[0 .. raw_length)`. -/
def read_blob (ext : Ext) (input : CFile) (length : Nat) : Except Err (List Nat) × CFile :=
  if length < 1 ∨ length > MAX_BLOB_SIZE then (.error (.io "Invalid blob size"), input)
  else
    match fread input length with
    | (none, f) => (.error (.io "Unable to read the blob"), f)
    | (some buffer, f) =>
      match ext.blob__unpack buffer with
      | none => (.error (.io "Unable to read the blob"), f)
      | some blob => (blob_data ext blob, f)

/-! ## The parser object -/

/-- An entry of `@blobs`: the hash with keys `header_pos`, `header_size`, `data_pos`,
`data_size`. -/
structure BlobInfo where
  header_pos : Int
  header_size : Int
  data_pos : Int
  data_size : Int
  deriving DecidableEq, Repr

/-- A `PbfParser` object: the wrapped `FILE *` and the instance variables `@header`,
`@data`, `@blobs`, `@pos` (`none` is `nil`). -/
structure Parser where
  input : CFile
  header : Option HeaderBlock
  data : Option Data
  blobs : List BlobInfo
  pos : Int
  deriving DecidableEq, Repr

/-- Model of `parse_osm_header(obj, input)`. -/
def parse_osm_header (ext : Ext) (p : Parser) : Except Err Unit × Parser :=
  match read_blob_header ext p.input with
  | (.error e, f) => (.error e, { p with input := f })
  | (.ok none, f) => (.error (.eof "EOF reached without finding data"), { p with input := f })
  | (.ok (some header), f) =>
    if header.type ≠ "OSMHeader" then
      (.error (.io "OSMHeader not found, probably the file is corrupt or invalid"),
        { p with input := f })
    else
      match read_blob ext f (to_u64 header.datasize).toNat with
      | (.error e, f1) => (.error e, { p with input := f1 })
      | (.ok blob, f1) =>
        match ext.header_block__unpack blob with
        | none => (.error (.io "Unable to unpack the HeaderBlock"), { p with input := f1 })
        | some header_block => (.ok (), { p with input := f1, header := some header_block })

/-- Model of `parse_osm_data(obj)`, the method `next`: `.ok true` is `Qtrue`, `.ok false` is
`Qfalse`. -/
def parse_osm_data (ext : Ext) (p : Parser) : Except Err Bool × Parser :=
  match read_blob_header ext p.input with
  | (.error e, f) => (.error e, { p with input := f })
  | (.ok none, f) => (.ok false, { p with input := f })
  | (.ok (some header), f) =>
    if header.type ≠ "OSMData" then (.error (.io "OSMData not found"), { p with input := f })
    else
      match read_blob ext f (to_u64 header.datasize).toNat with
      | (.error e, f1) => (.error e, { p with input := f1 })
      | (.ok blob, f1) =>
        match ext.primitive_block__unpack blob with
        | none => (.error (.io "Unable to unpack the PrimitiveBlock"), { p with input := f1 })
        | some primitive_block =>
          match decode_block primitive_block with
          | .error e => (.error e, { p with input := f1 })
          | .ok data => (.ok true, { p with input := f1, data := some data, pos := p.pos + 1 })

/-- Model of `size_getter(obj)`. -/
def size_getter (p : Parser) : Nat := p.blobs.length

/-- Model of `rb_ary_entry(ary, offset)`: a negative offset counts from the end; `none` is
`nil`. -/
def rb_ary_entry (ary : List BlobInfo) (offset : Int) : Option BlobInfo :=
  let offset := if offset < 0 then offset + ary.length else offset
  if offset < 0 ∨ (ary.length : Int) ≤ offset then none else ary[offset.toNat]?

/-- Model of `seek_to_osm_data(obj, index)`, the methods `seek` and `pos=`.  `NUM2INT` raises
`RangeError` for an integer outside the range of `int`. -/
def seek_to_osm_data (ext : Ext) (p : Parser) (index : Int) : Except Err Bool × Parser :=
  if index < -2147483648 ∨ 2147483647 < index then
    (.error (.range "integer too big to convert to `int'"), p)
  else
    let index_raw := index
    if p.pos = index_raw then (.ok true, p)
    else
      match rb_ary_entry p.blobs index_raw with
      | none => (.ok false, p)
      | some blob_info =>
        let pos := blob_info.header_pos - 4
        match fseek_set p.input pos with
        | none => (.ok false, p)
        | some f => parse_osm_data ext { p with input := f, pos := index_raw - 1 }

/-- The loop `while ((header = read_blob_header(input)) != NULL)` of `find_all_blobs`;
`pos` is the local variable, `blobs` the array `@blobs`.  The result `.ok ()` is the
exit of the loop (by its condition or by `break`). -/
def find_all_blobs_loop (ext : Ext) :
    Nat → CFile → Int → List BlobInfo → Except Err Unit × CFile × List BlobInfo
  | 0, f, _, blobs => (.error .fuel, f, blobs)
  | fuel + 1, f, pos, blobs =>
    match read_blob_header ext f with
    | (.error e, f1) => (.error e, f1, blobs)
    | (.ok none, f1) => (.ok (), f1, blobs)
    | (.ok (some header), f1) =>
      let datasize := header.datasize
      let blobs1 :=
        if header.type = "OSMData" then
          let data_pos := ftell f1
          blobs ++ [{ header_pos := pos + 4, header_size := data_pos - pos - 4,
                      data_pos := data_pos, data_size := to_u32 datasize }]
        else blobs
      match fseek_cur f1 datasize with
      | none => (.ok (), f1, blobs1)
      | some f2 => find_all_blobs_loop ext fuel f2 (ftell f2) blobs1

/-- Model of `find_all_blobs(obj)`.  The loop is given `length + 1` iterations: the
position at the head of the loop determines the rest of the scan, and the scan ends once
that position is at or past the end of the file, so a longer scan repeats a position and
never ends; that case is the result `Err.fuel`. -/
def find_all_blobs (ext : Ext) (p : Parser) : Except Err Bool × Parser :=
  let old_pos := ftell p.input
  match fseek_set p.input 0 with
  | none => (.ok false, p)
  | some f =>
    match find_all_blobs_loop ext (p.input.content.length + 1) f 0 [] with
    | (.error e, f1, blobs) => (.error e, { p with input := f1, blobs := blobs })
    | (.ok (), f1, blobs) =>
      match fseek_set f1 old_pos with
      | none => (.ok false, { p with input := f1, blobs := blobs })
      | some f2 => (.ok true, { p with input := f2, blobs := blobs })

/-- The object when the method `initialize` has opened the file. -/
def Parser.opened (content : List Nat) : Parser :=
  { input := { content := content, pos := 0, eof := false }, header := none, data := none,
    blobs := [], pos := -1 }

/-- The method `initialize(obj, filename)` from the point where `fopen` has succeeded
on a file with the bytes `content`; the values returned by `parse_osm_data` and
`find_all_blobs` are ignored. -/
def initialize_obj (ext : Ext) (content : List Nat) : Except Err Unit × Parser :=
  let p := Parser.opened content
  match parse_osm_header ext p with
  | (.error e, p1) => (.error e, p1)
  | (.ok (), p1) =>
    match parse_osm_data ext p1 with
    | (.error e, p2) => (.error e, p2)
    | (.ok _, p2) =>
      match find_all_blobs ext p2 with
      | (.error e, p3) => (.error e, p3)
      | (.ok _, p3) => (.ok (), p3)

/-- A tuple yielded by `iterate`: the arrays `nodes`, `ways`, `relations` of `@data`. -/
abbrev Yielded := List NodeOut × List WayOut × List RelationOut

/-- The `do { ... } while(RTEST(parse_osm_data(obj)))` loop of `iterate`, with a block
given; `yielded` collects the tuples passed to `rb_yield_values`.  The three getters
call `rb_hash_aref` on `@data`, which has no defined behaviour when `@data` is `nil`. -/
def iterate_loop (ext : Ext) : Nat → Parser → List Yielded → Except Err Unit × Parser × List Yielded
  | 0, p, yielded => (.error .fuel, p, yielded)
  | fuel + 1, p, yielded =>
    match p.data with
    | none => (.error (.ub "@data" 0), p, yielded)
    | some data =>
      let yielded1 := yielded ++ [(data.nodes, data.ways, data.relations)]
      match parse_osm_data ext p with
      | (.error e, p1) => (.error e, p1, yielded1)
      | (.ok true, p1) => iterate_loop ext fuel p1 yielded1
      | (.ok false, p1) => (.ok (), p1, yielded1)

/-- Model of `iterate(obj)`, the method `each`, called with a block; the result `.ok ()`
is the return of `Qnil`.  Every call of `parse_osm_data` that returns true moves the
file position forward, so the loop is given `length + 1` iterations. -/
def iterate (ext : Ext) (p : Parser) : Except Err Unit × Parser × List Yielded :=
  iterate_loop ext (p.input.content.length + 1) p []

/-! ## Vocabulary of the statements -/

/-- Sum of the elements `l[0..k]`, the element at index `k` included. -/
def running_sum (l : List Int) (k : Nat) : Int := (l.take (k + 1)).sum

/-- The members `k < n` of relation `r` whose `types[k]` is `type`, in original order:
member `k` has the 64-bit running sum of `memids[0..k]` as id and, when `roles_sid[k]`
is not 0, the C string of `string_table[roles_sid[k]]` as role, no role otherwise. -/
def members_upto (st : List String) (r : Relation) (type : Int) (n : Nat) : List Member :=
  ((List.range n).filter (fun k => r.types[k]? == some type)).map (fun k =>
    { id := wrap64 (running_sum r.memids k),
      role := if r.roles_sid.getD k 0 = 0 then none
              else some (str_new (st.getD (r.roles_sid.getD k 0).toNat "")) })

/-- All members of relation `r` whose type is `type`, in original order. -/
def members_of_type (st : List String) (r : Relation) (type : Int) : List Member :=
  members_upto st r type r.memids.length

/-- The `Info` record that `process_dense_nodes` builds for index `i` when `denseinfo`
is present: `version[i]` itself, and the running sums up to `i` of the four
delta-encoded arrays, in the width of their registers. -/
def dense_info_at (di : DenseInfo) (i : Nat) : Info :=
  { version := di.version.getD i 0
    timestamp := wrap64 (running_sum di.timestamp i)
    changeset := wrap64 (running_sum di.changeset i)
    uid := wrap32 (running_sum di.uid i)
    user_sid := to_u32 (wrap32 (running_sum di.user_sid i)) }

/-- What the statement on delta decoding says of the node emitted for index `i`. -/
def dense_node_num (d : DenseNodes) (st : List String) (lat_offset lon_offset granularity
    ts_granularity : Int) (i : Nat) (nd : NodeOut) : Prop :=
  nd.id = wrap64 (running_sum d.id i) ∧
  nd.lat_nano = nano_coord lat_offset (wrap64 (running_sum d.lat i)) granularity ∧
  nd.lon_nano = nano_coord lon_offset (wrap64 (running_sum d.lon i)) granularity ∧
  (d.denseinfo = none → nd.meta = none) ∧
  (∀ di, d.denseinfo = some di →
    ∃ m, add_info (dense_info_at di i) st ts_granularity = .ok m ∧ nd.meta = some m)

/-- Loop invariant of `process_dense_nodes` on the running sums and the nodes emitted
before index `n`. -/
def dense_num_inv (d : DenseNodes) (st : List String) (lat_offset lon_offset granularity
    ts_granularity : Int) (out0 : List NodeOut) (n : Nat) (s : DenseState) : Prop :=
  s.node_id = to_u64 (d.id.take n).sum ∧
  s.delta_lat = wrap64 (d.lat.take n).sum ∧
  s.delta_lon = wrap64 (d.lon.take n).sum ∧
  (∀ di, d.denseinfo = some di →
    s.delta_timestamp = wrap64 (di.timestamp.take n).sum ∧
    s.delta_changeset = wrap64 (di.changeset.take n).sum ∧
    s.delta_user_sid = wrap32 (di.user_sid.take n).sum ∧
    s.delta_uid = wrap32 (di.uid.take n).sum) ∧
  ∃ nodes, s.out = out0 ++ nodes ∧ nodes.length = n ∧
    ∀ k, k < n → ∃ nd, nodes[k]? = some nd ∧
      dense_node_num d st lat_offset lon_offset granularity ts_granularity k nd

/-- The `keys_vals` entries of one dense node: its (key index, value index) pairs
followed by the terminator 0. -/
def encode_segment : List (Int × Int) → List Int
  | [] => [0]
  | (k, v) :: rest => k :: v :: encode_segment rest

/-- A well-formed `keys_vals` array: the concatenation of the segments of the nodes. -/
def encode_keys_vals : List (List (Int × Int)) → List Int
  | [] => []
  | seg :: segs => encode_segment seg ++ encode_keys_vals segs

/-- The tag hash obtained from `tags` by setting, pair after pair, the key
`string_table[k]` to the value `string_table[v]` (both read as C strings). -/
def tags_of_segment (st : List String) : List (Int × Int) → Tags → Tags
  | [], tags => tags
  | (k, v) :: rest, tags =>
    tags_of_segment st rest
      (rb_hash_aset tags (str_new (st.getD k.toNat "")) (str_new (st.getD v.toNat "")))

/-- Loop invariant of `process_dense_nodes` on the cursor `j` and the tags of the nodes
emitted before index `n`, for a `keys_vals` array made of the segments `segs`. -/
def dense_tag_inv (st : List String) (segs : List (List (Int × Int))) (out0 : List NodeOut)
    (n : Nat) (s : DenseState) : Prop :=
  s.j = (encode_keys_vals (segs.take n)).length ∧
  ∃ nodes, s.out = out0 ++ nodes ∧ nodes.length = n ∧
    ∀ k, k < n → ∃ nd, nodes[k]? = some nd ∧ nd.tags = tags_of_segment st (segs.getD k []) []

/-- The four bytes of the big-endian 32-bit encoding of `n`. -/
def be32_bytes (n : Nat) : List Nat :=
  [n / 16777216 % 256, n / 65536 % 256, n / 256 % 256, n % 256]

/-- A fileblock of a PBF file: the bytes of its BlobHeader and of its Blob. -/
structure Fileblock where
  header_bytes : List Nat
  payload : List Nat
  deriving DecidableEq, Repr

/-- The bytes of a fileblock: length of the BlobHeader, BlobHeader, Blob. -/
def fileblock_bytes (b : Fileblock) : List Nat :=
  be32_bytes b.header_bytes.length ++ (b.header_bytes ++ b.payload)

/-- The bytes of a file made of the given fileblocks. -/
def file_bytes : List Fileblock → List Nat
  | [] => []
  | b :: rest => fileblock_bytes b ++ file_bytes rest

/-- The type tag of a fileblock, when its BlobHeader unpacks. -/
def block_type (ext : Ext) (b : Fileblock) : Option String :=
  (ext.blob_header__unpack b.header_bytes).map (fun h => h.type)

/-- A well-formed fileblock: the BlobHeader has between 1 and `MAX_BLOB_HEADER_SIZE`
bytes and unpacks, and its `datasize` (an `int32`) is the number of bytes of the Blob. -/
def well_formed (ext : Ext) (b : Fileblock) : Prop :=
  1 ≤ b.header_bytes.length ∧ b.header_bytes.length ≤ MAX_BLOB_HEADER_SIZE ∧
  b.payload.length < 2147483648 ∧
  ∃ h, ext.blob_header__unpack b.header_bytes = some h ∧ h.datasize = b.payload.length

/-- The descriptors of the "OSMData" fileblocks among `blocks`, in file order, for a
first fileblock that starts at byte `off`: the offset of the BlobHeader, its length, the
offset of the Blob, and its length. -/
def descriptors (ext : Ext) : Nat → List Fileblock → List BlobInfo
  | _, [] => []
  | off, b :: rest =>
    (if block_type ext b = some "OSMData" then
      [{ header_pos := off + 4, header_size := b.header_bytes.length,
         data_pos := off + 4 + b.header_bytes.length, data_size := b.payload.length }]
     else []) ++ descriptors ext (off + (fileblock_bytes b).length) rest

/-- The records that `parse_osm_data` materialises from the bytes of a Blob. -/
def decode_payload (ext : Ext) (payload : List Nat) : Except Err Data :=
  match ext.blob__unpack payload with
  | none => .error (.io "Unable to read the blob")
  | some blob =>
    match blob_data ext blob with
    | .error e => .error e
    | .ok bytes =>
      match ext.primitive_block__unpack bytes with
      | none => .error (.io "Unable to unpack the PrimitiveBlock")
      | some primitive_block => decode_block primitive_block

/-- A well-formed "OSMData" fileblock: well-formed framing, a Blob of 1 to
`MAX_BLOB_SIZE` bytes, and a payload that decodes. -/
def well_formed_data (ext : Ext) (b : Fileblock) : Prop :=
  well_formed ext b ∧ block_type ext b = some "OSMData" ∧
  1 ≤ b.payload.length ∧ b.payload.length ≤ MAX_BLOB_SIZE ∧
  ∃ data, decode_payload ext b.payload = .ok data

/-- Parser states reached from a successful open of the file `content` by calls of
`next` and `seek` that returned (true or false). -/
inductive Reachable (ext : Ext) (content : List Nat) : Parser → Prop where
  | opened (p : Parser) : initialize_obj ext content = (.ok (), p) → Reachable ext content p
  | next (p p1 : Parser) (r : Bool) : Reachable ext content p →
      parse_osm_data ext p = (.ok r, p1) → Reachable ext content p1
  | seek (p p1 : Parser) (index : Int) (r : Bool) : Reachable ext content p →
      seek_to_osm_data ext p index = (.ok r, p1) → Reachable ext content p1

/-- The parser after `n` further calls of `next`, whatever they return. -/
def advance_n (ext : Ext) : Nat → Parser → Parser
  | 0, p => p
  | n + 1, p => advance_n ext n (parse_osm_data ext p).2

/-- The records of a fileblock whose payload decodes (no records otherwise). -/
def block_data (ext : Ext) (b : Fileblock) : Data :=
  match decode_payload ext b.payload with
  | .ok data => data
  | .error _ => init_data_arr

/-- The byte at which data block `k` starts in the file made of the fileblock `hb`
followed by the fileblocks `dbs`. -/
def block_offset (hb : Fileblock) (dbs : List Fileblock) (k : Nat) : Nat :=
  (file_bytes (hb :: dbs.take k)).length

/-- The state of a parser on the file `hb :: dbs` that holds data block `k`: `@data`
is the records of that block, the file is positioned after it, and `@pos` is `k`, or
`k - size` after a `seek` with a negative index. -/
def holds_block (ext : Ext) (hb : Fileblock) (dbs : List Fileblock) (p : Parser) (k : Nat) :
    Prop :=
  k < dbs.length ∧ (p.pos = k ∨ p.pos = (k : Int) - dbs.length) ∧
  p.data = some (block_data ext (dbs.getD k hb)) ∧ p.input.pos = block_offset hb dbs (k + 1)

/-- A file position is consistent with the end-of-file indicator: the indicator is set
only by a read that reached the end of the file, and is cleared by `fseek`. -/
def CFile.consistent (f : CFile) : Prop := f.eof = true → f.content.length ≤ f.pos

/-- The invariant of the parser states on the file `hb :: dbs`: the file content and
the index are those of the file, and, when the file has data blocks, the parser holds
one of them. -/
def valid_state (ext : Ext) (hb : Fileblock) (dbs : List Fileblock) (p : Parser) : Prop :=
  p.input.content = file_bytes (hb :: dbs) ∧ p.blobs = descriptors ext 0 (hb :: dbs) ∧
  (dbs = [] ∨ ∃ k, holds_block ext hb dbs p k)

/-- The key strings of a `keys` array as the tag loop builds them: the C string of
the string-table entry of each index. -/
def tag_keys (st : List String) (keys : List Int) : List String :=
  keys.map (fun key_sid => str_new (st.getD key_sid.toNat ""))

/-- What holds of the size of the tag hash built from `keys`: it is the number of distinct
key strings, hence at most `n_keys`, and `n_keys` exactly when no key string occurs
twice. -/
def tag_size_law (st : List String) (keys : List Int) (tags : Tags) : Prop :=
  tags.length = (tag_keys st keys).dedup.length ∧
  tags.length ≤ keys.length ∧
  (tags.length = keys.length ↔ (tag_keys st keys).Nodup)

/-- What holds of the `timestamp` set by `add_info` for the raw timestamp `t` and the
granularity `g`: none for `t = 0`; otherwise the product formed in `double` and
converted back, which is the integer `t * g` when `t` and `t * g` are below `2^53` in
absolute value. -/
def timestamp_law (t g : Int) (m : Meta) : Prop :=
  (t = 0 → m.timestamp = none) ∧
  (t ≠ 0 → m.timestamp = some (double_of_int (double_of_int t * g))) ∧
  (t ≠ 0 → t.natAbs < 9007199254740992 → (t * g).natAbs < 9007199254740992 →
    m.timestamp = some (t * g))

/-- The file positions at which the scan loop of `find_all_blobs` stands at the head of an
iteration, on a file with the bytes `content`: position 0, and the position reached
from such a position by reading a BlobHeader there and skipping its `datasize` bytes. -/
inductive ScanAt (ext : Ext) (content : List Nat) : Nat → Prop where
  | start : ScanAt ext content 0
  | step (pos : Nat) (header : BlobHeader) (f1 f2 : CFile) : ScanAt ext content pos →
      read_blob_header ext ⟨content, pos, false⟩ = (.ok (some header), f1) →
      fseek_cur f1 header.datasize = some f2 → ScanAt ext content f2.pos

/-- Every BlobHeader of the file declares a non-negative `datasize`: the BlobHeaders of
the file are those that the scan reads, one at each position of `ScanAt`. -/
def scanned_datasize_nonneg (ext : Ext) (content : List Nat) : Prop :=
  ∀ (pos : Nat) (header : BlobHeader) (f1 : CFile), ScanAt ext content pos →
    read_blob_header ext ⟨content, pos, false⟩ = (.ok (some header), f1) →
    0 ≤ header.datasize

/-- The pairs of a segment resolved through the string table: each (key index, value
index) pair as the pair of the C strings of the two string-table entries, in order. -/
def resolved_pairs (st : List String) (seg : List (Int × Int)) : Tags :=
  seg.map (fun p => (str_new (st.getD p.1.toNat ""), str_new (st.getD p.2.toNat "")))

/-- What holds of the meta values that `add_info` sets for the record `info`: each of
`version`, `changeset`, `uid` is the value of the record, or nil when that value is 0;
`user` is nil when `user_sid` is 0 and otherwise the C string of the string-table
entry `user_sid`, an index of the table; `timestamp` follows `timestamp_law`. -/
def meta_law (st : List String) (g : Int) (info : Info) (m : Meta) : Prop :=
  m.version = (if info.version = 0 then none else some info.version) ∧
  m.changeset = (if info.changeset = 0 then none else some info.changeset) ∧
  m.uid = (if info.uid = 0 then none else some info.uid) ∧
  (info.user_sid = 0 → m.user = none) ∧
  (info.user_sid ≠ 0 → 0 ≤ info.user_sid ∧ info.user_sid < st.length ∧
    m.user = some (str_new (st.getD info.user_sid.toNat ""))) ∧
  timestamp_law info.timestamp g m

/-- The tag hash of a row-wise entity with the arrays `keys` and `vals`: the hash
obtained by setting, for one index after the other, the C string of the string-table
entry `keys[j]` to the C string of the string-table entry `vals[j]`. -/
def tags_law (st : List String) (keys vals : List Int) (tags : Tags) : Prop :=
  tags = tags_of_segment st (keys.zip vals) []

/-- The meta values of an entity with the optional `info`: none without `info`, and
otherwise what `meta_law` says of the values that `add_info` sets. -/
def info_law (st : List String) (g : Int) (info : Option Info) (meta : Option Meta) : Prop :=
  match info with
  | none => meta = none
  | some i => ∃ m, meta = some m ∧ meta_law st g i m

/-- What the record `nd` of the row-wise node `node` holds: the id, the two nanodegree
integers of the coordinates, the tags and the meta values. -/
def node_law (st : List String) (lat_offset lon_offset granularity g : Int) (node : Node)
    (nd : NodeOut) : Prop :=
  nd.id = node.id ∧
  nd.lat_nano = nano_coord lat_offset node.lat granularity ∧
  nd.lon_nano = nano_coord lon_offset node.lon granularity ∧
  tags_law st node.keys node.vals nd.tags ∧ info_law st g node.info nd.meta

/-- What the record `w` of the way `way` holds: the id, the running sums of `refs`, the
tags and the meta values. -/
def way_law (st : List String) (g : Int) (way : Way) (w : WayOut) : Prop :=
  w.id = way.id ∧
  (w.refs.length = way.refs.length ∧
    ∀ k, k < way.refs.length → w.refs[k]? = some (wrap64 (running_sum way.refs k))) ∧
  tags_law st way.keys way.vals w.tags ∧ info_law st g way.info w.meta

/-- What the record `ro` of the relation `r` holds: the id, the members of each type,
the tags and the meta values. -/
def relation_law (st : List String) (g : Int) (r : Relation) (ro : RelationOut) : Prop :=
  ro.id = r.id ∧
  ro.nodes = members_of_type st r MEMBER_TYPE_NODE ∧
  ro.ways = members_of_type st r MEMBER_TYPE_WAY ∧
  ro.relations = members_of_type st r MEMBER_TYPE_RELATION ∧
  tags_law st r.keys r.vals ro.tags ∧ info_law st g r.info ro.meta

/-- What the records `dense` of the dense nodes `d` hold: one record per id, in order,
with the running sums of `dense_node_num` and the meta values of `meta_law`. -/
def dense_law (st : List String) (lat_offset lon_offset granularity g : Int) (d : DenseNodes)
    (dense : List NodeOut) : Prop :=
  dense.length = d.id.length ∧
  ∀ i, i < d.id.length → ∃ nd, dense[i]? = some nd ∧
    dense_node_num d st lat_offset lon_offset granularity g i nd ∧
    ∀ di, d.denseinfo = some di →
      ∃ m, nd.meta = some m ∧ meta_law st g (dense_info_at di i) m

/-- The nodes that one primitive group contributes to the records of its block: the
decoded row-wise nodes of the group, in order, followed by its decoded dense nodes. -/
def group_nodes (pb : PrimitiveBlock) (g : PrimitiveGroup) (ns : List NodeOut) : Prop :=
  ∃ rows dense, ns = rows ++ dense ∧
    List.Forall₂ (fun node nd =>
      process_node node pb.stringtable pb.lat_offset pb.lon_offset pb.granularity
        pb.date_granularity = .ok nd ∧
      node_law pb.stringtable pb.lat_offset pb.lon_offset pb.granularity pb.date_granularity
        node nd) g.nodes rows ∧
    (match g.dense with
     | none => dense = []
     | some d =>
       process_dense_nodes [] d pb.stringtable pb.lat_offset pb.lon_offset
         pb.granularity pb.date_granularity = .ok dense ∧
       dense_law pb.stringtable pb.lat_offset pb.lon_offset pb.granularity
         pb.date_granularity d dense)

/-- The ways that one primitive group contributes: its decoded ways, in order. -/
def group_ways (pb : PrimitiveBlock) (g : PrimitiveGroup) (ws : List WayOut) : Prop :=
  List.Forall₂ (fun way w =>
    process_way way pb.stringtable pb.date_granularity = .ok w ∧
    way_law pb.stringtable pb.date_granularity way w) g.ways ws

/-- The relations that one primitive group contributes: its decoded relations, in
order. -/
def group_relations (pb : PrimitiveBlock) (g : PrimitiveGroup) (rs : List RelationOut) :
    Prop :=
  List.Forall₂ (fun relation r =>
    process_relation relation pb.stringtable pb.date_granularity = .ok r ∧
    relation_law pb.stringtable pb.date_granularity relation r) g.relations rs

/-- The records of a primitive block: `nodes`, `ways` and `relations` are the
concatenations, over the primitive groups in order, of what each group contributes. -/
def block_records (pb : PrimitiveBlock) (data : Data) : Prop :=
  ∃ (ns : List (List NodeOut)) (ws : List (List WayOut)) (rs : List (List RelationOut)),
    data.nodes = ns.flatten ∧ data.ways = ws.flatten ∧ data.relations = rs.flatten ∧
    List.Forall₂ (group_nodes pb) pb.primitivegroup ns ∧
    List.Forall₂ (group_ways pb) pb.primitivegroup ws ∧
    List.Forall₂ (group_relations pb) pb.primitivegroup rs

/-- The records of the data block with the Blob bytes `payload`: the Blob unpacks, its
data unpack to a primitive block, and the records are those of that block. -/
def payload_records (ext : Ext) (payload : List Nat) (data : Data) : Prop :=
  ∃ (blob : Blob) (bytes : List Nat) (pb : PrimitiveBlock),
    ext.blob__unpack payload = some blob ∧ blob_data ext blob = .ok bytes ∧
    ext.primitive_block__unpack bytes = some pb ∧ block_records pb data

/-- The `double` nearest to the ratio `n / d` (ties to even), for a ratio that is at least
`2^52` (the nearest `double` is then an integer) or for `n = 0`. -/
def double_of_ratio (n d : Nat) : Nat :=
  let s := mantissa_shift 256 (n / d)
  let den := d * 2 ^ s
  let q := n / den
  let r := n % den
  if 2 * r > den ∨ (2 * r = den ∧ q % 2 = 1) then (q + 1) * 2 ^ s else q * 2 ^ s

/-- The `double` nearest to the decimal number `k / 10^ndigits`, that is to the number
with `ndigits` fractional digits whose digits are those of `k`. -/
def double_of_decimal (ndigits : Nat) (k : Int) : RFloat :=
  ⟨if k < 0 then
      -((double_of_ratio (k.natAbs * 4835703278458516698824704) (10 ^ ndigits) : Nat) : Int)
    else ((double_of_ratio (k.natAbs * 4835703278458516698824704) (10 ^ ndigits) : Nat) : Int)⟩

/-- What is assumed of `Float#round(7)`: a `double` of magnitude at most `2^20` whose
value times `10^7` is within 0.499 of the integer `k` is rounded to the `double`
nearest to `k / 10^7`. -/
def float_round_spec (ext : Ext) : Prop :=
  ∀ (x : RFloat) (k : Int),
    -5070602400912917605986812821504 ≤ x.scaled →
    x.scaled ≤ 5070602400912917605986812821504 →
    -(499 * 4835703278458516698824704) ≤
      1000 * (x.scaled * 10000000 - k * 4835703278458516698824704) →
    1000 * (x.scaled * 10000000 - k * 4835703278458516698824704) ≤
      499 * 4835703278458516698824704 →
    ext.float_round 7 x = double_of_decimal 7 k

/-- What holds of the coordinate `emitted` for the 64-bit nanodegree integer `x`: it is
`Float#round(7)` of the `double` product `NANO_DEGREE * x`; for `|x| <= 10^15` this
product is within `2 * 10^-10` of `x * 10^-9`; and when `Float#round(7)` meets
`float_round_spec`, `|x| <= 10^15`, and `x * 10^-9` is not half-way between two numbers
of 7 fractional digits, `emitted` is the `double` nearest to `x * 10^-9` rounded to 7
fractional digits. -/
def coordinate_law (ext : Ext) (x : Int) (emitted : RFloat) : Prop :=
  emitted = ext.float_round 7 (nano_degree_times x) ∧
  (-1000000000000000 ≤ x → x ≤ 1000000000000000 →
    -4835703278458516698824704 ≤
      5 * ((nano_degree_times x).scaled * 1000000000 - x * 4835703278458516698824704) ∧
    5 * ((nano_degree_times x).scaled * 1000000000 - x * 4835703278458516698824704) ≤
      4835703278458516698824704) ∧
  (float_round_spec ext → -1000000000000000 ≤ x → x ≤ 1000000000000000 → x % 100 ≠ 50 →
    emitted = double_of_decimal 7 ((x + 50) / 100))

/-! ## A small instance of the external collaborators, for the concrete examples -/

/-- An unpacker for examples: a BlobHeader of one byte, 1 for "OSMHeader" and 2 for
"OSMData", with a Blob of one byte; every Blob is a raw blob of its own bytes;
every payload unpacks to a header block with one required feature, or to a primitive
block with one dense node whose id is the first byte.  Its `Float#round` takes the
integer nearest to the value times `10^ndigits` (a half goes up) and returns the
`double` nearest to that integer divided by `10^ndigits`. -/
def example_ext : Ext where
  float_round := fun ndigits x =>
    double_of_decimal ndigits.toNat
      ((2 * x.scaled * 10 ^ ndigits.toNat + 4835703278458516698824704) /
        9671406556917033397649408)
  blob_header__unpack := fun bytes =>
    match bytes with
    | [1] => some { type := "OSMHeader", datasize := 1 }
    | [2] => some { type := "OSMData", datasize := 1 }
    | _ => none
  blob__unpack := fun bytes =>
    some { raw := some bytes, raw_size := 0, zlib_data := none, lzma_data := none }
  header_block__unpack := fun _ =>
    some { bbox := none, required_features := ["OsmSchema-V0.6"], optional_features := [],
           writingprogram := none, source := none, osmosis_replication_timestamp := none,
           osmosis_replication_sequence_number := none, osmosis_replication_base_url := none }
  primitive_block__unpack := fun bytes =>
    some { stringtable := [""], granularity := 100, lat_offset := 0, lon_offset := 0,
           date_granularity := 1000,
           primitivegroup := [⟨[], some ⟨[(bytes.headD 0 : Nat)], none, [0], [0], []⟩, [], []⟩] }
  inflate := fun _ => none
  uninitialised := fun _ => 0

/-- A file of an "OSMHeader" fileblock and two "OSMData" fileblocks, read with
`example_ext`; the fileblocks start at bytes 0, 6 and 12. -/
def example_file : List Nat :=
  file_bytes [{ header_bytes := [1], payload := [9] }, { header_bytes := [2], payload := [7] },
    { header_bytes := [2], payload := [8] }]

/-- An instance with compressed blobs, for examples: the first byte of a Blob is its
declared `raw_size`, the rest its `zlib_data`; a stream decompresses to itself; fresh
memory holds the byte 170. -/
def example_zlib_ext : Ext :=
  { example_ext with
    blob__unpack := fun bytes =>
      some { raw := none, raw_size := (bytes.headD 0 : Nat), zlib_data := some bytes.tail,
             lzma_data := none }
    inflate := fun zdata => some zdata
    uninitialised := fun _ => 170 }

/-- An instance for examples in which the BlobHeader byte 3 is an "OSMData" header that
declares the `datasize` -5. -/
def example_backward_ext : Ext :=
  { example_ext with
    blob_header__unpack := fun bytes =>
      match bytes with
      | [1] => some { type := "OSMHeader", datasize := 1 }
      | [2] => some { type := "OSMData", datasize := 1 }
      | [3] => some { type := "OSMData", datasize := -5 }
      | _ => none }

/-! # Theorems -/

/-! ## Arithmetic of the registers -/

theorem wrap64_add_wrap64 (a b : Int) : wrap64 (wrap64 a + b) = wrap64 (a + b) := by
  unfold wrap64; omega

theorem wrap32_add_wrap32 (a b : Int) : wrap32 (wrap32 a + b) = wrap32 (a + b) := by
  unfold wrap32; omega

theorem wrap64_to_u64_add (a b : Int) : wrap64 (to_u64 a + b) = wrap64 (a + b) := by
  unfold wrap64 to_u64; omega

theorem to_u64_to_u64_add (a b : Int) : to_u64 (to_u64 a + b) = to_u64 (a + b) := by
  unfold to_u64; omega

theorem wrap64_of_range (a : Int) (h1 : -9223372036854775808 ≤ a) (h2 : a < 9223372036854775808) :
    wrap64 a = a := by
  unfold wrap64; omega

theorem running_sum_cons (x : Int) (l : List Int) (k : Nat) :
    running_sum (x :: l) (k + 1) = x + running_sum l k := by
  simp [running_sum]

theorem running_sum_cons_zero (x : Int) (l : List Int) : running_sum (x :: l) 0 = x := by
  simp [running_sum]

/-! ## Ways -/

theorem refs_loop_spec (refs : List Int) : ∀ (delta_refs : Int) (out : List Int),
    ∃ l, refs_loop refs delta_refs out = out ++ l ∧ l.length = refs.length ∧
      ∀ k, k < refs.length → l[k]? = some (wrap64 (delta_refs + running_sum refs k)) := by
  induction refs with
  | nil => intro d out; exact ⟨[], by simp [refs_loop]⟩
  | cons r refs ih =>
    intro d out
    obtain ⟨l, hl, hlen, hk⟩ := ih (wrap64 (d + r)) (out ++ [wrap64 (d + r)])
    refine ⟨wrap64 (d + r) :: l, ?_, by simp [hlen], ?_⟩
    · simp [refs_loop, hl]
    · intro k hklt
      cases k with
      | zero => simp [running_sum_cons_zero]
      | succ k =>
        have h1 := hk k (by simpa using hklt)
        simp only [List.getElem?_cons_succ, h1, running_sum_cons, wrap64_add_wrap64]
        congr 2; ring

theorem process_ways_inv (st : List String) (tg : Int) (ways : List Way) :
    ∀ (out outs : List WayOut), process_ways out ways st tg = .ok outs →
      ∃ l, outs = out ++ l ∧ l.length = ways.length ∧
        ∀ i (hi : i < ways.length), ∃ w, l[i]? = some w ∧ process_way ways[i] st tg = .ok w := by
  induction ways with
  | nil => intro out outs h; simp [process_ways] at h; exact ⟨[], by simp [h]⟩
  | cons way rest ih =>
    intro out outs h
    rw [process_ways] at h
    split at h
    · exact absurd h (by simp)
    · rename_i w hw
      obtain ⟨l, hl, hlen, hi⟩ := ih _ _ h
      refine ⟨w :: l, by simp [hl], by simp [hlen], ?_⟩
      intro i hilt
      cases i with
      | zero => exact ⟨w, by simp, by simpa using hw⟩
      | succ i =>
        obtain ⟨w1, hw1, hw2⟩ := hi i (by simpa using hilt)
        exact ⟨w1, by simpa using hw1, by simpa using hw2⟩

theorem process_ways_complete (st : List String) (tg : Int) (ways : List Way) :
    ∀ (out : List WayOut), (∀ way ∈ ways, ∃ w, process_way way st tg = .ok w) →
      ∃ outs, process_ways out ways st tg = .ok outs := by
  induction ways with
  | nil => intro out _; exact ⟨out, by simp [process_ways]⟩
  | cons way rest ih =>
    intro out h
    obtain ⟨w, hw⟩ := h way (by simp)
    obtain ⟨outs, houts⟩ := ih (out ++ [w]) (fun x hx => h x (by simp [hx]))
    exact ⟨outs, by rw [process_ways, hw]; exact houts⟩

theorem process_way_refs (way : Way) (st : List String) (tg : Int) (w : WayOut)
    (h : process_way way st tg = .ok w) : w.refs = refs_loop way.refs 0 [] := by
  unfold process_way at h
  split at h
  · exact absurd h (by simp)
  · split at h
    · exact absurd h (by simp)
    · simp only [Except.ok.injEq] at h
      rw [← h]

theorem process_way_complete (way : Way) (st : List String) (tg : Int)
    (ht : ∃ t, tags_loop st way.vals way.keys 0 [] = .ok t)
    (hi : ∃ m, add_info_opt way.info st tg = .ok m) : ∃ w, process_way way st tg = .ok w := by
  obtain ⟨t, ht⟩ := ht
  obtain ⟨m, hi⟩ := hi
  exact ⟨{ id := way.id, meta := m, tags := t, refs := refs_loop way.refs 0 [] },
    by simp only [process_way, ht, hi]⟩

/-- C1. Every way emitted by a completed `process_ways` call carries a `refs` array
of the length of the raw `refs` array whose `k`-th element is the 64-bit running sum
`refs[0] + ... + refs[k]`, the sum starting at 0 for each way; the call completes
whenever the tag loop and `add_info` of each way do, the `refs` loop cannot fail;
raw `[5, -2, 3]` decodes to `[5, 3, 6]` and raw `[100, 5, -10]` to `[100, 105, 95]`. -/
theorem process_ways_refs_running_sum (out : List WayOut) (ways : List Way)
    (string_table : List String) (ts_granularity : Int) :
    (∀ outs, process_ways out ways string_table ts_granularity = .ok outs →
      ∃ new, outs = out ++ new ∧ new.length = ways.length ∧
        ∀ i (hi : i < ways.length), ∃ w, new[i]? = some w ∧
          w.refs.length = (ways[i]).refs.length ∧
          ∀ k, k < (ways[i]).refs.length →
            w.refs[k]? = some (wrap64 (running_sum (ways[i]).refs k))) ∧
    ((∀ way ∈ ways, (∃ t, tags_loop string_table way.vals way.keys 0 [] = .ok t) ∧
        (∃ m, add_info_opt way.info string_table ts_granularity = .ok m)) →
      ∃ outs, process_ways out ways string_table ts_granularity = .ok outs) ∧
    process_ways [] [{ id := 1, keys := [], vals := [], info := none, refs := [5, -2, 3] },
        { id := 2, keys := [], vals := [], info := none, refs := [100, 5, -10] }] [] 1000 =
      .ok [{ id := 1, meta := none, tags := [], refs := [5, 3, 6] },
           { id := 2, meta := none, tags := [], refs := [100, 105, 95] }] := by
  refine ⟨?_, ?_, by decide⟩
  · intro outs h
    obtain ⟨l, hl, hlen, hi⟩ := process_ways_inv string_table ts_granularity ways out outs h
    refine ⟨l, hl, hlen, ?_⟩
    intro i hilt
    obtain ⟨w, hw1, hw2⟩ := hi i hilt
    have hrefs := process_way_refs _ _ _ _ hw2
    obtain ⟨r, hr, hrlen, hrk⟩ := refs_loop_spec (ways[i]).refs 0 []
    simp only [List.nil_append] at hr
    refine ⟨w, hw1, by rw [hrefs, hr, hrlen], ?_⟩
    intro k hk
    rw [hrefs, hr, hrk k hk]
    simp
  · intro h
    exact process_ways_complete string_table ts_granularity ways out
      (fun way hway => process_way_complete way string_table ts_granularity
        (h way hway).1 (h way hway).2)

/-- Witness for C1: two ways of scenario S5 and property 4. -/
theorem process_ways_refs_running_sum_witness :
    ∃ outs, process_ways []
        [{ id := 1, keys := [], vals := [], info := none, refs := [5, -2, 3] },
         { id := 2, keys := [], vals := [], info := none, refs := [100, 5, -10] }] [] 1000 =
      .ok outs :=
  (process_ways_refs_running_sum []
    [{ id := 1, keys := [], vals := [], info := none, refs := [5, -2, 3] },
     { id := 2, keys := [], vals := [], info := none, refs := [100, 5, -10] }] [] 1000).2.1 (by
      intro way hway
      simp only [List.mem_cons, List.mem_singleton, List.not_mem_nil, or_false] at hway
      rcases hway with h | h <;> subst h <;> exact ⟨⟨[], rfl⟩, ⟨none, rfl⟩⟩)

/-! ## Relations -/

theorem members_upto_succ (st : List String) (r : Relation) (type : Int) (n : Nat) :
    members_upto st r type (n + 1) =
      members_upto st r type n ++
        (if r.types[n]? = some type then
          [{ id := wrap64 (running_sum r.memids n),
             role := if r.roles_sid.getD n 0 = 0 then none
                     else some (str_new (st.getD (r.roles_sid.getD n 0).toNat "")) }]
         else []) := by
  unfold members_upto
  rw [List.range_succ, List.filter_append, List.map_append]
  congr 1
  by_cases h : r.types[n]? = some type
  · simp [h]
  · simp [h]

theorem arr_get_ok (name : String) (arr : List Int) (i : Nat) (v : Int)
    (h : arr_get name arr i = .ok v) : arr[i]? = some v := by
  unfold arr_get at h
  split at h
  · simp only [Except.ok.injEq] at h; rw [← h]; assumption
  · exact absurd h (by simp)

theorem string_table_s_ok (st : List String) (i : Int) (s : String)
    (h : string_table_s st i = .ok s) : 0 ≤ i ∧ i < st.length ∧ s = st.getD i.toNat "" := by
  unfold string_table_s at h
  split at h
  · rename_i hc
    simp only [Except.ok.injEq] at h
    exact ⟨hc.1, hc.2, h.symm⟩
  · exact absurd h (by simp)

theorem running_sum_append_cons (pre rest : List Int) (x : Int) :
    running_sum (pre ++ x :: rest) pre.length = pre.sum + x := by
  have h : List.take (pre.length + 1) (pre ++ x :: rest) = pre ++ [x] := by
    rw [List.take_append]; simp
  rw [running_sum, h]; simp

theorem push_member_delta (s : MemberState) (t : Int) (m : Member) :
    (push_member s t m).delta_memids = s.delta_memids := by
  unfold push_member; split_ifs <;> rfl

theorem push_member_nodes (s : MemberState) (t : Int) (m : Member) :
    (push_member s t m).nodes = s.nodes ++ (if t = 0 then [m] else []) := by
  unfold push_member MEMBER_TYPE_NODE MEMBER_TYPE_WAY MEMBER_TYPE_RELATION
  split_ifs <;> simp

theorem push_member_ways (s : MemberState) (t : Int) (m : Member) :
    (push_member s t m).ways = s.ways ++ (if t = 1 then [m] else []) := by
  unfold push_member MEMBER_TYPE_NODE MEMBER_TYPE_WAY MEMBER_TYPE_RELATION
  split_ifs <;> simp_all

theorem push_member_relations (s : MemberState) (t : Int) (m : Member) :
    (push_member s t m).relations = s.relations ++ (if t = 2 then [m] else []) := by
  unfold push_member MEMBER_TYPE_NODE MEMBER_TYPE_WAY MEMBER_TYPE_RELATION
  split_ifs <;> simp_all

theorem members_loop_inv (r : Relation) (st : List String) :
    ∀ (memids pre : List Int) (s s1 : MemberState), r.memids = pre ++ memids →
      members_loop r st memids pre.length s = .ok s1 →
      s.delta_memids = wrap64 pre.sum →
      s.nodes = members_upto st r MEMBER_TYPE_NODE pre.length →
      s.ways = members_upto st r MEMBER_TYPE_WAY pre.length →
      s.relations = members_upto st r MEMBER_TYPE_RELATION pre.length →
      s1.nodes = members_upto st r MEMBER_TYPE_NODE r.memids.length ∧
      s1.ways = members_upto st r MEMBER_TYPE_WAY r.memids.length ∧
      s1.relations = members_upto st r MEMBER_TYPE_RELATION r.memids.length := by
  intro memids
  induction memids with
  | nil =>
    intro pre s s1 hpre h hd hn hw hr
    simp only [members_loop, Except.ok.injEq] at h
    simp only [List.append_nil] at hpre
    subst h
    rw [hpre]; exact ⟨hn, hw, hr⟩
  | cons memid memids ih =>
    intro pre s s1 hpre h hd hn hw hr
    rw [members_loop] at h
    split at h
    · exact absurd h (by simp)
    · rename_i role_sid hrole_sid
      split at h
      · exact absurd h (by simp)
      · rename_i role hrole
        split at h
        · exact absurd h (by simp)
        · rename_i type htype
          have hpre1 : r.memids = (pre ++ [memid]) ++ memids := by simp [hpre]
          have hlen1 : (pre ++ [memid]).length = pre.length + 1 := by simp
          rw [← hlen1] at h
          have hrs := arr_get_ok _ _ _ _ hrole_sid
          have hty := arr_get_ok _ _ _ _ htype
          have hsum : wrap64 (s.delta_memids + memid) = wrap64 (running_sum r.memids pre.length) := by
            rw [hd, wrap64_add_wrap64, hpre, running_sum_append_cons]
          have hroleval : role = (if r.roles_sid.getD pre.length 0 = 0 then none
              else some (str_new (st.getD (r.roles_sid.getD pre.length 0).toNat ""))) := by
            have hg : r.roles_sid.getD pre.length 0 = role_sid := by
              simp [List.getD_eq_getElem?_getD, hrs]
            rw [hg]
            by_cases hz : role_sid = 0
            · simp [hz] at hrole ⊢; exact hrole.symm
            · simp only [hz, ne_eq, not_false_eq_true, ↓reduceIte] at hrole ⊢
              cases hst : string_table_s st role_sid with
              | error e => rw [hst] at hrole; exact absurd hrole (by simp [Except.map])
              | ok sv =>
                rw [hst] at hrole
                simp only [Except.map, Except.ok.injEq] at hrole
                rw [← hrole, (string_table_s_ok _ _ _ hst).2.2]
          refine ih (pre ++ [memid]) _ s1 hpre1 h ?_ ?_ ?_ ?_
          · rw [push_member_delta]
            simp only [List.sum_append, List.sum_cons, List.sum_nil, add_zero]
            rw [hd, wrap64_add_wrap64]
          · rw [hlen1, members_upto_succ, hty, ← hsum, ← hroleval, push_member_nodes, hn]
            simp [MEMBER_TYPE_NODE]
          · rw [hlen1, members_upto_succ, hty, ← hsum, ← hroleval, push_member_ways, hw]
            simp [MEMBER_TYPE_WAY]
          · rw [hlen1, members_upto_succ, hty, ← hsum, ← hroleval, push_member_relations, hr]
            simp [MEMBER_TYPE_RELATION]

theorem members_upto_length (st : List String) (r : Relation)
    (ht : ∀ t ∈ r.types, t = MEMBER_TYPE_NODE ∨ t = MEMBER_TYPE_WAY ∨ t = MEMBER_TYPE_RELATION) :
    ∀ n, n ≤ r.types.length →
      (members_upto st r MEMBER_TYPE_NODE n).length + (members_upto st r MEMBER_TYPE_WAY n).length
        + (members_upto st r MEMBER_TYPE_RELATION n).length = n := by
  intro n
  induction n with
  | zero => intro _; simp [members_upto]
  | succ n ih =>
    intro hn
    have hlt : n < r.types.length := hn
    have hget : r.types[n]? = some r.types[n] := List.getElem?_eq_getElem hlt
    have hmem := ht _ (List.getElem_mem hlt)
    have ih1 := ih (Nat.le_of_lt hlt)
    simp only [members_upto_succ, List.length_append, hget, Option.some.injEq]
    unfold MEMBER_TYPE_NODE MEMBER_TYPE_WAY MEMBER_TYPE_RELATION at hmem ih1 ⊢
    rcases hmem with h | h | h <;> rw [h] <;> simp <;> omega

theorem members_loop_complete (r : Relation) (st : List String) :
    ∀ (memids : List Int) (k : Nat) (s : MemberState),
      k + memids.length ≤ r.roles_sid.length → k + memids.length ≤ r.types.length →
      (∀ x ∈ r.roles_sid, x = 0 ∨ (0 ≤ x ∧ x < st.length)) →
      ∃ s1, members_loop r st memids k s = .ok s1 := by
  intro memids
  induction memids with
  | nil => intro k s _ _ _; exact ⟨s, by simp [members_loop]⟩
  | cons memid memids ih =>
    intro k s hr ht hx
    simp only [List.length_cons] at hr ht
    have hk1 : k < r.roles_sid.length := by omega
    have hk2 : k < r.types.length := by omega
    have hg1 : arr_get "roles_sid" r.roles_sid k = .ok r.roles_sid[k] := by
      simp [arr_get, List.getElem?_eq_getElem hk1]
    have hg2 : arr_get "types" r.types k = .ok r.types[k] := by
      simp [arr_get, List.getElem?_eq_getElem hk2]
    rw [members_loop, hg1]
    simp only [hg2]
    rcases hx _ (List.getElem_mem hk1) with h0 | hrange
    · simp only [h0, ne_eq, not_true_eq_false, ↓reduceIte]
      exact ih (k + 1) _ (by omega) (by omega) hx
    · by_cases h0 : r.roles_sid[k] = 0
      · simp only [h0, ne_eq, not_true_eq_false, ↓reduceIte]
        exact ih (k + 1) _ (by omega) (by omega) hx
      · have hs : string_table_s st r.roles_sid[k] = .ok (st.getD r.roles_sid[k].toNat "") := by
          simp [string_table_s, hrange]
        simp only [h0, ne_eq, not_false_eq_true, ↓reduceIte, hs, Except.map]
        exact ih (k + 1) _ (by omega) (by omega) hx

theorem process_relation_members (r : Relation) (st : List String) (tg : Int) (ro : RelationOut)
    (h : process_relation r st tg = .ok ro) :
    ro.nodes = members_of_type st r MEMBER_TYPE_NODE ∧
    ro.ways = members_of_type st r MEMBER_TYPE_WAY ∧
    ro.relations = members_of_type st r MEMBER_TYPE_RELATION := by
  unfold process_relation at h
  split at h
  · exact absurd h (by simp)
  · split at h
    · exact absurd h (by simp)
    · rename_i m hm
      split at h
      · exact absurd h (by simp)
      · simp only [Except.ok.injEq] at h
        have := members_loop_inv r st r.memids [] _ m (by simp) hm (by simp [wrap64])
          (by simp [members_upto]) (by simp [members_upto]) (by simp [members_upto])
        rw [← h]
        exact this

theorem process_relation_complete (r : Relation) (st : List String) (tg : Int)
    (hr : r.roles_sid.length = r.memids.length) (hty : r.types.length = r.memids.length)
    (hx : ∀ x ∈ r.roles_sid, x = 0 ∨ (0 ≤ x ∧ x < st.length))
    (ht : ∃ t, tags_loop st r.vals r.keys 0 [] = .ok t)
    (hi : ∃ m, add_info_opt r.info st tg = .ok m) : ∃ ro, process_relation r st tg = .ok ro := by
  obtain ⟨t, ht⟩ := ht
  obtain ⟨m, hi⟩ := hi
  obtain ⟨s1, hs1⟩ := members_loop_complete r st r.memids 0
    { delta_memids := 0, nodes := [], ways := [], relations := [] } (by omega) (by omega) hx
  exact ⟨{ id := r.id, meta := m, tags := t, nodes := s1.nodes, ways := s1.ways,
           relations := s1.relations }, by simp only [process_relation, ht, hs1, hi]⟩

theorem process_relations_inv (st : List String) (tg : Int) (rels : List Relation) :
    ∀ (out outs : List RelationOut), process_relations out rels st tg = .ok outs →
      ∃ l, outs = out ++ l ∧ l.length = rels.length ∧
        ∀ i (hi : i < rels.length), ∃ ro, l[i]? = some ro ∧
          process_relation rels[i] st tg = .ok ro := by
  induction rels with
  | nil => intro out outs h; simp [process_relations] at h; exact ⟨[], by simp [h]⟩
  | cons r rest ih =>
    intro out outs h
    rw [process_relations] at h
    split at h
    · exact absurd h (by simp)
    · rename_i w hw
      obtain ⟨l, hl, hlen, hi⟩ := ih _ _ h
      refine ⟨w :: l, by simp [hl], by simp [hlen], ?_⟩
      intro i hilt
      cases i with
      | zero => exact ⟨w, by simp, by simpa using hw⟩
      | succ i =>
        obtain ⟨w1, hw1, hw2⟩ := hi i (by simpa using hilt)
        exact ⟨w1, by simpa using hw1, by simpa using hw2⟩

theorem process_relations_complete (st : List String) (tg : Int) (rels : List Relation) :
    ∀ (out : List RelationOut), (∀ r ∈ rels, ∃ ro, process_relation r st tg = .ok ro) →
      ∃ outs, process_relations out rels st tg = .ok outs := by
  induction rels with
  | nil => intro out _; exact ⟨out, by simp [process_relations]⟩
  | cons r rest ih =>
    intro out h
    obtain ⟨w, hw⟩ := h r (by simp)
    obtain ⟨outs, houts⟩ := ih (out ++ [w]) (fun x hx => h x (by simp [hx]))
    exact ⟨outs, by rw [process_relations, hw]; exact houts⟩

/-- C3 (as stated, refuted). A member whose `roles_sid` entry is 0 is emitted without a
role, although entry 0 of the string table exists: the claim gives it the role
`string_table[0]`. -/
theorem process_relations_role_unset_counterexample :
    process_relations []
        [{ id := 1, keys := [], vals := [], info := none, roles_sid := [0], memids := [7],
           types := [0] }] ["", "outer"] 1000 =
      .ok [{ id := 1, meta := none, tags := [], nodes := [{ id := 7, role := none }],
             ways := [], relations := [] }] ∧
    string_table_s ["", "outer"] 0 = .ok "" ∧
    (none : Option String) ≠ some (str_new "") := by
  decide

/-- C3 (amended). For relations whose `memids`, `types` and `roles_sid` arrays have equal
length and whose types are NODE, WAY or RELATION, every completed `process_relations`
call emits, per relation, `nodes`, `ways` and `relations` arrays that are the members
of that type in original order, member `k` carrying the 64-bit running sum of
`memids[0..k]` as id and, when `roles_sid[k]` is not 0, the C string of
`string_table[roles_sid[k]]` as role, no role when it is 0; the three lengths add up
to `n_memids`; the call completes when the non-zero `roles_sid` are indices of the
string table and the tag loop and `add_info` of each relation complete; the relation
of scenario S6 gives nodes `[(7, outer)]`, ways `[(10, inner)]`, relations `[]`. -/
theorem process_relations_members (out : List RelationOut) (relations : List Relation)
    (string_table : List String) (ts_granularity : Int)
    (hwf : ∀ r ∈ relations, r.roles_sid.length = r.memids.length ∧
      r.types.length = r.memids.length ∧
      ∀ t ∈ r.types, t = MEMBER_TYPE_NODE ∨ t = MEMBER_TYPE_WAY ∨ t = MEMBER_TYPE_RELATION) :
    (∀ outs, process_relations out relations string_table ts_granularity = .ok outs →
      ∃ new, outs = out ++ new ∧ new.length = relations.length ∧
        ∀ i (hi : i < relations.length), ∃ ro, new[i]? = some ro ∧
          ro.nodes = members_of_type string_table relations[i] MEMBER_TYPE_NODE ∧
          ro.ways = members_of_type string_table relations[i] MEMBER_TYPE_WAY ∧
          ro.relations = members_of_type string_table relations[i] MEMBER_TYPE_RELATION ∧
          ro.nodes.length + ro.ways.length + ro.relations.length =
            (relations[i]).memids.length) ∧
    ((∀ r ∈ relations, (∀ x ∈ r.roles_sid, x = 0 ∨ (0 ≤ x ∧ x < string_table.length)) ∧
        (∃ t, tags_loop string_table r.vals r.keys 0 [] = .ok t) ∧
        (∃ m, add_info_opt r.info string_table ts_granularity = .ok m)) →
      ∃ outs, process_relations out relations string_table ts_granularity = .ok outs) ∧
    process_relations []
        [{ id := 1, keys := [], vals := [], info := none, roles_sid := [1, 2], memids := [7, 3],
           types := [MEMBER_TYPE_NODE, MEMBER_TYPE_WAY] }] ["", "outer", "inner"] 1000 =
      .ok [{ id := 1, meta := none, tags := [], nodes := [{ id := 7, role := some "outer" }],
             ways := [{ id := 10, role := some "inner" }], relations := [] }] := by
  refine ⟨?_, ?_, by decide⟩
  · intro outs h
    obtain ⟨l, hl, hlen, hi⟩ := process_relations_inv string_table ts_granularity relations out outs h
    refine ⟨l, hl, hlen, ?_⟩
    intro i hilt
    obtain ⟨ro, hro1, hro2⟩ := hi i hilt
    obtain ⟨hn, hw, hr⟩ := process_relation_members _ _ _ _ hro2
    obtain ⟨_, hty, htv⟩ := hwf _ (List.getElem_mem hilt)
    refine ⟨ro, hro1, hn, hw, hr, ?_⟩
    rw [hn, hw, hr]
    unfold members_of_type
    exact members_upto_length string_table _ htv _ (by omega)
  · intro h
    refine process_relations_complete string_table ts_granularity relations out ?_
    intro r hr
    obtain ⟨h1, h2, _⟩ := hwf r hr
    obtain ⟨h3, h4, h5⟩ := h r hr
    exact process_relation_complete r string_table ts_granularity h1 h2 h3 h4 h5

/-- Witness for C3 (amended): the relation of scenario S6. -/
theorem process_relations_members_witness :
    ∃ outs, process_relations []
        [{ id := 1, keys := [], vals := [], info := none, roles_sid := [1, 2], memids := [7, 3],
           types := [0, 1] }] ["", "outer", "inner"] 1000 = .ok outs :=
  (process_relations_members []
    [{ id := 1, keys := [], vals := [], info := none, roles_sid := [1, 2], memids := [7, 3],
       types := [0, 1] }] ["", "outer", "inner"] 1000 (by decide)).2.1 (by
      intro r hr
      simp only [List.mem_singleton] at hr
      subst hr
      exact ⟨by decide, ⟨[], rfl⟩, ⟨none, rfl⟩⟩)

/-! ## The values set by `add_info` -/

theorem double_of_int_exact (n : Int) (h : n.natAbs < 9007199254740992) :
    double_of_int n = n := by
  unfold double_of_int
  have hs : mantissa_shift 256 n.natAbs = 0 := by
    rw [mantissa_shift, if_pos h]
  simp only [hs, pow_zero, Nat.div_one, Nat.mod_one, mul_zero, mul_one]
  have hq : ¬ (0 > 1 ∨ (0 = 1 ∧ n.natAbs % 2 = 1)) := by omega
  rw [if_neg hq]
  split_ifs with hneg
  · rw [Int.ofNat_natAbs_of_nonpos (le_of_lt hneg), neg_neg]
  · rw [Int.natAbs_of_nonneg (not_lt.mp hneg)]

theorem timestamp_ll_exact (t g : Int) (ht : t.natAbs < 9007199254740992)
    (hp : (t * g).natAbs < 9007199254740992) : timestamp_ll t g = .ok (t * g) := by
  unfold timestamp_ll
  simp only [double_of_int_exact t ht, double_of_int_exact (t * g) hp]
  rw [if_pos (by omega)]

theorem add_info_timestamp_law (info : Info) (st : List String) (g : Int) (m : Meta)
    (h : add_info info st g = .ok m) : timestamp_law info.timestamp g m := by
  unfold add_info at h
  simp only at h
  split at h
  · exact absurd h (by simp)
  · rename_i ts hts
    have hm : m.timestamp = ts := by
      split_ifs at h <;> first
        | (simp only [Except.ok.injEq] at h
           rw [← h])
        | (split at h
           · exact absurd h (by simp)
           · simp only [Except.ok.injEq] at h
             rw [← h])
    unfold timestamp_law
    rw [hm]
    by_cases h0 : info.timestamp = 0
    · rw [if_neg (by simp [h0])] at hts
      simp only [Except.ok.injEq] at hts
      exact ⟨fun _ => hts.symm, fun hne => absurd h0 hne, fun hne => absurd h0 hne⟩
    · rw [if_pos h0] at hts
      have hx : timestamp_ll info.timestamp g =
          .ok (double_of_int (double_of_int info.timestamp * g)) ∧
          ts = some (double_of_int (double_of_int info.timestamp * g)) := by
        unfold timestamp_ll at hts ⊢
        simp only at hts ⊢
        split_ifs at hts ⊢ with hr
        · simp only [Except.map, Except.ok.injEq] at hts
          exact ⟨rfl, hts.symm⟩
        · simp [Except.map] at hts
      refine ⟨fun he => absurd he h0, fun _ => hx.2, ?_⟩
      intro _ ht hp
      rw [hx.2, double_of_int_exact _ ht, double_of_int_exact _ hp]

theorem add_info_meta_law (info : Info) (st : List String) (g : Int) (m : Meta)
    (h : add_info info st g = .ok m) : meta_law st g info m := by
  have hts := add_info_timestamp_law info st g m h
  unfold add_info at h
  simp only at h
  split at h
  · exact absurd h (by simp)
  · by_cases hu : info.user_sid = 0
    · rw [if_neg (by simp [hu])] at h
      simp only [Except.ok.injEq] at h
      subst h
      refine ⟨?_, ?_, ?_, fun _ => rfl, fun hne => absurd hu hne, hts⟩ <;>
        simp only [ne_eq, ite_not]
    · rw [if_pos hu] at h
      split at h
      · exact absurd h (by simp)
      · rename_i s hs
        simp only [Except.ok.injEq] at h
        subst h
        have hr : (0 ≤ info.user_sid ∧ info.user_sid < st.length) ∧
            s = st.getD info.user_sid.toNat "" := by
          unfold string_table_s at hs
          split_ifs at hs with hrange
          simp only [Except.ok.injEq] at hs
          exact ⟨hrange, hs.symm⟩
        refine ⟨?_, ?_, ?_, fun h0 => absurd h0 hu, fun _ => ⟨hr.1.1, hr.1.2, ?_⟩, hts⟩
        · simp only [ne_eq, ite_not]
        · simp only [ne_eq, ite_not]
        · simp only [ne_eq, ite_not]
        · simp only [hr.2]

/-! ## Dense nodes -/

theorem sum_take_succ (l : List Int) (i : Nat) (x : Int) (h : l[i]? = some x) :
    (l.take (i + 1)).sum = (l.take i).sum + x := by
  rw [List.take_succ, h]; simp

theorem running_sum_eq (l : List Int) (i : Nat) (x : Int) (h : l[i]? = some x) :
    running_sum l i = (l.take i).sum + x := sum_take_succ l i x h

theorem wrap64_to_u64 (a : Int) : wrap64 (to_u64 a) = wrap64 a := by
  unfold wrap64 to_u64; omega

theorem arr_get_of_some (name : String) (arr : List Int) (i : Nat) (v : Int)
    (h : arr[i]? = some v) : arr_get name arr i = .ok v := by
  simp [arr_get, h]

theorem dense_info_none (i : Nat) (s : DenseState) (st : List String) (tg : Int) :
    dense_info none i s st tg = .ok (s, none) := rfl

theorem dense_info_some_ok (di : DenseInfo) (i : Nat) (s sI : DenseState) (st : List String)
    (tg : Int) (meta : Option Meta) (h : dense_info (some di) i s st tg = .ok (sI, meta)) :
    ∃ ts cs us ui ver m, di.timestamp[i]? = some ts ∧ di.changeset[i]? = some cs ∧
      di.user_sid[i]? = some us ∧ di.uid[i]? = some ui ∧ di.version[i]? = some ver ∧
      add_info { version := ver, timestamp := wrap64 (s.delta_timestamp + ts),
                 changeset := wrap64 (s.delta_changeset + cs),
                 user_sid := to_u32 (wrap32 (s.delta_user_sid + us)),
                 uid := wrap32 (s.delta_uid + ui) } st tg = .ok m ∧
      meta = some m ∧
      sI = { s with delta_timestamp := wrap64 (s.delta_timestamp + ts),
                    delta_changeset := wrap64 (s.delta_changeset + cs),
                    delta_user_sid := wrap32 (s.delta_user_sid + us),
                    delta_uid := wrap32 (s.delta_uid + ui) } := by
  unfold dense_info at h
  simp only at h
  split at h
  · exact absurd h (by simp)
  · rename_i ts hts
    split at h
    · exact absurd h (by simp)
    · rename_i cs hcs
      split at h
      · exact absurd h (by simp)
      · rename_i us hus
        split at h
        · exact absurd h (by simp)
        · rename_i ui hui
          split at h
          · exact absurd h (by simp)
          · rename_i ver hver
            split at h
            · exact absurd h (by simp)
            · rename_i m hm
              simp only [Except.ok.injEq, Prod.mk.injEq] at h
              exact ⟨ts, cs, us, ui, ver, m, arr_get_ok _ _ _ _ hts, arr_get_ok _ _ _ _ hcs,
                arr_get_ok _ _ _ _ hus, arr_get_ok _ _ _ _ hui, arr_get_ok _ _ _ _ hver, hm,
                h.2.symm, h.1.symm⟩

theorem dense_info_some_of (di : DenseInfo) (i : Nat) (s : DenseState) (st : List String)
    (tg : Int) (ts cs us ui ver : Int) (m : Meta)
    (hts : di.timestamp[i]? = some ts) (hcs : di.changeset[i]? = some cs)
    (hus : di.user_sid[i]? = some us) (hui : di.uid[i]? = some ui)
    (hver : di.version[i]? = some ver)
    (hm : add_info ⟨ver, wrap64 (s.delta_timestamp + ts), wrap64 (s.delta_changeset + cs),
      wrap32 (s.delta_uid + ui), to_u32 (wrap32 (s.delta_user_sid + us))⟩ st tg = .ok m) :
    dense_info (some di) i s st tg =
      .ok ({ s with delta_timestamp := wrap64 (s.delta_timestamp + ts),
                    delta_changeset := wrap64 (s.delta_changeset + cs),
                    delta_user_sid := wrap32 (s.delta_user_sid + us),
                    delta_uid := wrap32 (s.delta_uid + ui) }, some m) := by
  unfold dense_info
  simp only [arr_get_of_some _ _ _ _ hts, arr_get_of_some _ _ _ _ hcs,
    arr_get_of_some _ _ _ _ hus, arr_get_of_some _ _ _ _ hui, arr_get_of_some _ _ _ _ hver, hm]

theorem dense_info_frame (dio : Option DenseInfo) (i : Nat) (s sI : DenseState)
    (st : List String) (tg : Int) (meta : Option Meta)
    (h : dense_info dio i s st tg = .ok (sI, meta)) :
    sI.node_id = s.node_id ∧ sI.delta_lat = s.delta_lat ∧ sI.delta_lon = s.delta_lon ∧
      sI.j = s.j ∧ sI.out = s.out := by
  cases dio with
  | none =>
    simp only [dense_info_none, Except.ok.injEq, Prod.mk.injEq] at h
    rw [← h.1]; simp
  | some di =>
    obtain ⟨ts, cs, us, ui, ver, m, -, -, -, -, -, -, -, hs⟩ := dense_info_some_ok _ _ _ _ _ _ _ h
    rw [hs]; simp

theorem dense_step_ok (d : DenseNodes) (st : List String) (lo la g tg : Int) (i : Nat)
    (id_i : Int) (s s1 : DenseState) (h : dense_step d st la lo g tg i id_i s = .ok s1) :
    ∃ lat_i lon_i sI meta j tags, d.lat[i]? = some lat_i ∧ d.lon[i]? = some lon_i ∧
      dense_info d.denseinfo i
        { s with node_id := to_u64 (s.node_id + id_i), delta_lat := wrap64 (s.delta_lat + lat_i),
                 delta_lon := wrap64 (s.delta_lon + lon_i) } st tg = .ok (sI, meta) ∧
      dense_tags st d.keys_vals sI.j = .ok (j, tags) ∧
      s1 = { sI with j := j, out := sI.out ++
        [{ id := wrap64 (to_u64 (s.node_id + id_i)),
           lat_nano := nano_coord la (wrap64 (s.delta_lat + lat_i)) g,
           lon_nano := nano_coord lo (wrap64 (s.delta_lon + lon_i)) g,
           meta := meta, tags := tags }] } := by
  unfold dense_step at h
  simp only at h
  split at h
  · exact absurd h (by simp)
  · rename_i lat_i hlat
    split at h
    · exact absurd h (by simp)
    · rename_i lon_i hlon
      split at h
      · exact absurd h (by simp)
      · rename_i sI meta hinfo
        split at h
        · exact absurd h (by simp)
        · rename_i j tags htags
          simp only [Except.ok.injEq] at h
          exact ⟨lat_i, lon_i, sI, meta, j, tags, arr_get_ok _ _ _ _ hlat,
            arr_get_ok _ _ _ _ hlon, hinfo, htags, h.symm⟩

theorem dense_step_of (d : DenseNodes) (st : List String) (lo la g tg : Int) (i : Nat)
    (id_i : Int) (s sI : DenseState) (lat_i lon_i : Int) (meta : Option Meta) (j : Nat)
    (tags : Tags) (hlat : d.lat[i]? = some lat_i) (hlon : d.lon[i]? = some lon_i)
    (hinfo : dense_info d.denseinfo i
        { s with node_id := to_u64 (s.node_id + id_i), delta_lat := wrap64 (s.delta_lat + lat_i),
                 delta_lon := wrap64 (s.delta_lon + lon_i) } st tg = .ok (sI, meta))
    (htags : dense_tags st d.keys_vals sI.j = .ok (j, tags)) :
    dense_step d st la lo g tg i id_i s = .ok { sI with j := j, out := sI.out ++
        [{ id := wrap64 (to_u64 (s.node_id + id_i)),
           lat_nano := nano_coord la (wrap64 (s.delta_lat + lat_i)) g,
           lon_nano := nano_coord lo (wrap64 (s.delta_lon + lon_i)) g,
           meta := meta, tags := tags }] } := by
  unfold dense_step
  simp only [arr_get_of_some _ _ _ _ hlat, arr_get_of_some _ _ _ _ hlon, hinfo, htags]

theorem dense_loop_inv (d : DenseNodes) (st : List String) (la lo g tg : Int)
    (P : Nat → DenseState → Prop)
    (hstep : ∀ (pre : List Int) (id_i : Int) (rest : List Int) (s s1 : DenseState),
      d.id = pre ++ id_i :: rest → dense_step d st la lo g tg pre.length id_i s = .ok s1 →
      P pre.length s → P (pre.length + 1) s1) :
    ∀ (ids pre : List Int) (s s1 : DenseState), d.id = pre ++ ids →
      dense_loop d st la lo g tg ids pre.length s = .ok s1 → P pre.length s →
      P d.id.length s1 := by
  intro ids
  induction ids with
  | nil =>
    intro pre s s1 hpre h hP
    simp only [dense_loop, Except.ok.injEq] at h
    rw [hpre, ← h]; simpa using hP
  | cons id_i ids ih =>
    intro pre s s1 hpre h hP
    rw [dense_loop] at h
    split at h
    · exact absurd h (by simp)
    · rename_i s2 hs2
      have hP2 := hstep pre id_i ids s s2 hpre hs2 hP
      have hlen : (pre ++ [id_i]).length = pre.length + 1 := by simp
      rw [← hlen] at h hP2
      exact ih (pre ++ [id_i]) s2 s1 (by simp [hpre]) h hP2

theorem dense_loop_total (d : DenseNodes) (st : List String) (la lo g tg : Int)
    (P : Nat → DenseState → Prop)
    (hstep : ∀ (pre : List Int) (id_i : Int) (rest : List Int) (s : DenseState),
      d.id = pre ++ id_i :: rest → P pre.length s →
      ∃ s1, dense_step d st la lo g tg pre.length id_i s = .ok s1 ∧ P (pre.length + 1) s1) :
    ∀ (ids pre : List Int) (s : DenseState), d.id = pre ++ ids → P pre.length s →
      ∃ s1, dense_loop d st la lo g tg ids pre.length s = .ok s1 ∧ P d.id.length s1 := by
  intro ids
  induction ids with
  | nil =>
    intro pre s hpre hP
    refine ⟨s, by simp [dense_loop], ?_⟩
    rw [hpre]; simpa using hP
  | cons id_i ids ih =>
    intro pre s hpre hP
    obtain ⟨s2, hs2, hP2⟩ := hstep pre id_i ids s hpre hP
    have hlen : (pre ++ [id_i]).length = pre.length + 1 := by simp
    rw [← hlen] at hP2
    obtain ⟨s1, hs1, hP1⟩ := ih (pre ++ [id_i]) s2 (by simp [hpre]) hP2
    rw [hlen] at hs1
    exact ⟨s1, by rw [dense_loop, hs2]; exact hs1, hP1⟩

theorem getElem_at_length_append_cons (pre rest : List Int) (x : Int) :
    (pre ++ x :: rest)[pre.length]? = some x := by
  rw [List.getElem?_append_right (le_refl _)]; simp

theorem dense_num_inv_init (d : DenseNodes) (st : List String) (la lo g tg : Int)
    (out0 : List NodeOut) : dense_num_inv d st la lo g tg out0 0 (DenseState.init out0) := by
  refine ⟨by simp [DenseState.init, to_u64], by simp [DenseState.init, wrap64],
    by simp [DenseState.init, wrap64], ?_, ⟨[], by simp [DenseState.init]⟩⟩
  intro di _
  simp [DenseState.init, wrap64, wrap32]

theorem dense_num_inv_step (d : DenseNodes) (st : List String) (la lo g tg : Int)
    (out0 : List NodeOut) (pre : List Int) (id_i : Int) (rest : List Int) (s s1 : DenseState)
    (hid : d.id = pre ++ id_i :: rest)
    (h : dense_step d st la lo g tg pre.length id_i s = .ok s1)
    (hinv : dense_num_inv d st la lo g tg out0 pre.length s) :
    dense_num_inv d st la lo g tg out0 (pre.length + 1) s1 := by
  obtain ⟨lat_i, lon_i, sI, meta, j, tags, hlat, hlon, hinfo, htags, hs1⟩ :=
    dense_step_ok d st lo la g tg _ _ _ _ h
  obtain ⟨hnid, hdlat, hdlon, hdi, nodes, hout, hnlen, hnodes⟩ := hinv
  obtain ⟨f1, f2, f3, f4, f5⟩ := dense_info_frame _ _ _ _ _ _ _ hinfo
  simp only at f1 f2 f3 f4 f5
  have hidi : d.id[pre.length]? = some id_i := by
    rw [hid]; exact getElem_at_length_append_cons _ _ _
  have e1 : to_u64 (s.node_id + id_i) = to_u64 (d.id.take (pre.length + 1)).sum := by
    rw [sum_take_succ _ _ _ hidi, hnid, to_u64_to_u64_add]
  have e2 : wrap64 (s.delta_lat + lat_i) = wrap64 (d.lat.take (pre.length + 1)).sum := by
    rw [sum_take_succ _ _ _ hlat, hdlat, wrap64_add_wrap64]
  have e3 : wrap64 (s.delta_lon + lon_i) = wrap64 (d.lon.take (pre.length + 1)).sum := by
    rw [sum_take_succ _ _ _ hlon, hdlon, wrap64_add_wrap64]
  have hmeta : (d.denseinfo = none → meta = none) ∧
      (∀ di, d.denseinfo = some di →
        (sI.delta_timestamp = wrap64 (di.timestamp.take (pre.length + 1)).sum ∧
         sI.delta_changeset = wrap64 (di.changeset.take (pre.length + 1)).sum ∧
         sI.delta_user_sid = wrap32 (di.user_sid.take (pre.length + 1)).sum ∧
         sI.delta_uid = wrap32 (di.uid.take (pre.length + 1)).sum) ∧
        ∃ m, add_info (dense_info_at di pre.length) st tg = .ok m ∧ meta = some m) := by
    constructor
    · intro hnone
      rw [hnone, dense_info_none] at hinfo
      simp only [Except.ok.injEq, Prod.mk.injEq] at hinfo
      exact hinfo.2.symm
    · intro di hsome
      rw [hsome] at hinfo
      obtain ⟨ts, cs, us, ui, ver, m, hts, hcs, hus, hui, hver, hm, hmeta, hsI⟩ :=
        dense_info_some_ok _ _ _ _ _ _ _ hinfo
      obtain ⟨g1, g2, g3, g4⟩ := hdi di hsome
      simp only at hm
      have t1 : wrap64 (s.delta_timestamp + ts) = wrap64 (running_sum di.timestamp pre.length) := by
        rw [running_sum_eq _ _ _ hts, g1, wrap64_add_wrap64]
      have t2 : wrap64 (s.delta_changeset + cs) = wrap64 (running_sum di.changeset pre.length) := by
        rw [running_sum_eq _ _ _ hcs, g2, wrap64_add_wrap64]
      have t3 : wrap32 (s.delta_user_sid + us) = wrap32 (running_sum di.user_sid pre.length) := by
        rw [running_sum_eq _ _ _ hus, g3, wrap32_add_wrap32]
      have t4 : wrap32 (s.delta_uid + ui) = wrap32 (running_sum di.uid pre.length) := by
        rw [running_sum_eq _ _ _ hui, g4, wrap32_add_wrap32]
      have t5 : di.version.getD pre.length 0 = ver := by
        simp [List.getD_eq_getElem?_getD, hver]
      refine ⟨?_, m, ?_, hmeta⟩
      · rw [hsI]
        simp only
        exact ⟨t1, t2, t3, t4⟩
      · rw [← hm]
        simp only [dense_info_at, t1, t2, t3, t4, t5]
  refine ⟨?_, ?_, ?_, ?_, ?_⟩
  · rw [hs1]; simp only; rw [f1, e1]
  · rw [hs1]; simp only; rw [f2, e2]
  · rw [hs1]; simp only; rw [f3, e3]
  · intro di hsome
    rw [hs1]
    exact (hmeta.2 di hsome).1
  · refine ⟨nodes ++ [⟨wrap64 (to_u64 (s.node_id + id_i)),
      nano_coord la (wrap64 (s.delta_lat + lat_i)) g,
      nano_coord lo (wrap64 (s.delta_lon + lon_i)) g, meta, tags⟩], ?_, by simp [hnlen], ?_⟩
    · rw [hs1]; simp only; rw [f5, hout, List.append_assoc]
    · intro k hk
      by_cases hkn : k < pre.length
      · obtain ⟨nd, hnd1, hnd2⟩ := hnodes k hkn
        exact ⟨nd, by rw [List.getElem?_append_left (by omega)]; exact hnd1, hnd2⟩
      · have hkeq : k = pre.length := by omega
        subst hkeq
        refine ⟨⟨wrap64 (to_u64 (s.node_id + id_i)),
          nano_coord la (wrap64 (s.delta_lat + lat_i)) g,
          nano_coord lo (wrap64 (s.delta_lon + lon_i)) g, meta, tags⟩,
          by rw [List.getElem?_append_right (by omega)]; simp [hnlen], ?_⟩
        refine ⟨?_, ?_, ?_, hmeta.1, fun di hsome => (hmeta.2 di hsome).2⟩
        · simp only; rw [e1, wrap64_to_u64]; rfl
        · simp only; rw [e2]; rfl
        · simp only; rw [e3]; rfl

theorem encode_segment_length (seg : List (Int × Int)) :
    (encode_segment seg).length = 2 * seg.length + 1 := by
  induction seg with
  | nil => rfl
  | cons p rest ih => obtain ⟨k, v⟩ := p; simp [encode_segment, ih]; omega

theorem encode_keys_vals_append (a b : List (List (Int × Int))) :
    encode_keys_vals (a ++ b) = encode_keys_vals a ++ encode_keys_vals b := by
  induction a with
  | nil => rfl
  | cons seg a ih => simp [encode_keys_vals, ih]

theorem string_table_s_of_range (st : List String) (i : Int) (h0 : 0 ≤ i) (h1 : i < st.length) :
    string_table_s st i = .ok (st.getD i.toNat "") := by
  simp [string_table_s, h0, h1]

theorem dense_tags_while_segment (st : List String) (seg : List (Int × Int)) :
    ∀ (pre post : List Int) (fuel : Nat) (tags : Tags),
      (∀ p ∈ seg, p.1 ≠ 0 ∧ 0 ≤ p.1 ∧ p.1 < st.length ∧ 0 ≤ p.2 ∧ p.2 < st.length) →
      seg.length < fuel →
      dense_tags_while st (pre ++ (encode_segment seg ++ post)) fuel pre.length tags =
        .ok (pre.length + 2 * seg.length, tags_of_segment st seg tags) := by
  induction seg with
  | nil =>
    intro pre post fuel tags _ hfuel
    obtain ⟨f, rfl⟩ : ∃ f, fuel = f + 1 := ⟨fuel - 1, by simp at hfuel; omega⟩
    rw [dense_tags_while]
    have hget : arr_get "keys_vals" (pre ++ (encode_segment [] ++ post)) pre.length = .ok 0 := by
      apply arr_get_of_some
      simp only [encode_segment, List.singleton_append]
      exact getElem_at_length_append_cons _ _ _
    rw [hget]
    simp [tags_of_segment]
  | cons p seg ih =>
    intro pre post fuel tags hvalid hfuel
    obtain ⟨k, v⟩ := p
    obtain ⟨f, rfl⟩ : ∃ f, fuel = f + 1 := ⟨fuel - 1, by simp at hfuel; omega⟩
    obtain ⟨hk0, hk1, hk2, hv1, hv2⟩ := hvalid (k, v) (by simp)
    simp only at hk0 hk1 hk2 hv1 hv2
    have hkv : pre ++ (encode_segment ((k, v) :: seg) ++ post) =
        pre ++ k :: v :: (encode_segment seg ++ post) := by simp [encode_segment]
    have hkv2 : pre ++ k :: v :: (encode_segment seg ++ post) =
        (pre ++ [k, v]) ++ (encode_segment seg ++ post) := by simp
    have hget1 : arr_get "keys_vals" (pre ++ k :: v :: (encode_segment seg ++ post)) pre.length
        = .ok k := arr_get_of_some _ _ _ _ (getElem_at_length_append_cons _ _ _)
    have hget2 : arr_get "keys_vals" (pre ++ k :: v :: (encode_segment seg ++ post))
        (pre.length + 1) = .ok v := by
      apply arr_get_of_some
      have : pre ++ k :: v :: (encode_segment seg ++ post) =
          (pre ++ [k]) ++ v :: (encode_segment seg ++ post) := by simp
      rw [this]
      have hl : pre.length + 1 = (pre ++ [k]).length := by simp
      rw [hl]
      exact getElem_at_length_append_cons _ _ _
    have hlt : pre.length < (pre ++ k :: v :: (encode_segment seg ++ post)).length := by
      simp
    rw [hkv, dense_tags_while, hget1]
    simp only [hk0, ne_eq, not_false_eq_true, hlt, and_self, ↓reduceIte,
      string_table_s_of_range st k hk1 hk2, hget2, string_table_s_of_range st v hv1 hv2]
    have hl2 : pre.length + 2 = (pre ++ [k, v]).length := by simp
    rw [hkv2, hl2, ih (pre ++ [k, v]) post f _ (fun p hp => hvalid p (by simp [hp]))
      (by simp at hfuel; omega)]
    simp only [tags_of_segment, List.length_append, List.length_cons, List.length_nil,
      Except.ok.injEq, Prod.mk.injEq, and_true]
    omega

theorem dense_tags_at (st : List String) (segs : List (List (Int × Int)))
    (hvalid : ∀ seg ∈ segs, ∀ p ∈ seg,
      p.1 ≠ 0 ∧ 0 ≤ p.1 ∧ p.1 < st.length ∧ 0 ≤ p.2 ∧ p.2 < st.length) (n : Nat) :
    dense_tags st (encode_keys_vals segs) (encode_keys_vals (segs.take n)).length =
      .ok ((encode_keys_vals (segs.take (n + 1))).length,
        tags_of_segment st (segs.getD n []) []) := by
  by_cases hn : n < segs.length
  · have hsplit : segs = segs.take n ++ segs[n] :: segs.drop (n + 1) := by
      rw [← List.drop_eq_getElem_cons hn, List.take_append_drop]
    have htake : segs.take (n + 1) = segs.take n ++ [segs[n]] := by
      rw [List.take_succ, List.getElem?_eq_getElem hn]; rfl
    have hgetD : segs.getD n [] = segs[n] := by
      simp [List.getD_eq_getElem?_getD, List.getElem?_eq_getElem hn]
    have hkv : encode_keys_vals segs = encode_keys_vals (segs.take n) ++
        (encode_segment segs[n] ++ encode_keys_vals (segs.drop (n + 1))) := by
      conv_lhs => rw [hsplit]
      rw [encode_keys_vals_append, encode_keys_vals]
    have hlt : (encode_keys_vals (segs.take n)).length < (encode_keys_vals segs).length := by
      conv_rhs => rw [hkv]
      simp only [List.length_append, encode_segment_length]
      omega
    unfold dense_tags
    rw [if_pos hlt]
    have hw := dense_tags_while_segment st segs[n] (encode_keys_vals (segs.take n))
      (encode_keys_vals (segs.drop (n + 1))) ((encode_keys_vals segs).length + 1) []
      (hvalid _ (List.getElem_mem hn)) (by
        conv_rhs => rw [hkv]
        simp only [List.length_append, encode_segment_length]
        omega)
    rw [← hkv] at hw
    rw [hw, htake, encode_keys_vals_append, hgetD]
    simp only [encode_keys_vals, List.append_nil, List.length_append, encode_segment_length]
    congr 2
  · have htake : ∀ m, n ≤ m → segs.take m = segs := fun m hm =>
      List.take_of_length_le (by omega)
    have hgetD : segs.getD n [] = [] := by
      simp [List.getD_eq_getElem?_getD, List.getElem?_eq_none (by omega : segs.length ≤ n)]
    unfold dense_tags
    rw [htake n (le_refl _), htake (n + 1) (by omega), hgetD]
    simp [tags_of_segment]

theorem dense_tag_inv_init (st : List String) (segs : List (List (Int × Int)))
    (out0 : List NodeOut) : dense_tag_inv st segs out0 0 (DenseState.init out0) :=
  ⟨by simp [DenseState.init, encode_keys_vals], [], by simp [DenseState.init]⟩

theorem dense_tag_inv_step (d : DenseNodes) (st : List String) (la lo g tg : Int)
    (segs : List (List (Int × Int))) (hkv : d.keys_vals = encode_keys_vals segs)
    (hvalid : ∀ seg ∈ segs, ∀ p ∈ seg,
      p.1 ≠ 0 ∧ 0 ≤ p.1 ∧ p.1 < st.length ∧ 0 ≤ p.2 ∧ p.2 < st.length)
    (out0 : List NodeOut) (pre : List Int) (id_i : Int) (rest : List Int) (s s1 : DenseState)
    (_hid : d.id = pre ++ id_i :: rest)
    (h : dense_step d st la lo g tg pre.length id_i s = .ok s1)
    (hinv : dense_tag_inv st segs out0 pre.length s) :
    dense_tag_inv st segs out0 (pre.length + 1) s1 := by
  obtain ⟨lat_i, lon_i, sI, meta, j, tags, -, -, hinfo, htags, hs1⟩ :=
    dense_step_ok d st lo la g tg _ _ _ _ h
  obtain ⟨hj, nodes, hout, hnlen, hnodes⟩ := hinv
  obtain ⟨-, -, -, f4, f5⟩ := dense_info_frame _ _ _ _ _ _ _ hinfo
  simp only at f4 f5
  rw [f4, hj, hkv, dense_tags_at st segs hvalid pre.length] at htags
  simp only [Except.ok.injEq, Prod.mk.injEq] at htags
  refine ⟨by rw [hs1]; exact htags.1.symm, nodes ++ [⟨wrap64 (to_u64 (s.node_id + id_i)),
    nano_coord la (wrap64 (s.delta_lat + lat_i)) g,
    nano_coord lo (wrap64 (s.delta_lon + lon_i)) g, meta, tags⟩], ?_, by simp [hnlen], ?_⟩
  · rw [hs1]; simp only; rw [f5, hout, List.append_assoc]
  · intro k hk
    by_cases hkn : k < pre.length
    · obtain ⟨nd, hnd1, hnd2⟩ := hnodes k hkn
      exact ⟨nd, by rw [List.getElem?_append_left (by omega)]; exact hnd1, hnd2⟩
    · have hkeq : k = pre.length := by omega
      subst hkeq
      exact ⟨⟨wrap64 (to_u64 (s.node_id + id_i)),
        nano_coord la (wrap64 (s.delta_lat + lat_i)) g,
        nano_coord lo (wrap64 (s.delta_lon + lon_i)) g, meta, tags⟩,
        by rw [List.getElem?_append_right (by omega)]; simp [hnlen], htags.2.symm⟩

theorem dense_info_complete (d : DenseNodes) (st : List String) (la lo g tg : Int)
    (out0 : List NodeOut) (n : Nat) (s s0 : DenseState) (hn : n < d.id.length)
    (hdi : ∀ di, d.denseinfo = some di →
      di.version.length = d.id.length ∧ di.timestamp.length = d.id.length ∧
      di.changeset.length = d.id.length ∧ di.user_sid.length = d.id.length ∧
      di.uid.length = d.id.length ∧
      ∀ i, i < d.id.length → ∃ m, add_info (dense_info_at di i) st tg = .ok m)
    (hinv : dense_num_inv d st la lo g tg out0 n s)
    (h1 : s0.delta_timestamp = s.delta_timestamp) (h2 : s0.delta_changeset = s.delta_changeset)
    (h3 : s0.delta_user_sid = s.delta_user_sid) (h4 : s0.delta_uid = s.delta_uid) :
    ∃ sI meta, dense_info d.denseinfo n s0 st tg = .ok (sI, meta) := by
  cases hd : d.denseinfo with
  | none => exact ⟨s0, none, rfl⟩
  | some di =>
    obtain ⟨l1, l2, l3, l4, l5, hm⟩ := hdi di hd
    obtain ⟨-, -, -, hsum, -⟩ := hinv
    obtain ⟨g1, g2, g3, g4⟩ := hsum di hd
    obtain ⟨m, hm⟩ := hm n hn
    have hts : di.timestamp[n]? = some di.timestamp[n] := List.getElem?_eq_getElem (by omega)
    have hcs : di.changeset[n]? = some di.changeset[n] := List.getElem?_eq_getElem (by omega)
    have hus : di.user_sid[n]? = some di.user_sid[n] := List.getElem?_eq_getElem (by omega)
    have hui : di.uid[n]? = some di.uid[n] := List.getElem?_eq_getElem (by omega)
    have hver : di.version[n]? = some di.version[n] := List.getElem?_eq_getElem (by omega)
    have hinfo : (⟨di.version[n], wrap64 (s0.delta_timestamp + di.timestamp[n]),
        wrap64 (s0.delta_changeset + di.changeset[n]), wrap32 (s0.delta_uid + di.uid[n]),
        to_u32 (wrap32 (s0.delta_user_sid + di.user_sid[n]))⟩ : Info) = dense_info_at di n := by
      have t5 : di.version.getD n 0 = di.version[n] := by
        simp [List.getD_eq_getElem?_getD, hver]
      simp only [dense_info_at, running_sum_eq _ _ _ hts, running_sum_eq _ _ _ hcs,
        running_sum_eq _ _ _ hus, running_sum_eq _ _ _ hui, t5, h1, h2, h3, h4, g1, g2, g3, g4,
        wrap64_add_wrap64, wrap32_add_wrap32]
    rw [← hinfo] at hm
    exact ⟨_, _, dense_info_some_of di n s0 st tg _ _ _ _ _ m hts hcs hus hui hver hm⟩

theorem dense_step_complete (d : DenseNodes) (st : List String) (la lo g tg : Int)
    (segs : List (List (Int × Int))) (hkv : d.keys_vals = encode_keys_vals segs)
    (hvalid : ∀ seg ∈ segs, ∀ p ∈ seg,
      p.1 ≠ 0 ∧ 0 ≤ p.1 ∧ p.1 < st.length ∧ 0 ≤ p.2 ∧ p.2 < st.length)
    (hlat : d.lat.length = d.id.length) (hlon : d.lon.length = d.id.length)
    (hdi : ∀ di, d.denseinfo = some di →
      di.version.length = d.id.length ∧ di.timestamp.length = d.id.length ∧
      di.changeset.length = d.id.length ∧ di.user_sid.length = d.id.length ∧
      di.uid.length = d.id.length ∧
      ∀ i, i < d.id.length → ∃ m, add_info (dense_info_at di i) st tg = .ok m)
    (out0 : List NodeOut) (pre : List Int) (id_i : Int) (rest : List Int) (s : DenseState)
    (hid : d.id = pre ++ id_i :: rest)
    (hinv : dense_num_inv d st la lo g tg out0 pre.length s ∧
      dense_tag_inv st segs out0 pre.length s) :
    ∃ s1, dense_step d st la lo g tg pre.length id_i s = .ok s1 ∧
      (dense_num_inv d st la lo g tg out0 (pre.length + 1) s1 ∧
        dense_tag_inv st segs out0 (pre.length + 1) s1) := by
  have hn : pre.length < d.id.length := by rw [hid]; simp
  have hlatg : d.lat[pre.length]? = some d.lat[pre.length] := List.getElem?_eq_getElem (by omega)
  have hlong : d.lon[pre.length]? = some d.lon[pre.length] := List.getElem?_eq_getElem (by omega)
  obtain ⟨sI, meta, hinfo⟩ := dense_info_complete d st la lo g tg out0 pre.length s
    { s with node_id := to_u64 (s.node_id + id_i),
             delta_lat := wrap64 (s.delta_lat + d.lat[pre.length]),
             delta_lon := wrap64 (s.delta_lon + d.lon[pre.length]) } hn hdi hinv.1 rfl rfl rfl rfl
  obtain ⟨-, -, -, f4, -⟩ := dense_info_frame _ _ _ _ _ _ _ hinfo
  simp only at f4
  have htags := dense_tags_at st segs hvalid pre.length
  rw [← hkv, ← hinv.2.1, ← f4] at htags
  have hstep := dense_step_of d st lo la g tg pre.length id_i s sI _ _ meta _ _ hlatg hlong
    hinfo htags
  exact ⟨_, hstep, dense_num_inv_step d st la lo g tg out0 pre id_i rest s _ hid hstep hinv.1,
    dense_tag_inv_step d st la lo g tg segs hkv hvalid out0 pre id_i rest s _ hid hstep hinv.2⟩

/-- C2. Every completed `process_dense_nodes` call appends exactly `n_id` nodes, in
order; the id of the `i`-th is the 64-bit running sum of `id[0..i]`, its `lat`/`lon`
are computed from the 64-bit running sums of `lat[0..i]`/`lon[0..i]`, its meta is
absent when `denseinfo` is absent and otherwise is what `add_info` sets for the record
made of `version[i]` and the running sums of `timestamp`, `changeset`, `user_sid`,
`uid`: the emitted `version`, `changeset`, `uid` are these values (nil for a value 0),
`user` is the string-table entry of the `user_sid` sum (nil for 0), `timestamp` is the
`timestamp` sum times the granularity (nil for 0).  The call completes when the
parallel arrays all have length `n_id`, `add_info` completes on each of these records
and `keys_vals` is a concatenation of well-formed segments.  The dense node of
scenario S2 decodes to id 42 and 51380294000, -1200000000 nanodegrees; a group of two
nodes with `denseinfo` gets versions 1 and 2 and the sums of the other four arrays. -/
theorem process_dense_nodes_delta_decoding (out : List NodeOut) (d : DenseNodes)
    (string_table : List String) (lat_offset lon_offset granularity ts_granularity : Int) :
    (∀ outs, process_dense_nodes out d string_table lat_offset lon_offset granularity
        ts_granularity = .ok outs →
      ∃ new, outs = out ++ new ∧ new.length = d.id.length ∧
        ∀ i, i < d.id.length → ∃ nd, new[i]? = some nd ∧
          nd.id = wrap64 (running_sum d.id i) ∧
          nd.lat_nano = nano_coord lat_offset (wrap64 (running_sum d.lat i)) granularity ∧
          nd.lon_nano = nano_coord lon_offset (wrap64 (running_sum d.lon i)) granularity ∧
          (d.denseinfo = none → nd.meta = none) ∧
          (∀ di, d.denseinfo = some di →
            ∃ m, add_info (dense_info_at di i) string_table ts_granularity = .ok m ∧
              nd.meta = some m ∧
              meta_law string_table ts_granularity (dense_info_at di i) m)) ∧
    (d.lat.length = d.id.length → d.lon.length = d.id.length →
      (∀ di, d.denseinfo = some di →
        di.version.length = d.id.length ∧ di.timestamp.length = d.id.length ∧
        di.changeset.length = d.id.length ∧ di.user_sid.length = d.id.length ∧
        di.uid.length = d.id.length ∧
        ∀ i, i < d.id.length →
          ∃ m, add_info (dense_info_at di i) string_table ts_granularity = .ok m) →
      (∃ segs, d.keys_vals = encode_keys_vals segs ∧ ∀ seg ∈ segs, ∀ p ∈ seg,
        p.1 ≠ 0 ∧ 0 ≤ p.1 ∧ p.1 < string_table.length ∧ 0 ≤ p.2 ∧ p.2 < string_table.length) →
      ∃ outs, process_dense_nodes out d string_table lat_offset lon_offset granularity
        ts_granularity = .ok outs) ∧
    process_dense_nodes []
        { id := [42], denseinfo := none, lat := [513802940], lon := [-12000000],
          keys_vals := [] } [""] 0 0 100 1000 =
      .ok [{ id := 42, lat_nano := 51380294000, lon_nano := -1200000000, meta := none,
             tags := [] }] ∧
    process_dense_nodes []
        { id := [42, 1], denseinfo := some ⟨[1, 2], [1000, 10], [5, 1], [7, 0], [1, 0]⟩,
          lat := [10, 1], lon := [20, 1], keys_vals := [] } ["", "alice"] 0 0 100 1000 =
      .ok [{ id := 42, lat_nano := 1000, lon_nano := 2000,
             meta := some ⟨some 1, some 1000000, some 5, some 7, some "alice"⟩, tags := [] },
           { id := 43, lat_nano := 1100, lon_nano := 2100,
             meta := some ⟨some 2, some 1010000, some 6, some 7, some "alice"⟩,
             tags := [] }] := by
  refine ⟨?_, ?_, by decide, by decide⟩
  · intro outs h
    unfold process_dense_nodes at h
    split at h
    · exact absurd h (by simp)
    · rename_i s hs
      simp only [Except.ok.injEq] at h
      have hinv := dense_loop_inv d string_table lat_offset lon_offset granularity ts_granularity
        (dense_num_inv d string_table lat_offset lon_offset granularity ts_granularity out)
        (dense_num_inv_step d string_table lat_offset lon_offset granularity ts_granularity out)
        d.id [] (DenseState.init out) s (by simp) hs
        (dense_num_inv_init d string_table lat_offset lon_offset granularity ts_granularity out)
      obtain ⟨-, -, -, -, nodes, hout, hlen, hnodes⟩ := hinv
      refine ⟨nodes, by rw [← h, hout], hlen, ?_⟩
      intro i hi
      obtain ⟨nd, hnd, h1, h2, h3, h4, h5⟩ := hnodes i hi
      refine ⟨nd, hnd, h1, h2, h3, h4, ?_⟩
      intro di hdi
      obtain ⟨m, hm, hmeta⟩ := h5 di hdi
      exact ⟨m, hm, hmeta, add_info_meta_law _ _ _ _ hm⟩
  · intro hlat hlon hdi ⟨segs, hkv, hvalid⟩
    obtain ⟨s, hs, -⟩ := dense_loop_total d string_table lat_offset lon_offset granularity
      ts_granularity
      (fun n s => dense_num_inv d string_table lat_offset lon_offset granularity ts_granularity
        out n s ∧ dense_tag_inv string_table segs out n s)
      (dense_step_complete d string_table lat_offset lon_offset granularity ts_granularity segs
        hkv hvalid hlat hlon hdi out)
      d.id [] (DenseState.init out) (by simp)
      ⟨dense_num_inv_init d string_table lat_offset lon_offset granularity ts_granularity out,
        dense_tag_inv_init string_table segs out⟩
    refine ⟨s.out, ?_⟩
    unfold process_dense_nodes process_dense_nodes_state
    simp only [List.length_nil] at hs
    rw [hs]

/-- Witness for C2: the dense group of scenario S2 completes. -/
theorem process_dense_nodes_delta_decoding_witness :
    ∃ outs, process_dense_nodes []
        { id := [42], denseinfo := none, lat := [513802940], lon := [-12000000],
          keys_vals := [] } [""] 0 0 100 1000 = .ok outs :=
  (process_dense_nodes_delta_decoding []
    { id := [42], denseinfo := none, lat := [513802940], lon := [-12000000],
      keys_vals := [] } [""] 0 0 100 1000).2.1 rfl rfl (by intro di h; exact absurd h (by simp))
    ⟨[], rfl, by simp⟩

theorem rb_hash_aset_of_not_mem (tags : Tags) (k v : String)
    (h : k ∉ tags.map Prod.fst) : rb_hash_aset tags k v = tags ++ [(k, v)] := by
  induction tags with
  | nil => rfl
  | cons kv rest ih =>
    obtain ⟨k0, v0⟩ := kv
    simp only [List.map_cons, List.mem_cons, not_or] at h
    have h1 : ¬ k0 = k := fun e => h.1 e.symm
    simp only [rb_hash_aset, h1, ↓reduceIte, ih h.2, List.cons_append]

theorem tags_of_segment_nodup (st : List String) (seg : List (Int × Int)) :
    ∀ acc : Tags, (acc.map Prod.fst ++ (resolved_pairs st seg).map Prod.fst).Nodup →
      tags_of_segment st seg acc = acc ++ resolved_pairs st seg := by
  induction seg with
  | nil => intro acc _; simp [tags_of_segment, resolved_pairs]
  | cons p rest ih =>
    intro acc h
    obtain ⟨k, v⟩ := p
    simp only [resolved_pairs, List.map_cons, List.map_map] at h
    have hk : str_new (st.getD k.toNat "") ∉ acc.map Prod.fst := by
      intro hmem
      have := (List.nodup_append.1 h).2.2
      exact this hmem (by simp)
    rw [tags_of_segment, rb_hash_aset_of_not_mem acc _ _ hk, ih]
    · simp [resolved_pairs]
    · simp only [resolved_pairs, List.map_append, List.map_cons, List.map_nil, List.map_map,
        List.append_assoc, List.singleton_append]
      exact h

/-- C4 (as stated, refuted). A dense node whose well-formed segment `[1, 2, 1, 3, 0]` has the
two pairs (name, a) and (name, b): the emitted tags are the one pair (name, b), not
the two pairs of the segment resolved through the string table. -/
theorem dense_tags_repeated_key_counterexample :
    process_dense_nodes []
        { id := [10], denseinfo := none, lat := [5], lon := [7], keys_vals := [1, 2, 1, 3, 0] }
        ["", "name", "a", "b"] 0 0 100 1000 =
      .ok [{ id := 10, lat_nano := 500, lon_nano := 700, meta := none,
             tags := [("name", "b")] }] ∧
    ([1, 2, 1, 3, 0] : List Int) = encode_keys_vals [[(1, 2), (1, 3)]] ∧
    resolved_pairs ["", "name", "a", "b"] [(1, 2), (1, 3)] = [("name", "a"), ("name", "b")] ∧
    ([("name", "b")] : Tags) ≠ [("name", "a"), ("name", "b")] := by
  decide

/-- C4 (amended). When `keys_vals` is the concatenation, node after node, of the node's (key
index, value index) pairs followed by one 0, with non-zero key indices and all indices
inside the string table, every completed `process_dense_nodes` call leaves the cursor
`j` at `n_keys_vals` and gives the `i`-th emitted node the tag hash obtained by setting,
pair after pair of the `i`-th segment, the key string to the value string (strings
read as C strings; a key that occurs again keeps its place and takes the later value;
empty for an immediate 0); when the key strings of the segment are pairwise distinct
the tags are exactly the pairs of the segment resolved through the string table, in
order; the call completes when moreover the parallel arrays have length `n_id` and
`add_info` completes.  When `keys_vals` is empty every emitted node has an empty tag
hash.  A group of two nodes with `keys_vals = [1, 2, 0, 0]` gets one tag, then none. -/
theorem process_dense_nodes_tags (out : List NodeOut) (d : DenseNodes)
    (string_table : List String) (lat_offset lon_offset granularity ts_granularity : Int) :
    (∀ segs : List (List (Int × Int)), d.keys_vals = encode_keys_vals segs →
      segs.length = d.id.length →
      (∀ seg ∈ segs, ∀ p ∈ seg,
        p.1 ≠ 0 ∧ 0 ≤ p.1 ∧ p.1 < string_table.length ∧ 0 ≤ p.2 ∧ p.2 < string_table.length) →
      (∀ s, process_dense_nodes_state out d string_table lat_offset lon_offset granularity
          ts_granularity = .ok s →
        s.j = d.keys_vals.length ∧
        ∃ new, s.out = out ++ new ∧ new.length = d.id.length ∧
          ∀ (i : Nat) (seg : List (Int × Int)), segs[i]? = some seg →
            ∃ nd, new[i]? = some nd ∧ nd.tags = tags_of_segment string_table seg [] ∧
              (((resolved_pairs string_table seg).map Prod.fst).Nodup →
                nd.tags = resolved_pairs string_table seg)) ∧
      (d.lat.length = d.id.length → d.lon.length = d.id.length →
        (∀ di, d.denseinfo = some di →
          di.version.length = d.id.length ∧ di.timestamp.length = d.id.length ∧
          di.changeset.length = d.id.length ∧ di.user_sid.length = d.id.length ∧
          di.uid.length = d.id.length ∧
          ∀ i, i < d.id.length →
            ∃ m, add_info (dense_info_at di i) string_table ts_granularity = .ok m) →
        ∃ s, process_dense_nodes_state out d string_table lat_offset lon_offset granularity
          ts_granularity = .ok s)) ∧
    (d.keys_vals = [] →
      ∀ s, process_dense_nodes_state out d string_table lat_offset lon_offset granularity
          ts_granularity = .ok s →
        s.j = 0 ∧ ∃ new, s.out = out ++ new ∧ new.length = d.id.length ∧
          ∀ nd ∈ new, nd.tags = []) ∧
    process_dense_nodes []
        { id := [10, 1], denseinfo := none, lat := [5, 5], lon := [7, 7],
          keys_vals := [1, 2, 0, 0] } ["", "highway", "bus_stop"] 0 0 100 1000 =
      .ok [{ id := 10, lat_nano := 500, lon_nano := 700, meta := none,
             tags := [("highway", "bus_stop")] },
           { id := 11, lat_nano := 1000, lon_nano := 1400, meta := none, tags := [] }] := by
  have hpartial : ∀ segs : List (List (Int × Int)), d.keys_vals = encode_keys_vals segs →
      (∀ seg ∈ segs, ∀ p ∈ seg,
        p.1 ≠ 0 ∧ 0 ≤ p.1 ∧ p.1 < string_table.length ∧ 0 ≤ p.2 ∧ p.2 < string_table.length) →
      ∀ s, process_dense_nodes_state out d string_table lat_offset lon_offset granularity
          ts_granularity = .ok s → dense_tag_inv string_table segs out d.id.length s := by
    intro segs hkv hvalid s hs
    exact dense_loop_inv d string_table lat_offset lon_offset granularity ts_granularity
      (dense_tag_inv string_table segs out)
      (dense_tag_inv_step d string_table lat_offset lon_offset granularity ts_granularity segs
        hkv hvalid out)
      d.id [] (DenseState.init out) s (by simp) hs (dense_tag_inv_init string_table segs out)
  refine ⟨?_, ?_, by decide⟩
  · intro segs hkv hlen hvalid
    constructor
    · intro s hs
      obtain ⟨hj, nodes, hout, hnlen, hnodes⟩ := hpartial segs hkv hvalid s hs
      refine ⟨?_, nodes, hout, hnlen, ?_⟩
      · rw [hj, hkv, List.take_of_length_le (by omega)]
      · intro i seg hseg
        have hi : i < segs.length := by
          by_contra hc
          rw [List.getElem?_eq_none (by omega)] at hseg
          exact absurd hseg (by simp)
        obtain ⟨nd, hnd1, hnd2⟩ := hnodes i (by omega)
        have htags : nd.tags = tags_of_segment string_table seg [] := by
          rw [hnd2, List.getD_eq_getElem?_getD, hseg]
          rfl
        refine ⟨nd, hnd1, htags, ?_⟩
        intro hn
        rw [htags, tags_of_segment_nodup string_table seg [] (by simpa using hn)]
        rfl
    · intro hlat hlon hdi
      obtain ⟨s, hs, -⟩ := dense_loop_total d string_table lat_offset lon_offset granularity
        ts_granularity
        (fun n s => dense_num_inv d string_table lat_offset lon_offset granularity
          ts_granularity out n s ∧ dense_tag_inv string_table segs out n s)
        (dense_step_complete d string_table lat_offset lon_offset granularity ts_granularity
          segs hkv hvalid hlat hlon hdi out)
        d.id [] (DenseState.init out) (by simp)
        ⟨dense_num_inv_init d string_table lat_offset lon_offset granularity ts_granularity out,
          dense_tag_inv_init string_table segs out⟩
      exact ⟨s, hs⟩
  · intro hkv s hs
    obtain ⟨hj, nodes, hout, hnlen, hnodes⟩ := hpartial [] (by rw [hkv]; rfl) (by simp) s hs
    refine ⟨by simpa [encode_keys_vals] using hj, nodes, hout, hnlen, ?_⟩
    intro nd hnd
    obtain ⟨k, hk, hknd⟩ := List.getElem_of_mem hnd
    obtain ⟨nd1, hnd1, hnd2⟩ := hnodes k (by omega)
    rw [List.getElem?_eq_getElem hk, hknd] at hnd1
    simp only [Option.some.injEq] at hnd1
    rw [hnd1, hnd2]
    simp [tags_of_segment]

/-- Witness for C4 (amended): two nodes, the first with one tag, the second with none;
the call completes. -/
theorem process_dense_nodes_tags_witness :
    ∃ s, process_dense_nodes_state []
        { id := [10, 1], denseinfo := none, lat := [5, 5], lon := [7, 7],
          keys_vals := [1, 2, 0, 0] } ["", "highway", "bus_stop"] 0 0 100 1000 = .ok s :=
  ((process_dense_nodes_tags []
    { id := [10, 1], denseinfo := none, lat := [5, 5], lon := [7, 7],
      keys_vals := [1, 2, 0, 0] } ["", "highway", "bus_stop"] 0 0 100 1000).1
    [[(1, 2)], []] rfl rfl (by decide)).2 rfl rfl (by intro di h; exact absurd h (by simp))

/-- C5 (failing inputs). With `keys_vals = [1, 2]` (no terminator) the loop condition
reads `keys_vals[2]` although `n_keys_vals = 2`; with `keys_vals = [1]` (value missing)
the loop body reads `keys_vals[1]` although `n_keys_vals = 1`. -/
theorem dense_tags_reads_past_end :
    process_dense_nodes []
        { id := [1], denseinfo := none, lat := [0], lon := [0], keys_vals := [1, 2] }
        ["", "k", "v"] 0 0 100 1000 = .error (.ub "keys_vals" 2) ∧
    process_dense_nodes []
        { id := [1], denseinfo := none, lat := [0], lon := [0], keys_vals := [1] }
        ["", "k", "v"] 0 0 100 1000 = .error (.ub "keys_vals" 1) := by
  decide

theorem arr_get_error (name : String) (arr : List Int) (i : Nat) (e : Err)
    (h : arr_get name arr i = .error e) : e = .ub name i := by
  unfold arr_get at h
  split at h
  · exact absurd h (by simp)
  · simp only [Except.error.injEq] at h; exact h.symm

theorem string_table_s_error (st : List String) (i : Int) (e : Err)
    (h : string_table_s st i = .error e) : e = .ub "string_table" i := by
  unfold string_table_s at h
  split at h
  · exact absurd h (by simp)
  · simp only [Except.error.injEq] at h; exact h.symm

/-- The iteration bound of the model of the `while` loop is never reached: a run of
`dense_tags` ends by the exit of the loop or by an out-of-bounds read. -/
theorem dense_tags_while_fuel (st : List String) (keys_vals : List Int) :
    ∀ (fuel j : Nat) (tags : Tags), j ≤ keys_vals.length → keys_vals.length + 1 ≤ fuel + j →
      dense_tags_while st keys_vals fuel j tags ≠ .error .fuel := by
  intro fuel
  induction fuel with
  | zero => intro j tags h1 h2; omega
  | succ fuel ih =>
    intro j tags h1 h2 h
    rw [dense_tags_while] at h
    split at h
    · rename_i e he
      rw [arr_get_error _ _ _ _ he] at h
      exact absurd h (by simp)
    · rename_i key_sid hkey
      split at h
      · split at h
        · rename_i e he
          rw [string_table_s_error _ _ _ he] at h
          exact absurd h (by simp)
        · split at h
          · rename_i e he
            rw [arr_get_error _ _ _ _ he] at h
            exact absurd h (by simp)
          · rename_i val_sid hval
            have hlt : j + 1 < keys_vals.length := by
              have := arr_get_ok _ _ _ _ hval
              by_contra hc
              rw [List.getElem?_eq_none (by omega)] at this
              exact absurd this (by simp)
            split at h
            · rename_i e he
              rw [string_table_s_error _ _ _ he] at h
              exact absurd h (by simp)
            · exact ih (j + 2) _ (by omega) (by omega) h
      · exact absurd h (by simp)

/-! ## Framing and the index scan -/

theorem be32_bytes_length (n : Nat) : (be32_bytes n).length = 4 := rfl

theorem ntohl_be32_bytes (n : Nat) (h : n < 4294967296) : ntohl (be32_bytes n) = n := by
  simp only [ntohl, be32_bytes, List.foldl_cons, List.foldl_nil]
  omega

theorem fread_at (f : CFile) (pre mid post : List Nat) (hc : f.content = pre ++ (mid ++ post))
    (hp : f.pos = pre.length) (hm : 0 < mid.length) :
    fread f mid.length = (some mid, ⟨f.content, pre.length + mid.length, f.eof⟩) := by
  unfold fread
  have h1 : mid.length ≠ 0 := by omega
  have h2 : f.pos + mid.length ≤ f.content.length := by
    rw [hc, hp]; simp only [List.length_append]; omega
  have h3 : (f.content.drop f.pos).take mid.length = mid := by
    rw [hc, hp, List.drop_left, List.take_left]
  rw [if_neg h1, if_pos h2, h3, hp]

theorem fread_content (f : CFile) (size : Nat) : (fread f size).2.content = f.content := by
  unfold fread
  split_ifs <;> rfl

theorem fileblock_bytes_length (b : Fileblock) :
    (fileblock_bytes b).length = 4 + b.header_bytes.length + b.payload.length := by
  simp only [fileblock_bytes, List.length_append, be32_bytes_length]
  omega

theorem file_bytes_length_ge (blocks : List Fileblock) :
    blocks.length ≤ (file_bytes blocks).length := by
  induction blocks with
  | nil => simp [file_bytes]
  | cons b rest ih =>
    simp only [file_bytes, List.length_append, List.length_cons, fileblock_bytes_length]
    omega

theorem read_blob_header_eof (ext : Ext) (f : CFile) (h : f.content.length ≤ f.pos) :
    read_blob_header ext f = (.ok none, ⟨f.content, f.pos, true⟩) := by
  have hf : fread f 4 = (none, ⟨f.content, f.pos, true⟩) := by
    unfold fread
    have h2 : ¬ f.pos + 4 ≤ f.content.length := by omega
    rw [if_neg (by decide), if_neg h2, Nat.max_eq_left h]
  simp [read_blob_header, get_header_size, hf, feof]

theorem read_blob_header_at (ext : Ext) (f : CFile) (pre post : List Nat) (b : Fileblock)
    (h : BlobHeader) (hc : f.content = pre ++ (fileblock_bytes b ++ post))
    (hp : f.pos = pre.length) (h1 : 1 ≤ b.header_bytes.length)
    (h2 : b.header_bytes.length ≤ MAX_BLOB_HEADER_SIZE)
    (hu : ext.blob_header__unpack b.header_bytes = some h) :
    read_blob_header ext f =
      (.ok (some h), ⟨f.content, pre.length + 4 + b.header_bytes.length, f.eof⟩) := by
  have hc1 : f.content = pre ++ (be32_bytes b.header_bytes.length ++
      (b.header_bytes ++ (b.payload ++ post))) := by
    rw [hc, fileblock_bytes]; simp
  have hr1 := fread_at f pre (be32_bytes b.header_bytes.length) _ hc1 hp (by simp [be32_bytes])
  rw [be32_bytes_length] at hr1
  have hc2 : f.content = (pre ++ be32_bytes b.header_bytes.length) ++
      (b.header_bytes ++ (b.payload ++ post)) := by rw [hc1]; simp
  have hr2 := fread_at ⟨f.content, pre.length + 4, f.eof⟩
    (pre ++ be32_bytes b.header_bytes.length) b.header_bytes (b.payload ++ post) hc2
    (by simp [be32_bytes_length]) (by omega)
  simp only [List.length_append, be32_bytes_length] at hr2
  have hL : b.header_bytes.length < 4294967296 := by
    unfold MAX_BLOB_HEADER_SIZE at h2; omega
  have hcond : ¬ (b.header_bytes.length < 1 ∨ b.header_bytes.length > MAX_BLOB_HEADER_SIZE) := by
    omega
  simp only [read_blob_header, get_header_size, hr1, ntohl_be32_bytes _ hL, hcond, ↓reduceIte,
    hr2, hu]

theorem to_u32_of_range (x : Int) (h0 : 0 ≤ x) (h1 : x < 4294967296) : to_u32 x = x := by
  unfold to_u32; omega

theorem find_all_blobs_loop_valid (ext : Ext) (rest : List Fileblock) :
    ∀ (pre : List Nat) (fuel : Nat) (f : CFile) (blobs : List BlobInfo),
      (∀ b ∈ rest, well_formed ext b) → f.content = pre ++ file_bytes rest →
      f.pos = pre.length → rest.length < fuel →
      find_all_blobs_loop ext fuel f pre.length blobs =
        (.ok (), ⟨f.content, f.content.length, true⟩,
          blobs ++ descriptors ext pre.length rest) := by
  induction rest with
  | nil =>
    intro pre fuel f blobs _ hc hp hfuel
    obtain ⟨fuel1, rfl⟩ : ∃ k, fuel = k + 1 := ⟨fuel - 1, by simp at hfuel; omega⟩
    simp only [file_bytes, List.append_nil] at hc
    have hle : f.content.length ≤ f.pos := by rw [hp, hc]
    have hpos : f.pos = f.content.length := by rw [hp, hc]
    rw [find_all_blobs_loop, read_blob_header_eof ext f hle]
    simp [descriptors, hpos]
  | cons b rest ih =>
    intro pre fuel f blobs hwf hc hp hfuel
    obtain ⟨fuel1, rfl⟩ : ∃ k, fuel = k + 1 := ⟨fuel - 1, by simp at hfuel; omega⟩
    obtain ⟨h1, h2, h3, h, hu, hd⟩ := hwf b (by simp)
    simp only [file_bytes] at hc
    rw [find_all_blobs_loop, read_blob_header_at ext f pre (file_bytes rest) b h hc hp h1 h2 hu]
    have hseek : fseek_cur ⟨f.content, pre.length + 4 + b.header_bytes.length, f.eof⟩ h.datasize
        = some ⟨f.content, (pre ++ fileblock_bytes b).length, false⟩ := by
      unfold fseek_cur
      simp only [hd, List.length_append, fileblock_bytes_length]
      rw [if_neg (by omega)]
      congr 2
      omega
    simp only [hseek, ftell]
    have hc3 : f.content = (pre ++ fileblock_bytes b) ++ file_bytes rest := by rw [hc]; simp
    rw [ih (pre ++ fileblock_bytes b) fuel1 ⟨f.content, (pre ++ fileblock_bytes b).length, false⟩
      _ (fun x hx => hwf x (by simp [hx])) hc3 rfl (by simp at hfuel; omega)]
    have htype : block_type ext b = some h.type := by simp [block_type, hu]
    have hsz : to_u32 h.datasize = b.payload.length := by
      rw [hd]; exact to_u32_of_range _ (by omega) (by omega)
    have hoff : pre.length + (fileblock_bytes b).length = (pre ++ fileblock_bytes b).length := by
      simp
    by_cases ht : h.type = "OSMData"
    · simp only [descriptors, htype, ht, ↓reduceIte, hsz, hoff, List.append_assoc,
        List.singleton_append, Prod.mk.injEq, true_and, List.append_cancel_left_eq,
        List.cons.injEq, and_true, BlobInfo.mk.injEq]
      refine ⟨by push_cast; ring, by push_cast; ring⟩
    · simp only [descriptors, htype, ht, ↓reduceIte, hoff, Option.some.injEq, List.nil_append]
theorem get_header_size_content (f : CFile) : (get_header_size f).2.content = f.content := by
  have hc := fread_content f 4
  unfold get_header_size
  rcases h : fread f 4 with ⟨_ | buf, f1⟩ <;> rw [h] at hc <;> exact hc

theorem read_blob_header_content (ext : Ext) (f : CFile) :
    (read_blob_header ext f).2.content = f.content := by
  have hc := get_header_size_content f
  unfold read_blob_header
  rcases h : get_header_size f with ⟨length, f1⟩
  rw [h] at hc
  simp only at hc ⊢
  split_ifs
  · exact hc
  · exact hc
  · have hc2 := fread_content f1 length
    rcases h2 : fread f1 length with ⟨_ | buf, f2⟩
    · rw [h2] at hc2; simp only at hc2 ⊢; rw [hc2, hc]
    · rw [h2] at hc2
      simp only at hc2 ⊢
      split <;> simp only [hc2, hc]

theorem read_blob_content (ext : Ext) (f : CFile) (length : Nat) :
    (read_blob ext f length).2.content = f.content := by
  unfold read_blob
  split_ifs
  · rfl
  · have hc2 := fread_content f length
    rcases h2 : fread f length with ⟨_ | buf, f2⟩
    · rw [h2] at hc2; exact hc2
    · rw [h2] at hc2
      simp only at hc2 ⊢
      split <;> exact hc2

theorem fseek_set_content (f f1 : CFile) (offset : Int) (h : fseek_set f offset = some f1) :
    f1.content = f.content := by
  unfold fseek_set at h
  split_ifs at h
  simp only [Option.some.injEq] at h
  rw [← h]

theorem parse_osm_header_frame (ext : Ext) (p : Parser) :
    (parse_osm_header ext p).2.input.content = p.input.content := by
  have hc := read_blob_header_content ext p.input
  unfold parse_osm_header
  rcases h : read_blob_header ext p.input with ⟨r, f⟩
  rw [h] at hc
  simp only at hc
  rcases r with e | (_ | header)
  · exact hc
  · exact hc
  · simp only
    split_ifs
    · exact hc
    · have hc2 := read_blob_content ext f (to_u64 header.datasize).toNat
      rcases h2 : read_blob ext f (to_u64 header.datasize).toNat with ⟨r2, f2⟩
      rw [h2] at hc2
      simp only at hc2
      rcases r2 with e | blob
      · simp only; rw [hc2, hc]
      · simp only
        split <;> simp only [hc2, hc]

theorem parse_osm_data_frame (ext : Ext) (p : Parser) :
    (parse_osm_data ext p).2.input.content = p.input.content ∧
      (parse_osm_data ext p).2.blobs = p.blobs := by
  have hc := read_blob_header_content ext p.input
  unfold parse_osm_data
  rcases h : read_blob_header ext p.input with ⟨r, f⟩
  rw [h] at hc
  simp only at hc
  rcases r with e | (_ | header)
  · exact ⟨hc, rfl⟩
  · exact ⟨hc, rfl⟩
  · simp only
    split_ifs
    · exact ⟨hc, rfl⟩
    · have hc2 := read_blob_content ext f (to_u64 header.datasize).toNat
      rcases h2 : read_blob ext f (to_u64 header.datasize).toNat with ⟨r2, f2⟩
      rw [h2] at hc2
      simp only at hc2
      rcases r2 with e | blob
      · simp only [hc2, hc, and_self]
      · simp only
        split
        · simp only [hc2, hc, and_self]
        · split <;> simp only [hc2, hc, and_self]

theorem seek_to_osm_data_frame (ext : Ext) (p : Parser) (index : Int) :
    (seek_to_osm_data ext p index).2.input.content = p.input.content ∧
      (seek_to_osm_data ext p index).2.blobs = p.blobs := by
  unfold seek_to_osm_data
  by_cases h1 : index < -2147483648 ∨ 2147483647 < index
  · rw [if_pos h1]; exact ⟨rfl, rfl⟩
  · rw [if_neg h1]
    simp only
    by_cases h2 : p.pos = index
    · rw [if_pos h2]; exact ⟨rfl, rfl⟩
    · rw [if_neg h2]
      rcases h3 : rb_ary_entry p.blobs index with _ | blob_info
      · exact ⟨rfl, rfl⟩
      · simp only
        rcases h4 : fseek_set p.input (blob_info.header_pos - 4) with _ | f
        · exact ⟨rfl, rfl⟩
        · have := parse_osm_data_frame ext { p with input := f, pos := index - 1 }
          simp only at this ⊢
          rw [this.1, this.2, fseek_set_content _ _ _ h4]
          exact ⟨rfl, rfl⟩

theorem descriptors_length (ext : Ext) (blocks : List Fileblock) : ∀ off,
    (descriptors ext off blocks).length =
      (blocks.filter (fun b => block_type ext b = some "OSMData")).length := by
  induction blocks with
  | nil => intro off; rfl
  | cons b rest ih =>
    intro off
    simp only [descriptors, List.length_append, ih, List.filter_cons]
    by_cases h : block_type ext b = some "OSMData" <;> simp [h]; omega

theorem find_all_blobs_valid (ext : Ext) (blocks : List Fileblock)
    (hwf : ∀ b ∈ blocks, well_formed ext b) (p : Parser)
    (hc : p.input.content = file_bytes blocks) :
    find_all_blobs ext p =
      (.ok true, { p with input := ⟨p.input.content, p.input.pos, false⟩,
                          blobs := descriptors ext 0 blocks }) := by
  unfold find_all_blobs
  have hs : fseek_set p.input 0 = some ⟨p.input.content, 0, false⟩ := by
    simp [fseek_set]
  have hloop := find_all_blobs_loop_valid ext blocks [] (p.input.content.length + 1)
    ⟨p.input.content, 0, false⟩ [] hwf (by simpa using hc) rfl
    (by have := file_bytes_length_ge blocks; rw [← hc] at this; omega)
  simp only [List.length_nil, Nat.cast_zero, List.nil_append] at hloop
  simp only [hs, hloop, ftell]
  have hs2 : fseek_set ⟨p.input.content, p.input.content.length, true⟩ (p.input.pos : Int) =
      some ⟨p.input.content, p.input.pos, false⟩ := by
    simp [fseek_set]
  rw [hs2]
/-- C7. For a file made of well-formed fileblocks, `find_all_blobs` returns true from any
parser state on that file and leaves in `@blobs` exactly the descriptors of the
"OSMData" fileblocks, in file order; so after a successful open `size` is the
number of "OSMData" fileblocks.  A file whose only fileblock is the "OSMHeader" opens
with `size` 0. -/
theorem find_all_blobs_indexes_data_blocks (ext : Ext) (blocks : List Fileblock)
    (hwf : ∀ b ∈ blocks, well_formed ext b) :
    (∀ p : Parser, p.input.content = file_bytes blocks →
      ∃ p1, find_all_blobs ext p = (.ok true, p1) ∧ p1.blobs = descriptors ext 0 blocks ∧
        size_getter p1 = (blocks.filter (fun b => block_type ext b = some "OSMData")).length) ∧
    (∀ p : Parser, initialize_obj ext (file_bytes blocks) = (.ok (), p) →
      p.blobs = descriptors ext 0 blocks ∧
      size_getter p = (blocks.filter (fun b => block_type ext b = some "OSMData")).length) ∧
    ((initialize_obj example_ext (file_bytes [{ header_bytes := [1], payload := [9] }])).1 = .ok () ∧
      size_getter
        (initialize_obj example_ext (file_bytes [{ header_bytes := [1], payload := [9] }])).2 = 0) := by
  refine ⟨?_, ?_, by decide⟩
  · intro p hc
    exact ⟨_, find_all_blobs_valid ext blocks hwf p hc, rfl,
      by simp only [size_getter]; exact descriptors_length ext blocks 0⟩
  · intro p h
    unfold initialize_obj at h
    simp only at h
    have hc1 := parse_osm_header_frame ext (Parser.opened (file_bytes blocks))
    rcases h1 : parse_osm_header ext (Parser.opened (file_bytes blocks)) with ⟨r1, p1⟩
    rw [h1] at h hc1
    rcases r1 with e | u
    · simp only [Prod.mk.injEq] at h; exact absurd h.1 (by simp)
    · simp only at h hc1
      have hc2 := (parse_osm_data_frame ext p1).1
      rcases h2 : parse_osm_data ext p1 with ⟨r2, p2⟩
      rw [h2] at h hc2
      rcases r2 with e | b
      · simp only [Prod.mk.injEq] at h; exact absurd h.1 (by simp)
      · simp only at h hc2
        have hc3 : p2.input.content = file_bytes blocks := by
          rw [hc2, hc1]; rfl
        rw [find_all_blobs_valid ext blocks hwf p2 hc3] at h
        simp only [Prod.mk.injEq, true_and] at h
        rw [← h]
        exact ⟨rfl, by simp only [size_getter]; exact descriptors_length ext blocks 0⟩

theorem example_file_well_formed :
    ∀ b ∈ [({ header_bytes := [1], payload := [9] } : Fileblock),
      { header_bytes := [2], payload := [7] }, { header_bytes := [2], payload := [8] }],
      well_formed example_ext b := by
  intro b hb
  simp only [List.mem_cons, List.mem_singleton, List.not_mem_nil, or_false] at hb
  rcases hb with rfl | rfl | rfl
  · exact ⟨by decide, by decide, by decide, ⟨_, rfl, rfl⟩⟩
  · exact ⟨by decide, by decide, by decide, ⟨_, rfl, rfl⟩⟩
  · exact ⟨by decide, by decide, by decide, ⟨_, rfl, rfl⟩⟩

/-- Witness for C7: the example file of one "OSMHeader" and two "OSMData" fileblocks
opens with two descriptors. -/
theorem find_all_blobs_indexes_data_blocks_witness :
    (initialize_obj example_ext example_file).2.blobs =
      descriptors example_ext 0 [{ header_bytes := [1], payload := [9] },
        { header_bytes := [2], payload := [7] }, { header_bytes := [2], payload := [8] }] ∧
    size_getter (initialize_obj example_ext example_file).2 = 2 :=
  (find_all_blobs_indexes_data_blocks example_ext _ example_file_well_formed).2.1
    (initialize_obj example_ext example_file).2 (by decide)

theorem fread_some (f f1 : CFile) (size : Nat) (buf : List Nat)
    (h : fread f size = (some buf, f1)) :
    buf = (f.content.drop f.pos).take size ∧ buf.length = size ∧
      f.pos + size ≤ f.content.length ∧ f1 = ⟨f.content, f.pos + size, f.eof⟩ := by
  unfold fread at h
  split_ifs at h with h1 h2
  · exact absurd h (by simp)
  · simp only [Prod.mk.injEq, Option.some.injEq] at h
    refine ⟨h.1.symm, ?_, h2, h.2.symm⟩
    rw [← h.1, List.length_take, List.length_drop]
    omega
  · exact absurd h (by simp)

theorem read_blob_header_some (ext : Ext) (f f1 : CFile) (hdr : BlobHeader)
    (h : read_blob_header ext f = (.ok (some hdr), f1)) :
    ∃ hbytes : List Nat, ntohl ((f.content.drop f.pos).take 4) = hbytes.length ∧
      f.pos + 4 + hbytes.length ≤ f.content.length ∧
      (f.content.drop (f.pos + 4)).take hbytes.length = hbytes ∧
      1 ≤ hbytes.length ∧ hbytes.length ≤ MAX_BLOB_HEADER_SIZE ∧
      ext.blob_header__unpack hbytes = some hdr ∧
      f1 = ⟨f.content, f.pos + 4 + hbytes.length, f.eof⟩ := by
  unfold read_blob_header get_header_size at h
  rcases h4 : fread f 4 with ⟨_ | buf, f0⟩
  · rw [h4] at h
    have hz : (0 < 1 ∨ 0 > MAX_BLOB_HEADER_SIZE) := Or.inl (by decide)
    simp only [hz, ↓reduceIte] at h
    split_ifs at h <;> simp only [Prod.mk.injEq] at h <;> exact absurd h.1 (by simp)
  · rw [h4] at h
    obtain ⟨hbuf, -, hle, hf0⟩ := fread_some _ _ _ _ h4
    simp only at h
    split_ifs at h with hc hc2
    · simp only [Prod.mk.injEq, Except.ok.injEq] at h
      exact absurd h.1 (by simp)
    · simp only [Prod.mk.injEq] at h
      exact absurd h.1 (by simp)
    · rcases hL : fread f0 (ntohl buf) with ⟨_ | hbytes, f2⟩
      · rw [hL] at h
        simp only [Prod.mk.injEq] at h
        exact absurd h.1 (by simp)
      · rw [hL] at h
        obtain ⟨hb1, hb2, hle2, hf2⟩ := fread_some _ _ _ _ hL
        simp only at h
        rw [hf0] at hb1 hle2 hf2
        simp only at hb1 hle2 hf2
        rcases hu : ext.blob_header__unpack hbytes with _ | hdr1
        · rw [hu] at h
          simp only [Prod.mk.injEq] at h
          exact absurd h.1 (by simp)
        · rw [hu] at h
          simp only [Prod.mk.injEq, Except.ok.injEq, Option.some.injEq] at h
          refine ⟨hbytes, by rw [← hbuf, hb2], by omega, ?_, by omega, by omega,
            by rw [hu, h.1], ?_⟩
          · rw [hb2]; exact hb1.symm
          · rw [← h.2, hf2, hb2]

/-- What the scan records of an "OSMData" fileblock whose length bytes are read at
byte `off`: the offset of the BlobHeader, the length of the BlobHeader, the offset of
the Blob, and `datasize` as `unsigned int`. -/
theorem find_all_blobs_loop_fields (ext : Ext) : ∀ (fuel : Nat) (f : CFile) (blobs : List BlobInfo)
    (Q : BlobInfo → Prop),
    (∀ (off : Nat) (hbytes : List Nat) (hdr : BlobHeader),
      ntohl ((f.content.drop off).take 4) = hbytes.length →
      (f.content.drop (off + 4)).take hbytes.length = hbytes →
      ext.blob_header__unpack hbytes = some hdr → hdr.type = "OSMData" →
      Q ⟨off + 4, hbytes.length, off + 4 + hbytes.length, to_u32 hdr.datasize⟩) →
    (∀ b ∈ blobs, Q b) →
    ∀ b ∈ (find_all_blobs_loop ext fuel f f.pos blobs).2.2, Q b := by
  intro fuel
  induction fuel with
  | zero => intro f blobs Q _ hb; simpa [find_all_blobs_loop] using hb
  | succ fuel ih =>
    intro f blobs Q hQ hb
    rw [find_all_blobs_loop]
    rcases hr : read_blob_header ext f with ⟨r, f1⟩
    rcases r with e | (_ | hdr)
    · simpa using hb
    · simpa using hb
    · obtain ⟨hbytes, e1, -, e3, -, -, e6, e7⟩ := read_blob_header_some ext f f1 hdr hr
      simp only
      have hb1 : ∀ b ∈ (if hdr.type = "OSMData" then
          blobs ++ [{ header_pos := (f.pos : Int) + 4, header_size := ftell f1 - f.pos - 4,
                      data_pos := ftell f1, data_size := to_u32 hdr.datasize }]
          else blobs), Q b := by
        split_ifs with ht
        · intro b hbm
          rcases List.mem_append.mp hbm with hbm | hbm
          · exact hb b hbm
          · simp only [List.mem_singleton] at hbm
            have := hQ f.pos hbytes hdr e1 e3 e6 ht
            rw [hbm, e7]
            simp only [ftell]
            convert this using 2
            push_cast; ring
        · exact hb
      rcases hs : fseek_cur f1 hdr.datasize with _ | f2
      · exact hb1
      · simp only
        have hc2 : f2.content = f.content := by
          unfold fseek_cur at hs
          split_ifs at hs
          simp only [Option.some.injEq] at hs
          rw [← hs, e7]
        have := ih f2 _ Q (by rw [hc2]; exact hQ) hb1
        simpa [ftell] using this
/-- C8 (as stated, refuted). In the example file the first "OSMData" fileblock has its
4-byte length at byte 6, a BlobHeader of 1 byte at byte 10 and its Blob at byte 11; the
scan records `header_pos` 10, not 6, and `data_pos` 11 is not
`header_pos + 4 + header_size`. -/
theorem find_all_blobs_header_pos_counterexample :
    (find_all_blobs example_ext (Parser.opened example_file)).2.blobs =
      [{ header_pos := 10, header_size := 1, data_pos := 11, data_size := 1 },
       { header_pos := 16, header_size := 1, data_pos := 17, data_size := 1 }] ∧
    (example_file.drop 6).take 6 = fileblock_bytes { header_bytes := [2], payload := [7] } ∧
    (10 : Int) ≠ 6 ∧ (11 : Int) ≠ 10 + 4 + 1 := by
  decide

/-- C8 (amended). Every descriptor recorded by the index scan, on any file, comes from a
fileblock whose 4-byte length was read at some byte `off` and whose BlobHeader has the
type "OSMData": `header_pos` is `off + 4`, the offset of the BlobHeader itself,
`header_size` is the length of the BlobHeader, `data_pos` is `header_pos + header_size`,
and `data_size` is the declared `datasize` (for a `datasize` that is not negative). -/
theorem find_all_blobs_descriptor_fields (ext : Ext) (p : Parser) :
    ∀ b ∈ (find_all_blobs ext p).2.blobs,
      ∃ (off : Nat) (hbytes : List Nat) (hdr : BlobHeader),
        ntohl ((p.input.content.drop off).take 4) = hbytes.length ∧
        (p.input.content.drop (off + 4)).take hbytes.length = hbytes ∧
        ext.blob_header__unpack hbytes = some hdr ∧ hdr.type = "OSMData" ∧
        b.header_pos = off + 4 ∧ b.header_size = hbytes.length ∧
        b.data_pos = b.header_pos + b.header_size ∧
        (0 ≤ hdr.datasize → hdr.datasize < 4294967296 → b.data_size = hdr.datasize) := by
  have hloop := find_all_blobs_loop_fields ext (p.input.content.length + 1)
    ⟨p.input.content, 0, false⟩ []
    (fun b => ∃ (off : Nat) (hbytes : List Nat) (hdr : BlobHeader),
        ntohl ((p.input.content.drop off).take 4) = hbytes.length ∧
        (p.input.content.drop (off + 4)).take hbytes.length = hbytes ∧
        ext.blob_header__unpack hbytes = some hdr ∧ hdr.type = "OSMData" ∧
        b.header_pos = off + 4 ∧ b.header_size = hbytes.length ∧
        b.data_pos = b.header_pos + b.header_size ∧
        (0 ≤ hdr.datasize → hdr.datasize < 4294967296 → b.data_size = hdr.datasize))
    (fun off hbytes hdr h1 h2 h3 h4 => ⟨off, hbytes, hdr, h1, h2, h3, h4, rfl, rfl, rfl,
      fun h5 h6 => to_u32_of_range _ h5 h6⟩)
    (by simp)
  simp only [Nat.cast_zero] at hloop
  unfold find_all_blobs
  have hs : fseek_set p.input 0 = some ⟨p.input.content, 0, false⟩ := by
    simp [fseek_set]
  simp only [hs]
  rcases hr : find_all_blobs_loop ext (p.input.content.length + 1)
    ⟨p.input.content, 0, false⟩ 0 [] with ⟨r, f1, blobs⟩
  rw [hr] at hloop
  simp only at hloop
  rcases r with e | u
  · exact hloop
  · simp only
    split <;> exact hloop

/-- Witness for C8 (amended): the first descriptor of the example file. -/
theorem find_all_blobs_descriptor_fields_witness :
    ∃ (off : Nat) (hbytes : List Nat) (hdr : BlobHeader),
      ntohl ((example_file.drop off).take 4) = hbytes.length ∧
      (example_file.drop (off + 4)).take hbytes.length = hbytes ∧
      example_ext.blob_header__unpack hbytes = some hdr ∧ hdr.type = "OSMData" ∧
      (10 : Int) = off + 4 ∧ (1 : Int) = hbytes.length ∧ (11 : Int) = 10 + 1 ∧
      (0 ≤ hdr.datasize → hdr.datasize < 4294967296 → (1 : Int) = hdr.datasize) :=
  find_all_blobs_descriptor_fields example_ext (Parser.opened example_file)
    { header_pos := 10, header_size := 1, data_pos := 11, data_size := 1 } (by decide)

/-! ## The cursor: `seek` -/

theorem file_bytes_append (a b : List Fileblock) :
    file_bytes (a ++ b) = file_bytes a ++ file_bytes b := by
  induction a with
  | nil => rfl
  | cons x a ih => simp [file_bytes, ih]

theorem descriptors_get (ext : Ext) (blocks : List Fileblock) :
    ∀ (off i : Nat) (d : BlobInfo), (descriptors ext off blocks)[i]? = some d →
      ∃ (before : List Fileblock) (b : Fileblock) (after : List Fileblock),
        blocks = before ++ b :: after ∧ block_type ext b = some "OSMData" ∧
        d.header_pos = ((off + (file_bytes before).length : Nat) : Int) + 4 := by
  induction blocks with
  | nil => intro off i d h; simp [descriptors] at h
  | cons x rest ih =>
    intro off i d h
    rw [descriptors] at h
    by_cases ht : block_type ext x = some "OSMData"
    · rw [if_pos ht] at h
      cases i with
      | zero =>
        simp only [List.singleton_append, List.getElem?_cons_zero, Option.some.injEq] at h
        exact ⟨[], x, rest, rfl, ht, by rw [← h]; simp [file_bytes]⟩
      | succ i =>
        simp only [List.singleton_append, List.getElem?_cons_succ] at h
        obtain ⟨before, b, after, h1, h2, h3⟩ := ih _ i d h
        refine ⟨x :: before, b, after, by rw [h1]; rfl, h2, ?_⟩
        rw [h3]
        simp only [file_bytes, List.length_append]
        push_cast; ring
    · rw [if_neg ht] at h
      simp only [List.nil_append] at h
      obtain ⟨before, b, after, h1, h2, h3⟩ := ih _ i d h
      refine ⟨x :: before, b, after, by rw [h1]; rfl, h2, ?_⟩
      rw [h3]
      simp only [file_bytes, List.length_append]
      push_cast; ring

theorem decode_payload_ok (ext : Ext) (payload : List Nat) (data : Data)
    (h : decode_payload ext payload = .ok data) :
    ∃ blob bytes pb, ext.blob__unpack payload = some blob ∧ blob_data ext blob = .ok bytes ∧
      ext.primitive_block__unpack bytes = some pb ∧ decode_block pb = .ok data := by
  unfold decode_payload at h
  split at h
  · exact absurd h (by simp)
  · rename_i blob hblob
    split at h
    · exact absurd h (by simp)
    · rename_i bytes hbytes
      split at h
      · exact absurd h (by simp)
      · rename_i pb hpb
        exact ⟨blob, bytes, pb, hblob, hbytes, hpb, h⟩

theorem parse_osm_data_at (ext : Ext) (p : Parser) (pre post : List Nat) (b : Fileblock)
    (data : Data) (hc : p.input.content = pre ++ (fileblock_bytes b ++ post))
    (hp : p.input.pos = pre.length) (hwf : well_formed_data ext b)
    (hd : decode_payload ext b.payload = .ok data) :
    parse_osm_data ext p =
      (.ok true, { p with input := ⟨p.input.content, pre.length + (fileblock_bytes b).length,
                                    p.input.eof⟩,
                          data := some data, pos := p.pos + 1 }) := by
  obtain ⟨⟨h1, h2, h3, hdr, hu, hsz⟩, hty, hp1, hp2, -⟩ := hwf
  obtain ⟨blob, bytes, pb, hblob, hbytes, hpb, hdec⟩ := decode_payload_ok ext _ _ hd
  have htype : hdr.type = "OSMData" := by
    simpa [block_type, hu] using hty
  have hlen : (to_u64 hdr.datasize).toNat = b.payload.length := by
    rw [hsz]; unfold to_u64; omega
  have hc2 : p.input.content = (pre ++ (be32_bytes b.header_bytes.length ++ b.header_bytes)) ++
      (b.payload ++ post) := by
    rw [hc, fileblock_bytes]; simp
  have hr := fread_at ⟨p.input.content, pre.length + 4 + b.header_bytes.length, p.input.eof⟩
    (pre ++ (be32_bytes b.header_bytes.length ++ b.header_bytes)) b.payload post hc2
    (by simp [be32_bytes_length]; omega) (by omega)
  simp only [List.length_append, be32_bytes_length] at hr
  have hbound : ¬ (b.payload.length < 1 ∨ b.payload.length > MAX_BLOB_SIZE) := by omega
  unfold parse_osm_data
  rw [read_blob_header_at ext p.input pre post b hdr hc hp h1 h2 hu]
  simp only [htype, ne_eq, not_true_eq_false, ↓reduceIte, hlen, read_blob, hbound, hr, hblob,
    hbytes, hpb, hdec, fileblock_bytes_length]
  congr 3
  omega

theorem initialize_obj_inv (ext : Ext) (blocks : List Fileblock)
    (hwf : ∀ b ∈ blocks, well_formed ext b) (p : Parser)
    (h : initialize_obj ext (file_bytes blocks) = (.ok (), p)) :
    p.input.content = file_bytes blocks ∧ p.blobs = descriptors ext 0 blocks := by
  unfold initialize_obj at h
  simp only at h
  have hc1 := parse_osm_header_frame ext (Parser.opened (file_bytes blocks))
  rcases h1 : parse_osm_header ext (Parser.opened (file_bytes blocks)) with ⟨r1, p1⟩
  rw [h1] at h hc1
  rcases r1 with e | u
  · simp only [Prod.mk.injEq] at h; exact absurd h.1 (by simp)
  · simp only at h hc1
    have hc2 := (parse_osm_data_frame ext p1).1
    rcases h2 : parse_osm_data ext p1 with ⟨r2, p2⟩
    rw [h2] at h hc2
    rcases r2 with e | b
    · simp only [Prod.mk.injEq] at h; exact absurd h.1 (by simp)
    · simp only at h hc2
      have hc3 : p2.input.content = file_bytes blocks := by
        rw [hc2, hc1]; rfl
      rw [find_all_blobs_valid ext blocks hwf p2 hc3] at h
      simp only [Prod.mk.injEq, true_and] at h
      rw [← h]
      exact ⟨hc3, rfl⟩

theorem reachable_inv (ext : Ext) (blocks : List Fileblock)
    (hwf : ∀ b ∈ blocks, well_formed ext b) (p : Parser)
    (h : Reachable ext (file_bytes blocks) p) :
    p.input.content = file_bytes blocks ∧ p.blobs = descriptors ext 0 blocks := by
  induction h with
  | opened p h => exact initialize_obj_inv ext blocks hwf p h
  | next p p1 r _ h ih =>
    have := parse_osm_data_frame ext p
    rw [h] at this
    exact ⟨this.1.trans ih.1, this.2.trans ih.2⟩
  | seek p p1 index r _ h ih =>
    have := seek_to_osm_data_frame ext p index
    rw [h] at this
    exact ⟨this.1.trans ih.1, this.2.trans ih.2⟩
theorem rb_ary_entry_of_range (ary : List BlobInfo) (i : Int) (h0 : 0 ≤ i)
    (h1 : i < ary.length) : rb_ary_entry ary i = ary[i.toNat]? := by
  unfold rb_ary_entry
  simp only
  rw [if_neg (by omega), if_neg (by omega)]

theorem seek_to_osm_data_same (ext : Ext) (p : Parser) (i : Int) (h1 : -2147483648 ≤ i)
    (h2 : i ≤ 2147483647) (hpos : p.pos = i) : seek_to_osm_data ext p i = (.ok true, p) := by
  unfold seek_to_osm_data
  rw [if_neg (by omega)]
  simp only [hpos, ↓reduceIte]

/-- C9. On a file made of a well-formed "OSMHeader" fileblock followed only by
well-formed "OSMData" fileblocks, from every parser state reached by calls that
returned, `seek(i)` with `0 <= i < size` (an index that fits `int`) returns true and
leaves `pos == i`; a second `seek(i)` returns true and leaves the whole parser state,
the file position included, as it is. -/
theorem seek_in_range (ext : Ext) (hb : Fileblock) (dbs : List Fileblock)
    (hhb : well_formed ext hb) (hty : block_type ext hb = some "OSMHeader")
    (hdbs : ∀ b ∈ dbs, well_formed_data ext b) (p : Parser)
    (hr : Reachable ext (file_bytes (hb :: dbs)) p) (i : Int) (h0 : 0 ≤ i)
    (h1 : i < size_getter p) (h2 : i ≤ 2147483647) :
    ∃ p1, seek_to_osm_data ext p i = (.ok true, p1) ∧ p1.pos = i ∧
      seek_to_osm_data ext p1 i = (.ok true, p1) := by
  have hwf : ∀ b ∈ hb :: dbs, well_formed ext b := by
    intro b hbm
    rcases List.mem_cons.mp hbm with rfl | hbm
    · exact hhb
    · exact (hdbs b hbm).1
  obtain ⟨hc, hbl⟩ := reachable_inv ext (hb :: dbs) hwf p hr
  by_cases hpos : p.pos = i
  · exact ⟨p, seek_to_osm_data_same ext p i (by omega) h2 hpos, hpos,
      seek_to_osm_data_same ext p i (by omega) h2 hpos⟩
  · simp only [size_getter] at h1
    have hlt : i.toNat < p.blobs.length := by omega
    have hentry : rb_ary_entry p.blobs i = some p.blobs[i.toNat] := by
      rw [rb_ary_entry_of_range _ _ h0 h1, List.getElem?_eq_getElem hlt]
    have hget : (descriptors ext 0 (hb :: dbs))[i.toNat]? = some p.blobs[i.toNat] := by
      rw [← hbl, List.getElem?_eq_getElem hlt]
    obtain ⟨before, b, after, hsplit, hbt, hhp⟩ := descriptors_get ext _ 0 _ _ hget
    have hbmem : b ∈ dbs := by
      have hm : b ∈ hb :: dbs := by rw [hsplit]; simp
      rcases List.mem_cons.mp hm with rfl | hm
      · rw [hty] at hbt; exact absurd hbt (by decide)
      · exact hm
    obtain ⟨hwfb, -, -, -, data, hdata⟩ := hdbs b hbmem
    have hseek : fseek_set p.input (p.blobs[i.toNat].header_pos - 4) =
        some ⟨p.input.content, (file_bytes before).length, false⟩ := by
      unfold fseek_set
      rw [hhp, if_neg (by omega)]
      congr 2
      omega
    have hcontent : p.input.content = file_bytes before ++ (fileblock_bytes b ++ file_bytes after) := by
      rw [hc, hsplit, file_bytes_append]; rfl
    have hparse := parse_osm_data_at ext
      { p with input := ⟨p.input.content, (file_bytes before).length, false⟩, pos := i - 1 }
      (file_bytes before) (file_bytes after) b data hcontent rfl (hdbs b hbmem) hdata
    have hres : seek_to_osm_data ext p i = parse_osm_data ext
        { p with input := ⟨p.input.content, (file_bytes before).length, false⟩, pos := i - 1 } := by
      unfold seek_to_osm_data
      rw [if_neg (by omega)]
      simp only [hpos, ↓reduceIte, hentry, hseek]
    rw [hparse] at hres
    exact ⟨_, hres, by simp, seek_to_osm_data_same ext _ i (by omega) h2 (by simp)⟩

theorem example_file_well_formed_data :
    ∀ b ∈ [({ header_bytes := [2], payload := [7] } : Fileblock),
      { header_bytes := [2], payload := [8] }], well_formed_data example_ext b := by
  intro b hb
  simp only [List.mem_cons, List.mem_singleton, List.not_mem_nil, or_false] at hb
  rcases hb with rfl | rfl
  · exact ⟨⟨by decide, by decide, by decide, ⟨_, rfl, rfl⟩⟩, rfl, by decide, by decide,
      ⟨_, rfl⟩⟩
  · exact ⟨⟨by decide, by decide, by decide, ⟨_, rfl, rfl⟩⟩, rfl, by decide, by decide,
      ⟨_, rfl⟩⟩

/-- Witness for C9: `seek(1)` on the example file, right after it is opened. -/
theorem seek_in_range_witness :
    ∃ p1, seek_to_osm_data example_ext (initialize_obj example_ext example_file).2 1 =
        (.ok true, p1) ∧ p1.pos = 1 ∧ seek_to_osm_data example_ext p1 1 = (.ok true, p1) :=
  seek_in_range example_ext { header_bytes := [1], payload := [9] }
    [{ header_bytes := [2], payload := [7] }, { header_bytes := [2], payload := [8] }]
    ⟨by decide, by decide, by decide, ⟨_, rfl, rfl⟩⟩ rfl example_file_well_formed_data
    (initialize_obj example_ext example_file).2
    (Reachable.opened _ (by decide)) 1 (by decide) (by decide) (by decide)

/-- A descriptor index that is in the range of `int`, is not the current ordinal and is
at or past `size`, or below `-size`, makes `seek` return false and change nothing. -/
theorem seek_to_osm_data_absent (ext : Ext) (p : Parser) (n : Int) (hpos : p.pos ≠ n)
    (hn : (size_getter p ≤ n ∧ n ≤ 2147483647) ∨ (-2147483648 ≤ n ∧ n < -(size_getter p : Int))) :
    seek_to_osm_data ext p n = (.ok false, p) := by
  unfold seek_to_osm_data
  simp only [size_getter] at hn
  rw [if_neg (by omega)]
  have hentry : rb_ary_entry p.blobs n = none := by
    unfold rb_ary_entry
    simp only
    split_ifs <;> first | rfl | omega
  simp only [hpos, ↓reduceIte, hentry]

/-- C10 (failing input). The example file opens with `size == 2` and `pos == 0`;
`seek(-1)` then returns true, having read the last data block and set `pos` to -1. -/
theorem seek_negative_index_succeeds :
    (initialize_obj example_ext example_file).1 = .ok () ∧
    size_getter (initialize_obj example_ext example_file).2 = 2 ∧
    (initialize_obj example_ext example_file).2.pos = 0 ∧
    (seek_to_osm_data example_ext (initialize_obj example_ext example_file).2 (-1)).1 = .ok true ∧
    (seek_to_osm_data example_ext (initialize_obj example_ext example_file).2 (-1)).2.pos = -1 := by
  decide

/-! ## Coordinates -/

theorem process_nodes_inv (st : List String) (la lo g tg : Int) (nodes : List Node) :
    ∀ (out outs : List NodeOut), process_nodes out nodes st la lo g tg = .ok outs →
      ∃ l, outs = out ++ l ∧ l.length = nodes.length ∧
        ∀ i (hi : i < nodes.length), ∃ nd, l[i]? = some nd ∧
          process_node nodes[i] st la lo g tg = .ok nd := by
  induction nodes with
  | nil => intro out outs h; simp [process_nodes] at h; exact ⟨[], by simp [h]⟩
  | cons node rest ih =>
    intro out outs h
    rw [process_nodes] at h
    split at h
    · exact absurd h (by simp)
    · rename_i w hw
      obtain ⟨l, hl, hlen, hi⟩ := ih _ _ h
      refine ⟨w :: l, by simp [hl], by simp [hlen], ?_⟩
      intro i hilt
      cases i with
      | zero => exact ⟨w, by simp, by simpa using hw⟩
      | succ i =>
        obtain ⟨w1, hw1, hw2⟩ := hi i (by simpa using hilt)
        exact ⟨w1, by simpa using hw1, by simpa using hw2⟩

theorem process_node_coord (node : Node) (st : List String) (la lo g tg : Int) (nd : NodeOut)
    (h : process_node node st la lo g tg = .ok nd) :
    nd.lat_nano = nano_coord la node.lat g ∧ nd.lon_nano = nano_coord lo node.lon g := by
  unfold process_node at h
  simp only at h
  split at h
  · exact absurd h (by simp)
  · split at h
    · exact absurd h (by simp)
    · simp only [Except.ok.injEq] at h
      rw [← h]
      exact ⟨rfl, rfl⟩

theorem nano_coord_exact (offset raw granularity : Int)
    (h1 : -9223372036854775808 ≤ raw * granularity) (h2 : raw * granularity < 9223372036854775808)
    (h3 : -9223372036854775808 ≤ offset + raw * granularity)
    (h4 : offset + raw * granularity < 9223372036854775808) :
    nano_coord offset raw granularity = offset + raw * granularity := by
  unfold nano_coord
  rw [wrap64_of_range _ h1 h2, wrap64_of_range _ h3 h4]

theorem mantissa_shift_spec :
    ∀ (fuel m : Nat), m < 9007199254740992 * 2 ^ fuel →
      m / 2 ^ mantissa_shift fuel m < 9007199254740992 ∧
      (mantissa_shift fuel m = 0 ∨ 4503599627370496 * 2 ^ mantissa_shift fuel m ≤ m) := by
  intro fuel
  induction fuel with
  | zero =>
    intro m h
    simp only [pow_zero, mul_one] at h
    simp only [mantissa_shift, pow_zero, Nat.div_one, true_or, and_true]
    exact h
  | succ k ih =>
    intro m h
    by_cases hm : m < 9007199254740992
    · simp only [mantissa_shift, hm, ↓reduceIte, pow_zero, Nat.div_one, true_or, and_true]
    · have h2 : m / 2 < 9007199254740992 * 2 ^ k := by
        rw [pow_succ] at h
        omega
      obtain ⟨h3, h4⟩ := ih (m / 2) h2
      simp only [mantissa_shift, hm, ↓reduceIte]
      have hp : 2 ^ (1 + mantissa_shift k (m / 2)) = 2 * 2 ^ mantissa_shift k (m / 2) := by
        rw [Nat.add_comm, pow_succ, Nat.mul_comm]
      rw [hp]
      constructor
      · rw [← Nat.div_div_eq_div_mul]
        exact h3
      · right
        rcases h4 with h4 | h4
        · rw [h4]
          simp only [pow_zero]
          omega
        · omega

theorem round_to_double_bounds (m P : Nat) (hP : 0 < P)
    (h : P = 1 ∨ 4503599627370496 * P ≤ m) :
    9007199254740991 * m ≤ 9007199254740992 *
        ((if 2 * (m % P) > P ∨ (2 * (m % P) = P ∧ m / P % 2 = 1) then m / P + 1
          else m / P) * P) ∧
      9007199254740992 *
        ((if 2 * (m % P) > P ∨ (2 * (m % P) = P ∧ m / P % 2 = 1) then m / P + 1
          else m / P) * P) ≤ 9007199254740993 * m := by
  have hdiv : P * (m / P) + m % P = m := Nat.div_add_mod m P
  have hr : m % P < P := Nat.mod_lt m hP
  generalize hq : m / P = q at hdiv ⊢
  generalize hrr : m % P = r at hdiv hr ⊢
  have hqP : q * P = P * q := Nat.mul_comm q P
  have hq1P : (q + 1) * P = P * q + P := by rw [Nat.add_mul, Nat.one_mul, hqP]
  generalize hz : P * q = z at hdiv hqP hq1P
  split_ifs with hc
  · rw [hq1P]
    rcases h with h | h
    · omega
    · omega
  · rw [hqP]
    rcases h with h | h
    · omega
    · omega

theorem double_of_int_bounds (n : Int) (hn : n.natAbs < 9007199254740992 * 2 ^ 256) :
    (0 ≤ n → 9007199254740991 * n ≤ 9007199254740992 * double_of_int n ∧
      9007199254740992 * double_of_int n ≤ 9007199254740993 * n) ∧
    (n < 0 → 9007199254740993 * n ≤ 9007199254740992 * double_of_int n ∧
      9007199254740992 * double_of_int n ≤ 9007199254740991 * n) := by
  obtain ⟨h1, h2⟩ := mantissa_shift_spec 256 n.natAbs hn
  have hP : 0 < 2 ^ mantissa_shift 256 n.natAbs := Nat.pos_pow_of_pos _ (by decide)
  have hone : 2 ^ mantissa_shift 256 n.natAbs = 1 ∨
      4503599627370496 * 2 ^ mantissa_shift 256 n.natAbs ≤ n.natAbs := by
    rcases h2 with h2 | h2
    · left; rw [h2]; rfl
    · right; exact h2
  obtain ⟨b1, b2⟩ := round_to_double_bounds n.natAbs _ hP hone
  unfold double_of_int
  simp only
  generalize hR : ((if 2 * (n.natAbs % 2 ^ mantissa_shift 256 n.natAbs) >
        2 ^ mantissa_shift 256 n.natAbs ∨
      (2 * (n.natAbs % 2 ^ mantissa_shift 256 n.natAbs) = 2 ^ mantissa_shift 256 n.natAbs ∧
        n.natAbs / 2 ^ mantissa_shift 256 n.natAbs % 2 = 1) then
      n.natAbs / 2 ^ mantissa_shift 256 n.natAbs + 1
    else n.natAbs / 2 ^ mantissa_shift 256 n.natAbs) * 2 ^ mantissa_shift 256 n.natAbs) = R
    at b1 b2 ⊢
  constructor
  · intro h0
    rw [if_neg (by omega)]
    have hnat : |n| = n := abs_of_nonneg h0
    have c1 : ((9007199254740991 * n.natAbs : Nat) : Int) ≤
        ((9007199254740992 * R : Nat) : Int) := by exact_mod_cast b1
    have c2 : ((9007199254740992 * R : Nat) : Int) ≤
        ((9007199254740993 * n.natAbs : Nat) : Int) := by exact_mod_cast b2
    push_cast at c1 c2
    rw [hnat] at c1 c2
    exact ⟨c1, c2⟩
  · intro h0
    rw [if_pos h0]
    have hnat : |n| = -n := abs_of_neg h0
    have c1 : ((9007199254740991 * n.natAbs : Nat) : Int) ≤
        ((9007199254740992 * R : Nat) : Int) := by exact_mod_cast b1
    have c2 : ((9007199254740992 * R : Nat) : Int) ≤
        ((9007199254740993 * n.natAbs : Nat) : Int) := by exact_mod_cast b2
    push_cast at c1 c2
    rw [hnat] at c1 c2
    constructor <;> omega

theorem natAbs_lt_of_bounds (x : Int) (b : Nat) (h1 : -(b : Int) < x) (h2 : x < b) :
    x.natAbs < b := by
  have : ((x.natAbs : Nat) : Int) < b := by
    rw [Int.natCast_natAbs]
    exact abs_lt.2 ⟨h1, h2⟩
  exact_mod_cast this

theorem nano_degree_times_close (x : Int) (h1 : -1000000000000000 ≤ x)
    (h2 : x ≤ 1000000000000000) :
    -4835703278458516698824704 ≤
      5 * ((nano_degree_times x).scaled * 1000000000 - x * 4835703278458516698824704) ∧
    5 * ((nano_degree_times x).scaled * 1000000000 - x * 4835703278458516698824704) ≤
      4835703278458516698824704 := by
  have hx : x.natAbs < 9007199254740992 := natAbs_lt_of_bounds x 9007199254740992
    (by push_cast; omega) (by push_cast; omega)
  have hn : (4835703278458517 * x).natAbs < 9007199254740992 * 2 ^ 256 := by
    refine natAbs_lt_of_bounds _ _ ?_ ?_
    · push_cast
      omega
    · push_cast
      omega
  obtain ⟨b1, b2⟩ := double_of_int_bounds (4835703278458517 * x) hn
  unfold nano_degree_times NANO_DEGREE
  simp only
  rw [double_of_int_exact x hx]
  generalize double_of_int (4835703278458517 * x) = D at b1 b2 ⊢
  by_cases h0 : 0 ≤ x
  · have := b1 (by omega)
    omega
  · have := b2 (by omega)
    omega

theorem coordinate_law_of_round (ext : Ext) (x : Int) :
    coordinate_law ext x (ext.float_round 7 (nano_degree_times x)) := by
  refine ⟨rfl, nano_degree_times_close x, ?_⟩
  intro hs h1 h2 h3
  have hc := nano_degree_times_close x h1 h2
  have hk : -49 ≤ x - 100 * ((x + 50) / 100) ∧ x - 100 * ((x + 50) / 100) ≤ 49 := by omega
  generalize (x + 50) / 100 = k at hk ⊢
  generalize nano_degree_times x = d at hc ⊢
  obtain ⟨D⟩ := d
  simp only at hc
  refine hs ⟨D⟩ k ?_ ?_ ?_ ?_ <;> simp only <;> omega

theorem example_ext_float_round_spec : float_round_spec example_ext := by
  intro x k _ _ h3 h4
  show double_of_decimal (7 : Int).toNat
      ((2 * x.scaled * 10 ^ (7 : Int).toNat + 4835703278458516698824704) /
        9671406556917033397649408) = double_of_decimal 7 k
  have h7 : (7 : Int).toNat = 7 := rfl
  rw [h7]
  congr 1
  norm_num
  omega

/-- C6 (as stated, refuted). Two row-wise nodes with `granularity = 100` and the raw `lat`
values 46116860184273915 and 46116860184273925: their exact coordinates
4611686018.4273915 and 4611686018.4273925 have 7 fractional digits and different
nearest doubles, yet both nanodegree integers convert to the same `double`, so the two
nodes get the same `lat`, whatever `Float#round` does: one of the two is not the exact
coordinate rounded to 7 fractional digits. -/
theorem coordinates_beyond_double_precision_counterexample :
    process_nodes []
        [⟨1, [], [], none, 46116860184273915, 0⟩, ⟨2, [], [], none, 46116860184273925, 0⟩]
        [""] 0 0 100 1000 =
      .ok [⟨1, 4611686018427391500, 0, none, []⟩, ⟨2, 4611686018427392500, 0, none, []⟩] ∧
    (∀ ext : Ext, NodeOut.lat ext ⟨1, 4611686018427391500, 0, none, []⟩ =
      NodeOut.lat ext ⟨2, 4611686018427392500, 0, none, []⟩) ∧
    (4611686018427391500 : Int) ≠ 4611686018427392500 ∧
    double_of_decimal 7 46116860184273915 ≠ double_of_decimal 7 46116860184273925 := by
  refine ⟨by decide, ?_, by decide, by decide⟩
  intro ext
  have h : nano_degree_times 4611686018427391500 = nano_degree_times 4611686018427392500 := by
    decide
  unfold NodeOut.lat
  simp only [h]

/-- C6 (amended). For every node, row-wise or dense, the emitted `lat` is
`Float#round(7)` of the `double` product `NANO_DEGREE * x`, where `x` is the 64-bit integer
`lat_offset + raw_lat * granularity` (`raw_lat` the stored value of a row-wise node, the
64-bit running sum of the deltas of a dense node), and `lon` likewise with `lon_offset`;
`x` is the exact integer when product and sum fit 64 bits; for `|x| <= 10^15` the
`double` product is within `2 * 10^-10` of `x * 10^-9`; and when `Float#round(7)` rounds
as `float_round_spec` says, `|x| <= 10^15`, and `x * 10^-9` is not half-way between two
numbers of 7 fractional digits, the emitted value is the `double` nearest to
`x * 10^-9` rounded to 7 fractional digits.  For `lat_offset = 0`, `granularity = 100`,
raw values 513802940 and -12000000: `x` is 51380294000 and -1200000000, the `double`
product is 51.380294000000006 (`248459856143962485492285440 * 2^-82`), and with the
rounding of `example_ext` the emitted values are the doubles written 51.380294
(`248459856143962451132547072 * 2^-82`) and -1.2 (`-5802843934150219823841280 * 2^-82`). -/
theorem node_coordinates (ext : Ext) (string_table : List String)
    (lat_offset lon_offset granularity ts_granularity : Int) :
    (∀ (out : List NodeOut) (nodes : List Node) (outs : List NodeOut),
      process_nodes out nodes string_table lat_offset lon_offset granularity ts_granularity
        = .ok outs →
      ∃ new, outs = out ++ new ∧ new.length = nodes.length ∧
        ∀ i (hi : i < nodes.length), ∃ nd, new[i]? = some nd ∧
          coordinate_law ext (nano_coord lat_offset (nodes[i]).lat granularity) (nd.lat ext) ∧
          coordinate_law ext (nano_coord lon_offset (nodes[i]).lon granularity)
            (nd.lon ext)) ∧
    (∀ (out : List NodeOut) (d : DenseNodes) (outs : List NodeOut),
      process_dense_nodes out d string_table lat_offset lon_offset granularity ts_granularity
        = .ok outs →
      ∃ new, outs = out ++ new ∧ new.length = d.id.length ∧
        ∀ i, i < d.id.length → ∃ nd, new[i]? = some nd ∧
          coordinate_law ext
            (nano_coord lat_offset (wrap64 (running_sum d.lat i)) granularity) (nd.lat ext) ∧
          coordinate_law ext
            (nano_coord lon_offset (wrap64 (running_sum d.lon i)) granularity)
            (nd.lon ext)) ∧
    (∀ offset raw : Int,
      -9223372036854775808 ≤ raw * granularity → raw * granularity < 9223372036854775808 →
      -9223372036854775808 ≤ offset + raw * granularity →
      offset + raw * granularity < 9223372036854775808 →
      nano_coord offset raw granularity = offset + raw * granularity) ∧
    (process_nodes []
        [{ id := 42, keys := [], vals := [], info := none, lat := 513802940, lon := -12000000 }]
        [""] 0 0 100 1000 =
      .ok [{ id := 42, lat_nano := 51380294000, lon_nano := -1200000000, meta := none,
             tags := [] }] ∧
      process_dense_nodes []
        { id := [42], denseinfo := none, lat := [513802940], lon := [-12000000],
          keys_vals := [] } [""] 0 0 100 1000 =
      .ok [{ id := 42, lat_nano := 51380294000, lon_nano := -1200000000, meta := none,
             tags := [] }] ∧
      nano_degree_times 51380294000 = ⟨248459856143962485492285440⟩ ∧
      NodeOut.lat example_ext ⟨42, 51380294000, -1200000000, none, []⟩ =
        ⟨248459856143962451132547072⟩ ∧
      NodeOut.lon example_ext ⟨42, 51380294000, -1200000000, none, []⟩ =
        ⟨-5802843934150219823841280⟩ ∧
      double_of_decimal 7 513802940 = ⟨248459856143962451132547072⟩ ∧
      double_of_decimal 7 (-12000000) = ⟨-5802843934150219823841280⟩) := by
  refine ⟨?_, ?_, ?_, by decide, by decide, by decide, by decide, by decide, by decide,
    by decide⟩
  · intro out nodes outs h
    obtain ⟨l, hl, hlen, hi⟩ := process_nodes_inv string_table lat_offset lon_offset granularity
      ts_granularity nodes out outs h
    refine ⟨l, hl, hlen, ?_⟩
    intro i hilt
    obtain ⟨nd, hnd1, hnd2⟩ := hi i hilt
    obtain ⟨c1, c2⟩ := process_node_coord _ _ _ _ _ _ _ hnd2
    refine ⟨nd, hnd1, ?_, ?_⟩
    · unfold NodeOut.lat FIX7
      rw [c1]
      exact coordinate_law_of_round ext _
    · unfold NodeOut.lon FIX7
      rw [c2]
      exact coordinate_law_of_round ext _
  · intro out d outs h
    unfold process_dense_nodes at h
    split at h
    · exact absurd h (by simp)
    · rename_i s hs
      simp only [Except.ok.injEq] at h
      have hinv := dense_loop_inv d string_table lat_offset lon_offset granularity ts_granularity
        (dense_num_inv d string_table lat_offset lon_offset granularity ts_granularity out)
        (dense_num_inv_step d string_table lat_offset lon_offset granularity ts_granularity out)
        d.id [] (DenseState.init out) s (by simp) hs
        (dense_num_inv_init d string_table lat_offset lon_offset granularity ts_granularity out)
      obtain ⟨-, -, -, -, nodes, hout, hlen, hnodes⟩ := hinv
      refine ⟨nodes, by rw [← h, hout], hlen, ?_⟩
      intro i hi
      obtain ⟨nd, hnd1, hnd2⟩ := hnodes i hi
      refine ⟨nd, hnd1, ?_, ?_⟩
      · unfold NodeOut.lat FIX7
        rw [hnd2.2.1]
        exact coordinate_law_of_round ext _
      · unfold NodeOut.lon FIX7
        rw [hnd2.2.2.1]
        exact coordinate_law_of_round ext _
  · intro offset raw h1 h2 h3 h4
    exact nano_coord_exact offset raw granularity h1 h2 h3 h4

/-- Witness for C6 (amended): the node of scenario S2, stored row-wise, with the rounding
of `example_ext`, which meets `float_round_spec`: the emitted `lat` and `lon` are the
doubles nearest to 51.3802940 and -1.2000000. -/
theorem node_coordinates_witness :
    NodeOut.lat example_ext ⟨42, 51380294000, -1200000000, none, []⟩ =
        double_of_decimal 7 513802940 ∧
      NodeOut.lon example_ext ⟨42, 51380294000, -1200000000, none, []⟩ =
        double_of_decimal 7 (-12000000) := by
  obtain ⟨new, h1, -, h3⟩ := (node_coordinates example_ext [""] 0 0 100 1000).1 []
    [{ id := 42, keys := [], vals := [], info := none, lat := 513802940, lon := -12000000 }]
    [{ id := 42, lat_nano := 51380294000, lon_nano := -1200000000, meta := none, tags := [] }]
    (by decide)
  have hnew : new = [⟨42, 51380294000, -1200000000, none, []⟩] := by simpa using h1.symm
  subst hnew
  obtain ⟨nd, hnd, hlat, hlon⟩ := h3 0 (by decide)
  simp only [List.getElem?_cons_zero, Option.some.injEq] at hnd
  subst hnd
  exact ⟨(hlat.2.2 example_ext_float_round_spec (by decide) (by decide) (by decide)).trans
      (by decide),
    (hlon.2.2 example_ext_float_round_spec (by decide) (by decide) (by decide)).trans
      (by decide)⟩

/-! ## The records of a block -/

theorem tags_loop_eq (st : List String) (vals : List Int) (keys : List Int) :
    ∀ (j : Nat) (tags out : Tags), tags_loop st vals keys j tags = .ok out →
      out = tags_of_segment st (keys.zip (vals.drop j)) tags := by
  induction keys with
  | nil =>
    intro j tags out h
    simp only [tags_loop, Except.ok.injEq] at h
    simp [tags_of_segment, h]
  | cons key_sid rest ih =>
    intro j tags out h
    rw [tags_loop] at h
    split at h
    · exact absurd h (by simp)
    · rename_i key hkey
      split at h
      · exact absurd h (by simp)
      · rename_i val_sid hval
        split at h
        · exact absurd h (by simp)
        · rename_i value hvalue
          have hk : key = st.getD key_sid.toNat "" := by
            unfold string_table_s at hkey
            split_ifs at hkey
            simp only [Except.ok.injEq] at hkey
            exact hkey.symm
          have hv : value = st.getD val_sid.toNat "" := by
            unfold string_table_s at hvalue
            split_ifs at hvalue
            simp only [Except.ok.injEq] at hvalue
            exact hvalue.symm
          have hj : vals[j]? = some val_sid := by
            unfold arr_get at hval
            split at hval
            · rename_i v hv1
              simp only [Except.ok.injEq] at hval
              rw [hv1, hval]
            · exact absurd hval (by simp)
          have hjlt : j < vals.length := by
            by_contra hc
            rw [List.getElem?_eq_none (by omega)] at hj
            exact absurd hj (by simp)
          have hdrop : vals.drop j = val_sid :: vals.drop (j + 1) := by
            rw [List.drop_eq_getElem_cons hjlt]
            rw [List.getElem?_eq_getElem hjlt] at hj
            simp only [Option.some.injEq] at hj
            rw [hj]
          rw [ih (j + 1) _ out h, hdrop, List.zip_cons_cons, tags_of_segment, hk, hv]

theorem tags_loop_law (st : List String) (keys vals : List Int) (tags : Tags)
    (h : tags_loop st vals keys 0 [] = .ok tags) : tags_law st keys vals tags := by
  have := tags_loop_eq st vals keys 0 [] tags h
  simpa [tags_law] using this

theorem add_info_opt_law (info : Option Info) (st : List String) (g : Int)
    (meta : Option Meta) (h : add_info_opt info st g = .ok meta) : info_law st g info meta := by
  cases info with
  | none =>
    simp only [add_info_opt, Except.ok.injEq] at h
    exact h.symm
  | some i =>
    unfold add_info_opt at h
    simp only at h
    cases hm : add_info i st g with
    | error e => rw [hm] at h; simp [Except.map] at h
    | ok m =>
      rw [hm] at h
      simp only [Except.map, Except.ok.injEq] at h
      exact ⟨m, h.symm, add_info_meta_law i st g m hm⟩

theorem process_node_law (node : Node) (st : List String) (la lo g tg : Int) (nd : NodeOut)
    (h : process_node node st la lo g tg = .ok nd) : node_law st la lo g tg node nd := by
  have hc := process_node_coord node st la lo g tg nd h
  unfold process_node at h
  simp only at h
  split at h
  · exact absurd h (by simp)
  · rename_i meta hmeta
    split at h
    · exact absurd h (by simp)
    · rename_i tags htags
      simp only [Except.ok.injEq] at h
      subst h
      exact ⟨rfl, hc.1, hc.2, tags_loop_law st _ _ tags htags, add_info_opt_law _ st tg meta hmeta⟩

theorem process_way_law (way : Way) (st : List String) (tg : Int) (w : WayOut)
    (h : process_way way st tg = .ok w) : way_law st tg way w := by
  have hrefs := process_way_refs way st tg w h
  obtain ⟨l, hl, hlen, hk⟩ := refs_loop_spec way.refs 0 []
  unfold process_way at h
  split at h
  · exact absurd h (by simp)
  · rename_i tags htags
    simp only at h
    split at h
    · exact absurd h (by simp)
    · rename_i meta hmeta
      simp only [Except.ok.injEq] at h
      subst h
      refine ⟨rfl, ⟨?_, ?_⟩, tags_loop_law st _ _ tags htags, add_info_opt_law _ st tg meta hmeta⟩
      · simp only [hl, List.nil_append, hlen]
      · intro k hklt
        simp only [hl, List.nil_append, hk k hklt, zero_add]

theorem process_relation_law (r : Relation) (st : List String) (tg : Int) (ro : RelationOut)
    (h : process_relation r st tg = .ok ro) : relation_law st tg r ro := by
  obtain ⟨m1, m2, m3⟩ := process_relation_members r st tg ro h
  unfold process_relation at h
  split at h
  · exact absurd h (by simp)
  · rename_i tags htags
    split at h
    · exact absurd h (by simp)
    · split at h
      · exact absurd h (by simp)
      · rename_i meta hmeta
        simp only [Except.ok.injEq] at h
        subst h
        exact ⟨rfl, m1, m2, m3, tags_loop_law st _ _ tags htags,
          add_info_opt_law _ st tg meta hmeta⟩

theorem process_dense_nodes_law (d : DenseNodes) (st : List String) (la lo g tg : Int)
    (dense : List NodeOut) (h : process_dense_nodes [] d st la lo g tg = .ok dense) :
    dense_law st la lo g tg d dense := by
  unfold process_dense_nodes at h
  split at h
  · exact absurd h (by simp)
  · rename_i s hs
    simp only [Except.ok.injEq] at h
    have hinv := dense_loop_inv d st la lo g tg (dense_num_inv d st la lo g tg [])
      (dense_num_inv_step d st la lo g tg []) d.id [] (DenseState.init []) s (by simp) hs
      (dense_num_inv_init d st la lo g tg [])
    obtain ⟨-, -, -, -, nodes, hout, hlen, hnodes⟩ := hinv
    have hd : dense = nodes := by rw [← h, hout]; rfl
    subst hd
    refine ⟨hlen, ?_⟩
    intro i hi
    obtain ⟨nd, hnd, hnum⟩ := hnodes i hi
    refine ⟨nd, hnd, hnum, ?_⟩
    intro di hdi
    obtain ⟨m, hm, hmeta⟩ := hnum.2.2.2.2 di hdi
    exact ⟨m, hmeta, add_info_meta_law _ _ _ _ hm⟩

theorem process_nodes_forall (st : List String) (la lo g tg : Int) (nodes : List Node) :
    ∀ (out outs : List NodeOut), process_nodes out nodes st la lo g tg = .ok outs →
      ∃ l, outs = out ++ l ∧
        List.Forall₂ (fun node nd => process_node node st la lo g tg = .ok nd ∧
          node_law st la lo g tg node nd) nodes l := by
  induction nodes with
  | nil =>
    intro out outs h
    simp only [process_nodes, Except.ok.injEq] at h
    exact ⟨[], by simp [h], List.Forall₂.nil⟩
  | cons node rest ih =>
    intro out outs h
    rw [process_nodes] at h
    split at h
    · exact absurd h (by simp)
    · rename_i w hw
      obtain ⟨l, hl, hf⟩ := ih _ _ h
      exact ⟨w :: l, by simp [hl],
        List.Forall₂.cons ⟨hw, process_node_law _ _ _ _ _ _ _ hw⟩ hf⟩

theorem process_ways_forall (st : List String) (tg : Int) (ways : List Way) :
    ∀ (out outs : List WayOut), process_ways out ways st tg = .ok outs →
      ∃ l, outs = out ++ l ∧
        List.Forall₂ (fun way w => process_way way st tg = .ok w ∧ way_law st tg way w)
          ways l := by
  induction ways with
  | nil =>
    intro out outs h
    simp only [process_ways, Except.ok.injEq] at h
    exact ⟨[], by simp [h], List.Forall₂.nil⟩
  | cons way rest ih =>
    intro out outs h
    rw [process_ways] at h
    split at h
    · exact absurd h (by simp)
    · rename_i w hw
      obtain ⟨l, hl, hf⟩ := ih _ _ h
      exact ⟨w :: l, by simp [hl], List.Forall₂.cons ⟨hw, process_way_law _ _ _ _ hw⟩ hf⟩

theorem process_relations_forall (st : List String) (tg : Int) (rels : List Relation) :
    ∀ (out outs : List RelationOut), process_relations out rels st tg = .ok outs →
      ∃ l, outs = out ++ l ∧
        List.Forall₂ (fun r ro => process_relation r st tg = .ok ro ∧
          relation_law st tg r ro) rels l := by
  induction rels with
  | nil =>
    intro out outs h
    simp only [process_relations, Except.ok.injEq] at h
    exact ⟨[], by simp [h], List.Forall₂.nil⟩
  | cons r rest ih =>
    intro out outs h
    rw [process_relations] at h
    split at h
    · exact absurd h (by simp)
    · rename_i w hw
      obtain ⟨l, hl, hf⟩ := ih _ _ h
      exact ⟨w :: l, by simp [hl], List.Forall₂.cons ⟨hw, process_relation_law _ _ _ _ hw⟩ hf⟩

theorem dense_info_out (dio : Option DenseInfo) (i : Nat) (s sI : DenseState)
    (st : List String) (tg : Int) (meta : Option Meta) (o : List NodeOut)
    (h : dense_info dio i s st tg = .ok (sI, meta)) :
    dense_info dio i { s with out := o } st tg = .ok ({ sI with out := o }, meta) := by
  cases dio with
  | none =>
    rw [dense_info_none] at h
    simp only [Except.ok.injEq, Prod.mk.injEq] at h
    rw [dense_info_none, ← h.1, ← h.2]
  | some di =>
    obtain ⟨ts, cs, us, ui, ver, m, h1, h2, h3, h4, h5, h6, h7, h8⟩ :=
      dense_info_some_ok di i s sI st tg meta h
    rw [dense_info_some_of di i { s with out := o } st tg ts cs us ui ver m h1 h2 h3 h4 h5 h6,
      h7, h8]

theorem dense_step_out (d : DenseNodes) (st : List String) (la lo g tg : Int) (i : Nat)
    (id_i : Int) (s s1 : DenseState) (o : List NodeOut)
    (h : dense_step d st la lo g tg i id_i s = .ok s1) :
    ∃ nd, s1.out = s.out ++ [nd] ∧
      dense_step d st la lo g tg i id_i { s with out := o } =
        .ok { s1 with out := o ++ [nd] } := by
  obtain ⟨lat_i, lon_i, sI, meta, j, tags, h1, h2, h3, h4, h5⟩ :=
    dense_step_ok d st lo la g tg i id_i s s1 h
  have hout := (dense_info_frame _ _ _ _ _ _ _ h3).2.2.2.2
  simp only at hout
  have h3o := dense_info_out _ _ _ _ _ _ _ o h3
  have hj : ({ sI with out := o } : DenseState).j = sI.j := rfl
  have := dense_step_of d st lo la g tg i id_i { s with out := o } { sI with out := o }
    lat_i lon_i meta j tags h1 h2 h3o (by rw [hj]; exact h4)
  refine ⟨_, by rw [h5, hout], ?_⟩
  rw [this, h5]

theorem dense_loop_out (d : DenseNodes) (st : List String) (la lo g tg : Int) :
    ∀ (ids : List Int) (i : Nat) (s s1 : DenseState) (o : List NodeOut),
      dense_loop d st la lo g tg ids i s = .ok s1 →
      ∃ l, s1.out = s.out ++ l ∧
        dense_loop d st la lo g tg ids i { s with out := o } =
          .ok { s1 with out := o ++ l } := by
  intro ids
  induction ids with
  | nil =>
    intro i s s1 o h
    simp only [dense_loop, Except.ok.injEq] at h
    exact ⟨[], by simp [h], by simp [dense_loop, h]⟩
  | cons id_i ids ih =>
    intro i s s1 o h
    rw [dense_loop] at h
    split at h
    · exact absurd h (by simp)
    · rename_i s2 hs2
      obtain ⟨nd, hnd, hstep⟩ := dense_step_out d st la lo g tg i id_i s s2 o hs2
      obtain ⟨l, hl, hloop⟩ := ih (i + 1) s2 s1 (o ++ [nd]) h
      refine ⟨nd :: l, by rw [hl, hnd]; simp, ?_⟩
      rw [dense_loop, hstep]
      simp only
      rw [hloop]
      simp

theorem process_dense_nodes_from_empty (d : DenseNodes) (st : List String) (la lo g tg : Int)
    (out outs : List NodeOut) (h : process_dense_nodes out d st la lo g tg = .ok outs) :
    ∃ l, outs = out ++ l ∧ process_dense_nodes [] d st la lo g tg = .ok l := by
  unfold process_dense_nodes process_dense_nodes_state at h
  split at h
  · exact absurd h (by simp)
  · rename_i s hs
    simp only [Except.ok.injEq] at h
    obtain ⟨l, hl, hloop⟩ := dense_loop_out d st la lo g tg d.id 0 _ s [] hs
    refine ⟨l, by rw [← h, hl]; rfl, ?_⟩
    unfold process_dense_nodes process_dense_nodes_state
    have hinit : ({ DenseState.init out with out := [] } : DenseState) = DenseState.init [] := rfl
    rw [hinit] at hloop
    rw [hloop]
    simp

theorem process_group_records (pb : PrimitiveBlock) (g : PrimitiveGroup) (data data1 : Data)
    (h : process_group pb g data = .ok data1) :
    ∃ n w r, data1.nodes = data.nodes ++ n ∧ data1.ways = data.ways ++ w ∧
      data1.relations = data.relations ++ r ∧
      group_nodes pb g n ∧ group_ways pb g w ∧ group_relations pb g r := by
  unfold process_group at h
  split at h
  · exact absurd h (by simp)
  · rename_i nodes1 hn1
    split at h
    · exact absurd h (by simp)
    · rename_i nodes2 hn2
      split at h
      · exact absurd h (by simp)
      · rename_i ways hw
        split at h
        · exact absurd h (by simp)
        · rename_i rels hr
          simp only [Except.ok.injEq] at h
          obtain ⟨rows, hrows, hfr⟩ := process_nodes_forall _ _ _ _ _ _ _ _ hn1
          obtain ⟨w, hw1, hfw⟩ := process_ways_forall _ _ _ _ _ hw
          obtain ⟨r, hr1, hfrel⟩ := process_relations_forall _ _ _ _ _ hr
          have hdense : ∃ dense, nodes2 = nodes1 ++ dense ∧
              (match g.dense with
               | none => dense = []
               | some d =>
                 process_dense_nodes [] d pb.stringtable pb.lat_offset pb.lon_offset
                   pb.granularity pb.date_granularity = .ok dense ∧
                 dense_law pb.stringtable pb.lat_offset pb.lon_offset pb.granularity
                   pb.date_granularity d dense) := by
            cases hd : g.dense with
            | none =>
              rw [hd] at hn2
              simp only [Except.ok.injEq] at hn2
              exact ⟨[], by simp [hn2], rfl⟩
            | some d =>
              rw [hd] at hn2
              simp only at hn2
              obtain ⟨l, hl, hl2⟩ := process_dense_nodes_from_empty _ _ _ _ _ _ _ _ hn2
              exact ⟨l, hl, hl2, process_dense_nodes_law _ _ _ _ _ _ _ hl2⟩
          obtain ⟨dense, hd1, hd2⟩ := hdense
          refine ⟨rows ++ dense, w, r, ?_, ?_, ?_, ⟨rows, dense, rfl, hfr, hd2⟩, hfw, hfrel⟩
          · rw [← h, hd1, hrows]; simp
          · rw [← h, hw1]
          · rw [← h, hr1]

theorem process_groups_records (pb : PrimitiveBlock) (gs : List PrimitiveGroup) :
    ∀ (data data1 : Data), process_groups pb gs data = .ok data1 →
      ∃ (ns : List (List NodeOut)) (ws : List (List WayOut)) (rs : List (List RelationOut)),
        data1.nodes = data.nodes ++ ns.flatten ∧ data1.ways = data.ways ++ ws.flatten ∧
        data1.relations = data.relations ++ rs.flatten ∧
        List.Forall₂ (group_nodes pb) gs ns ∧ List.Forall₂ (group_ways pb) gs ws ∧
        List.Forall₂ (group_relations pb) gs rs := by
  induction gs with
  | nil =>
    intro data data1 h
    simp only [process_groups, Except.ok.injEq] at h
    exact ⟨[], [], [], by simp [h], by simp [h], by simp [h], List.Forall₂.nil,
      List.Forall₂.nil, List.Forall₂.nil⟩
  | cons g rest ih =>
    intro data data1 h
    rw [process_groups] at h
    split at h
    · exact absurd h (by simp)
    · rename_i data2 hg
      obtain ⟨n, w, r, hn, hw, hr, gn, gw, gr⟩ := process_group_records pb g data data2 hg
      obtain ⟨ns, ws, rs, h1, h2, h3, f1, f2, f3⟩ := ih data2 data1 h
      exact ⟨n :: ns, w :: ws, r :: rs, by rw [h1, hn]; simp, by rw [h2, hw]; simp,
        by rw [h3, hr]; simp, List.Forall₂.cons gn f1, List.Forall₂.cons gw f2,
        List.Forall₂.cons gr f3⟩

theorem decode_block_records (pb : PrimitiveBlock) (data : Data)
    (h : decode_block pb = .ok data) : block_records pb data := by
  obtain ⟨ns, ws, rs, h1, h2, h3, f1, f2, f3⟩ :=
    process_groups_records pb pb.primitivegroup init_data_arr data h
  exact ⟨ns, ws, rs, by simpa [init_data_arr] using h1, by simpa [init_data_arr] using h2,
    by simpa [init_data_arr] using h3, f1, f2, f3⟩

theorem decode_payload_records (ext : Ext) (payload : List Nat) (data : Data)
    (h : decode_payload ext payload = .ok data) : payload_records ext payload data := by
  unfold decode_payload at h
  split at h
  · exact absurd h (by simp)
  · rename_i blob hblob
    split at h
    · exact absurd h (by simp)
    · rename_i bytes hbytes
      split at h
      · exact absurd h (by simp)
      · rename_i pb hpb
        exact ⟨blob, bytes, pb, hblob, hbytes, hpb, decode_block_records pb data h⟩

/-! ## The cursor: `next`, `seek` against sequential reading, `each` -/

theorem parse_osm_data_eof (ext : Ext) (p : Parser) (h : p.input.content.length ≤ p.input.pos) :
    parse_osm_data ext p =
      (.ok false, { p with input := ⟨p.input.content, p.input.pos, true⟩ }) := by
  unfold parse_osm_data
  rw [read_blob_header_eof ext p.input h]

/-- C12. `parse_osm_data` (`next`) is a step of the cursor: with the file position at the
end of the file it returns false and leaves `@pos`, `@data` and `@blobs` as they are;
with the file position at the start of a well-formed "OSMData" fileblock it returns
true, replaces `@data` by the records of that fileblock and adds 1 to `@pos`.  The
records of the fileblock are those of the primitive block that its Blob unpacks to:
group after group, the decoded row-wise nodes followed by the decoded dense nodes, the
decoded ways, and the decoded relations, each record holding the id, the coordinate
integers, the running sums of `refs`, the members, the tags and the meta values of its
entity (a block of two groups with a row-wise node, a dense node, a way and a relation
is evaluated).
The file whose only fileblock is the "OSMHeader" opens, has `size` 0, and `next`
returns false on it. -/
theorem parse_osm_data_step (ext : Ext) :
    (∀ p : Parser, p.input.content.length ≤ p.input.pos →
      ∃ p1, parse_osm_data ext p = (.ok false, p1) ∧ p1.pos = p.pos ∧ p1.data = p.data ∧
        p1.blobs = p.blobs) ∧
    (∀ (p : Parser) (pre post : List Nat) (b : Fileblock) (data : Data),
      p.input.content = pre ++ (fileblock_bytes b ++ post) → p.input.pos = pre.length →
      well_formed_data ext b → decode_payload ext b.payload = .ok data →
      ∃ p1, parse_osm_data ext p = (.ok true, p1) ∧ p1.data = some data ∧
        payload_records ext b.payload data ∧
        p1.pos = p.pos + 1 ∧ p1.input.pos = pre.length + (fileblock_bytes b).length) ∧
    ((initialize_obj example_ext (file_bytes [{ header_bytes := [1], payload := [9] }])).1 = .ok () ∧
      size_getter
        (initialize_obj example_ext (file_bytes [{ header_bytes := [1], payload := [9] }])).2 = 0 ∧
      (parse_osm_data example_ext
        (initialize_obj example_ext (file_bytes [{ header_bytes := [1], payload := [9] }])).2).1 =
        .ok false) ∧
    decode_block
        { stringtable := ["", "highway", "residential"], granularity := 100, lat_offset := 0,
          lon_offset := 0, date_granularity := 1000,
          primitivegroup :=
            [⟨[⟨1, [], [], none, 10, 20⟩], some ⟨[2], none, [30], [40], []⟩, [], []⟩,
             ⟨[], none, [⟨3, [1], [2], none, [1, 1]⟩], [⟨4, [], [], none, [0], [3], [1]⟩]⟩] } =
      .ok { nodes := [⟨1, 1000, 2000, none, []⟩, ⟨2, 3000, 4000, none, []⟩],
            ways := [⟨3, none, [("highway", "residential")], [1, 2]⟩],
            relations := [⟨4, none, [], [], [⟨3, none⟩], []⟩] } := by
  refine ⟨?_, ?_, by decide, by decide⟩
  · intro p h
    exact ⟨_, parse_osm_data_eof ext p h, rfl, rfl, rfl⟩
  · intro p pre post b data hc hp hwf hd
    exact ⟨_, parse_osm_data_at ext p pre post b data hc hp hwf hd, rfl,
      decode_payload_records ext b.payload data hd, rfl, rfl⟩

/-- Witness for C12: `next` on the example file, at the start of its second data block. -/
theorem parse_osm_data_step_witness :
    ∃ p1, parse_osm_data example_ext (initialize_obj example_ext example_file).2
        = (.ok true, p1) ∧
      p1.data = some { nodes := [{ id := 8, lat_nano := 0, lon_nano := 0, meta := none,
                                   tags := [] }], ways := [], relations := [] } ∧
      payload_records example_ext [8]
        { nodes := [{ id := 8, lat_nano := 0, lon_nano := 0, meta := none, tags := [] }],
          ways := [], relations := [] } ∧
      p1.pos = (initialize_obj example_ext example_file).2.pos + 1 ∧ p1.input.pos = 12 + 6 :=
  (parse_osm_data_step example_ext).2.1 (initialize_obj example_ext example_file).2
    [0, 0, 0, 1, 1, 9, 0, 0, 0, 1, 2, 7] [] { header_bytes := [2], payload := [8] } _
    (by decide) (by decide)
    ⟨⟨by decide, by decide, by decide, ⟨_, rfl, rfl⟩⟩, rfl, by decide, by decide, ⟨_, rfl⟩⟩
    (by decide)
theorem block_data_of_well_formed (ext : Ext) (b : Fileblock) (h : well_formed_data ext b) :
    decode_payload ext b.payload = .ok (block_data ext b) := by
  obtain ⟨-, -, -, -, data, hd⟩ := h
  simp only [block_data, hd]

theorem file_split_at (hb : Fileblock) (dbs : List Fileblock) (k : Nat) (hk : k < dbs.length) :
    file_bytes (hb :: dbs) = file_bytes (hb :: dbs.take k) ++
      (fileblock_bytes dbs[k] ++ file_bytes (dbs.drop (k + 1))) := by
  have h1 : hb :: dbs = (hb :: dbs.take k) ++ dbs[k] :: dbs.drop (k + 1) := by
    rw [List.cons_append, ← List.drop_eq_getElem_cons hk, List.take_append_drop]
  conv_lhs => rw [h1]
  rw [file_bytes_append]
  rfl

theorem block_offset_succ (hb : Fileblock) (dbs : List Fileblock) (k : Nat)
    (hk : k < dbs.length) :
    block_offset hb dbs (k + 1) = block_offset hb dbs k + (fileblock_bytes dbs[k]).length := by
  unfold block_offset
  have h1 : hb :: dbs.take (k + 1) = (hb :: dbs.take k) ++ [dbs[k]] := by
    rw [List.take_succ, List.getElem?_eq_getElem hk]; rfl
  rw [h1, file_bytes_append]
  simp [file_bytes]
  omega

theorem block_offset_length (hb : Fileblock) (dbs : List Fileblock) :
    block_offset hb dbs dbs.length = (file_bytes (hb :: dbs)).length := by
  unfold block_offset
  rw [List.take_length]

theorem getD_of_lt (hb : Fileblock) (dbs : List Fileblock) (k : Nat) (hk : k < dbs.length) :
    dbs.getD k hb = dbs[k] := by
  simp [List.getD_eq_getElem?_getD, List.getElem?_eq_getElem hk]

/-- A call of `next` with the file at the start of data block `k` of a valid file. -/
theorem parse_osm_data_block (ext : Ext) (hb : Fileblock) (dbs : List Fileblock)
    (hdbs : ∀ b ∈ dbs, well_formed_data ext b) (p : Parser) (k : Nat) (hk : k < dbs.length)
    (hc : p.input.content = file_bytes (hb :: dbs)) (hp : p.input.pos = block_offset hb dbs k) :
    parse_osm_data ext p =
      (.ok true, { p with input := ⟨p.input.content, block_offset hb dbs (k + 1), p.input.eof⟩,
                          data := some (block_data ext (dbs.getD k hb)), pos := p.pos + 1 }) := by
  have hwf := hdbs dbs[k] (List.getElem_mem hk)
  have h := parse_osm_data_at ext p (file_bytes (hb :: dbs.take k))
    (file_bytes (dbs.drop (k + 1))) dbs[k] (block_data ext dbs[k])
    (by rw [hc]; exact file_split_at hb dbs k hk) hp hwf (block_data_of_well_formed ext _ hwf)
  rw [h, getD_of_lt hb dbs k hk, block_offset_succ hb dbs k hk]
  rfl

/-- A call of `next` with the file at the end of a valid file. -/
theorem parse_osm_data_end (ext : Ext) (hb : Fileblock) (dbs : List Fileblock) (p : Parser)
    (hc : p.input.content = file_bytes (hb :: dbs))
    (hp : p.input.pos = block_offset hb dbs dbs.length) :
    parse_osm_data ext p =
      (.ok false, { p with input := ⟨p.input.content, p.input.pos, true⟩ }) := by
  apply parse_osm_data_eof
  rw [hp, block_offset_length, hc]

theorem descriptors_data_get (ext : Ext) (dbs : List Fileblock)
    (hdbs : ∀ b ∈ dbs, block_type ext b = some "OSMData") :
    ∀ (off k : Nat), k < dbs.length →
      ∃ d, (descriptors ext off dbs)[k]? = some d ∧
        d.header_pos = ((off + (file_bytes (dbs.take k)).length : Nat) : Int) + 4 := by
  induction dbs with
  | nil => intro off k hk; simp at hk
  | cons x rest ih =>
    intro off k hk
    rw [descriptors, if_pos (hdbs x (by simp))]
    cases k with
    | zero =>
      exact ⟨⟨off + 4, x.header_bytes.length, off + 4 + x.header_bytes.length, x.payload.length⟩,
        by simp, by simp [file_bytes]⟩
    | succ k =>
      obtain ⟨d, hd1, hd2⟩ := ih (fun b hb => hdbs b (by simp [hb]))
        (off + (fileblock_bytes x).length) k (by simpa using hk)
      refine ⟨d, by simpa using hd1, ?_⟩
      rw [hd2]
      simp only [List.take_succ_cons, file_bytes, List.length_append]
      push_cast; ring

theorem descriptors_valid_length (ext : Ext) (hb : Fileblock) (dbs : List Fileblock)
    (hty : block_type ext hb = some "OSMHeader")
    (hdbs : ∀ b ∈ dbs, block_type ext b = some "OSMData") :
    (descriptors ext 0 (hb :: dbs)).length = dbs.length := by
  rw [descriptors_length, List.filter_cons]
  have h1 : ¬ (decide (block_type ext hb = some "OSMData") = true) := by
    rw [hty]; decide
  rw [if_neg h1]
  rw [List.filter_eq_self.mpr (fun b hbm => by simp [hdbs b hbm])]

theorem descriptors_valid_get (ext : Ext) (hb : Fileblock) (dbs : List Fileblock)
    (hty : block_type ext hb = some "OSMHeader")
    (hdbs : ∀ b ∈ dbs, block_type ext b = some "OSMData") (k : Nat) (hk : k < dbs.length) :
    ∃ d, (descriptors ext 0 (hb :: dbs))[k]? = some d ∧
      d.header_pos = (block_offset hb dbs k : Int) + 4 := by
  have h1 : ¬ (block_type ext hb = some "OSMData") := by rw [hty]; decide
  obtain ⟨d, hd1, hd2⟩ := descriptors_data_get ext dbs hdbs (0 + (fileblock_bytes hb).length) k hk
  refine ⟨d, ?_, ?_⟩
  · rw [descriptors, if_neg h1]; simpa using hd1
  · rw [hd2]
    simp only [block_offset, file_bytes, List.length_append]
    push_cast; ring
theorem rb_ary_entry_resolved (ary : List BlobInfo) (idx : Int) (k : Nat) (hk : k < ary.length)
    (hidx : idx = k ∨ idx = (k : Int) - ary.length) : rb_ary_entry ary idx = ary[k]? := by
  unfold rb_ary_entry
  simp only
  rcases hidx with h | h
  · have h1 : ¬ idx < 0 := by omega
    rw [if_neg h1]
    have h2 : ¬ (idx < 0 ∨ (ary.length : Int) ≤ idx) := by omega
    rw [if_neg h2, h]
    rfl
  · have h1 : idx < 0 := by omega
    rw [if_pos h1]
    have h2 : ¬ (idx + ary.length < 0 ∨ (ary.length : Int) ≤ idx + ary.length) := by omega
    rw [if_neg h2]
    congr 1
    omega

/-- A `seek` that finds the descriptor of data block `k` of a valid file. -/
theorem seek_to_block (ext : Ext) (hb : Fileblock) (dbs : List Fileblock)
    (hty : block_type ext hb = some "OSMHeader") (hdbs : ∀ b ∈ dbs, well_formed_data ext b)
    (p : Parser) (hc : p.input.content = file_bytes (hb :: dbs))
    (hbl : p.blobs = descriptors ext 0 (hb :: dbs)) (idx : Int) (hr1 : -2147483648 ≤ idx)
    (hr2 : idx ≤ 2147483647) (hpos : p.pos ≠ idx) (k : Nat) (hk : k < dbs.length)
    (hidx : idx = k ∨ idx = (k : Int) - dbs.length) :
    seek_to_osm_data ext p idx =
      (.ok true, { p with input := ⟨p.input.content, block_offset hb dbs (k + 1), false⟩,
                          data := some (block_data ext (dbs.getD k hb)), pos := idx }) := by
  have hty2 : ∀ b ∈ dbs, block_type ext b = some "OSMData" := fun b hbm => (hdbs b hbm).2.1
  have hlen : p.blobs.length = dbs.length := by
    rw [hbl]; exact descriptors_valid_length ext hb dbs hty hty2
  obtain ⟨d, hd1, hd2⟩ := descriptors_valid_get ext hb dbs hty hty2 k hk
  have hentry : rb_ary_entry p.blobs idx = some d := by
    rw [rb_ary_entry_resolved p.blobs idx k (by omega) (by rw [hlen]; exact hidx), hbl]
    exact hd1
  have hseek : fseek_set p.input (d.header_pos - 4) =
      some ⟨p.input.content, block_offset hb dbs k, false⟩ := by
    unfold fseek_set
    rw [hd2, if_neg (by omega)]
    congr 2
    omega
  have hparse := parse_osm_data_block ext hb dbs hdbs
    { p with input := ⟨p.input.content, block_offset hb dbs k, false⟩, pos := idx - 1 }
    k hk hc rfl
  unfold seek_to_osm_data
  rw [if_neg (by omega)]
  simp only [hpos, ↓reduceIte, hentry, hseek, hparse, sub_add_cancel]

theorem holds_block_unique (ext : Ext) (hb : Fileblock) (dbs : List Fileblock) (p : Parser)
    (k : Nat) (h : holds_block ext hb dbs p k) (b : Nat) (hpos : p.pos = b) : k = b := by
  obtain ⟨hk, hp, -, -⟩ := h
  omega

theorem valid_state_next (ext : Ext) (hb : Fileblock) (dbs : List Fileblock)
    (hdbs : ∀ b ∈ dbs, well_formed_data ext b) (p : Parser)
    (h : valid_state ext hb dbs p) : valid_state ext hb dbs (parse_osm_data ext p).2 := by
  obtain ⟨hc, hbl, hst⟩ := h
  have hfr := parse_osm_data_frame ext p
  refine ⟨hfr.1.trans hc, hfr.2.trans hbl, ?_⟩
  rcases hst with h0 | ⟨k, hk, hpos, hdata, hfp⟩
  · exact Or.inl h0
  · right
    by_cases hlast : k + 1 < dbs.length
    · rw [parse_osm_data_block ext hb dbs hdbs p (k + 1) hlast hc hfp]
      exact ⟨k + 1, hlast, by simp only; push_cast; omega, rfl, rfl⟩
    · have hkn : k + 1 = dbs.length := by omega
      rw [parse_osm_data_end ext hb dbs p hc (by rw [hfp, hkn])]
      exact ⟨k, hk, hpos, hdata, hfp⟩

theorem valid_state_seek (ext : Ext) (hb : Fileblock) (dbs : List Fileblock)
    (hty : block_type ext hb = some "OSMHeader") (hdbs : ∀ b ∈ dbs, well_formed_data ext b)
    (p : Parser) (idx : Int) (h : valid_state ext hb dbs p) :
    valid_state ext hb dbs (seek_to_osm_data ext p idx).2 := by
  obtain ⟨hc, hbl, hst⟩ := h
  have hfr := seek_to_osm_data_frame ext p idx
  refine ⟨hfr.1.trans hc, hfr.2.trans hbl, ?_⟩
  rcases hst with h0 | ⟨k, hk, hpos, hdata, hfp⟩
  · exact Or.inl h0
  · right
    have hty2 : ∀ b ∈ dbs, block_type ext b = some "OSMData" := fun b hbm => (hdbs b hbm).2.1
    have hlen : p.blobs.length = dbs.length := by
      rw [hbl]; exact descriptors_valid_length ext hb dbs hty hty2
    by_cases hrange : idx < -2147483648 ∨ 2147483647 < idx
    · have : seek_to_osm_data ext p idx =
          (.error (.range "integer too big to convert to `int'"), p) := by
        unfold seek_to_osm_data; rw [if_pos hrange]
      rw [this]; exact ⟨k, hk, hpos, hdata, hfp⟩
    · by_cases hsame : p.pos = idx
      · rw [seek_to_osm_data_same ext p idx (by omega) (by omega) hsame]
        exact ⟨k, hk, hpos, hdata, hfp⟩
      · by_cases hin : (0 ≤ idx ∧ idx < dbs.length) ∨ (-(dbs.length : Int) ≤ idx ∧ idx < 0)
        · obtain ⟨j, hj, hidx⟩ : ∃ j : Nat, j < dbs.length ∧
              (idx = j ∨ idx = (j : Int) - dbs.length) := by
            rcases hin with hin | hin
            · exact ⟨idx.toNat, by omega, Or.inl (by omega)⟩
            · exact ⟨(idx + dbs.length).toNat, by omega, Or.inr (by omega)⟩
          rw [seek_to_block ext hb dbs hty hdbs p hc hbl idx (by omega) (by omega) hsame j hj hidx]
          exact ⟨j, hj, hidx, rfl, rfl⟩
        · rw [seek_to_osm_data_absent ext p idx hsame (by simp only [size_getter]; omega)]
          exact ⟨k, hk, hpos, hdata, hfp⟩
theorem read_blob_ok (ext : Ext) (f f2 : CFile) (length : Nat) (bytes : List Nat)
    (h : read_blob ext f length = (.ok bytes, f2)) :
    f2 = ⟨f.content, f.pos + length, f.eof⟩ := by
  unfold read_blob at h
  split_ifs at h
  · simp only [Prod.mk.injEq] at h; exact absurd h.1 (by simp)
  · rcases hr : fread f length with ⟨_ | buf, f1⟩
    · rw [hr] at h; simp only [Prod.mk.injEq] at h; exact absurd h.1 (by simp)
    · rw [hr] at h
      obtain ⟨-, -, -, hf1⟩ := fread_some _ _ _ _ hr
      simp only at h
      split at h
      · simp only [Prod.mk.injEq] at h; exact absurd h.1 (by simp)
      · simp only [Prod.mk.injEq] at h
        rw [← h.2, hf1]

theorem parse_osm_header_valid (ext : Ext) (hb : Fileblock) (dbs : List Fileblock)
    (hhb : well_formed ext hb) (hty : block_type ext hb = some "OSMHeader") (p1 : Parser)
    (h : parse_osm_header ext (Parser.opened (file_bytes (hb :: dbs))) = (.ok (), p1)) :
    p1.input.content = file_bytes (hb :: dbs) ∧ p1.input.pos = block_offset hb dbs 0 ∧
      p1.pos = -1 := by
  obtain ⟨h1, h2, h3, hdr, hu, hsz⟩ := hhb
  have hrh := read_blob_header_at ext (Parser.opened (file_bytes (hb :: dbs))).input []
    (file_bytes dbs) hb hdr (by simp [Parser.opened, file_bytes]) rfl h1 h2 hu
  have htype : hdr.type = "OSMHeader" := by simpa [block_type, hu] using hty
  unfold parse_osm_header at h
  rw [hrh] at h
  simp only [htype, ne_eq, not_true_eq_false, ↓reduceIte] at h
  rcases hrb : read_blob ext
    ⟨(Parser.opened (file_bytes (hb :: dbs))).input.content, [].length + 4 + hb.header_bytes.length,
      (Parser.opened (file_bytes (hb :: dbs))).input.eof⟩ (to_u64 hdr.datasize).toNat with ⟨r, f2⟩
  rw [hrb] at h
  rcases r with e | bytes
  · simp only [Prod.mk.injEq] at h; exact absurd h.1 (by simp)
  · have hf2 := read_blob_ok ext _ _ _ _ hrb
    simp only at h
    split at h
    · simp only [Prod.mk.injEq] at h; exact absurd h.1 (by simp)
    · simp only [Prod.mk.injEq, true_and] at h
      have hlen : (to_u64 hdr.datasize).toNat = hb.payload.length := by
        rw [hsz]; unfold to_u64; omega
      rw [← h, hf2]
      refine ⟨rfl, ?_, rfl⟩
      simp only [List.length_nil, hlen, block_offset, List.take_zero, file_bytes,
        List.append_nil, fileblock_bytes_length]

/-- The state after a successful open of a valid file. -/
theorem initialize_obj_state (ext : Ext) (hb : Fileblock) (dbs : List Fileblock)
    (hhb : well_formed ext hb) (hty : block_type ext hb = some "OSMHeader")
    (hdbs : ∀ b ∈ dbs, well_formed_data ext b) (p : Parser)
    (h : initialize_obj ext (file_bytes (hb :: dbs)) = (.ok (), p)) :
    valid_state ext hb dbs p ∧ (0 < dbs.length → holds_block ext hb dbs p 0 ∧ p.pos = 0) := by
  have hwf : ∀ b ∈ hb :: dbs, well_formed ext b := by
    intro b hbm
    rcases List.mem_cons.mp hbm with rfl | hbm
    · exact hhb
    · exact (hdbs b hbm).1
  obtain ⟨hc, hbl⟩ := initialize_obj_inv ext (hb :: dbs) hwf p h
  have key : 0 < dbs.length → holds_block ext hb dbs p 0 ∧ p.pos = 0 := by
    intro hn
    unfold initialize_obj at h
    simp only at h
    rcases h1 : parse_osm_header ext (Parser.opened (file_bytes (hb :: dbs))) with ⟨r1, p1⟩
    rw [h1] at h
    rcases r1 with e | u
    · simp only [Prod.mk.injEq] at h; exact absurd h.1 (by simp)
    · obtain ⟨c1, c2, c3⟩ := parse_osm_header_valid ext hb dbs hhb hty p1 h1
      simp only at h
      rw [parse_osm_data_block ext hb dbs hdbs p1 0 hn c1 c2] at h
      simp only at h
      rw [find_all_blobs_valid ext (hb :: dbs) hwf
        { p1 with input := ⟨p1.input.content, block_offset hb dbs (0 + 1), p1.input.eof⟩,
                  data := some (block_data ext (dbs.getD 0 hb)), pos := p1.pos + 1 } c1] at h
      simp only [Prod.mk.injEq, true_and] at h
      rw [← h]
      exact ⟨⟨hn, Or.inl (by simp [c3]), rfl, rfl⟩, by simp [c3]⟩
  refine ⟨⟨hc, hbl, ?_⟩, key⟩
  rcases Nat.eq_zero_or_pos dbs.length with h0 | hpos
  · exact Or.inl (List.length_eq_zero.mp h0)
  · exact Or.inr ⟨0, (key hpos).1⟩

theorem reachable_valid_state (ext : Ext) (hb : Fileblock) (dbs : List Fileblock)
    (hhb : well_formed ext hb) (hty : block_type ext hb = some "OSMHeader")
    (hdbs : ∀ b ∈ dbs, well_formed_data ext b) (p : Parser)
    (h : Reachable ext (file_bytes (hb :: dbs)) p) :
    valid_state ext hb dbs p ∧ (initialize_obj ext (file_bytes (hb :: dbs))).1 = .ok () := by
  induction h with
  | opened p h => exact ⟨(initialize_obj_state ext hb dbs hhb hty hdbs p h).1, by rw [h]⟩
  | next p p1 r _ h ih =>
    have := valid_state_next ext hb dbs hdbs p ih.1
    rw [h] at this
    exact ⟨this, ih.2⟩
  | seek p p1 index r _ h ih =>
    have := valid_state_seek ext hb dbs hty hdbs p index ih.1
    rw [h] at this
    exact ⟨this, ih.2⟩
theorem advance_n_holds (ext : Ext) (hb : Fileblock) (dbs : List Fileblock)
    (hdbs : ∀ b ∈ dbs, well_formed_data ext b) :
    ∀ (j k : Nat) (p : Parser), p.input.content = file_bytes (hb :: dbs) →
      holds_block ext hb dbs p k → p.pos = k → k + j < dbs.length →
      holds_block ext hb dbs (advance_n ext j p) (k + j) ∧ (advance_n ext j p).pos = (k + j : Nat) := by
  intro j
  induction j with
  | zero => intro k p _ h hpos _; exact ⟨h, hpos⟩
  | succ j ih =>
    intro k p hc h hpos hlt
    obtain ⟨hk, -, -, hfp⟩ := h
    have hstep := parse_osm_data_block ext hb dbs hdbs p (k + 1) (by omega) hc hfp
    have := ih (k + 1) (parse_osm_data ext p).2 (by rw [hstep]; exact hc)
      (by rw [hstep]; exact ⟨by omega, Or.inl (by simp only; push_cast; omega), rfl, rfl⟩)
      (by rw [hstep]; simp only; push_cast; omega) (by omega)
    rw [advance_n]
    have e : k + 1 + j = k + (j + 1) := by omega
    rw [e] at this
    exact this

theorem advance_n_file_pos (ext : Ext) (hb : Fileblock) (dbs : List Fileblock)
    (hdbs : ∀ b ∈ dbs, well_formed_data ext b) :
    ∀ (j k : Nat) (p : Parser), p.input.content = file_bytes (hb :: dbs) →
      p.input.pos = block_offset hb dbs k → k + j ≤ dbs.length →
      (advance_n ext j p).input.pos = block_offset hb dbs (k + j) := by
  intro j
  induction j with
  | zero => intro k p _ h _; exact h
  | succ j ih =>
    intro k p hc hfp hle
    have hstep := parse_osm_data_block ext hb dbs hdbs p k (by omega) hc hfp
    have := ih (k + 1) (parse_osm_data ext p).2 (by rw [hstep]; exact hc)
      (by rw [hstep]) (by omega)
    rw [advance_n]
    have e : k + 1 + j = k + (j + 1) := by omega
    rw [e] at this
    exact this

/-- C11. On a valid file, `seek(b)` with `b < size` from any reachable parser state
returns true and exposes the records of data block `b`, which are also the records
exposed by open followed by `b` calls of `next`.  The descriptor of block `b` records
`header_pos` 4 bytes after the start of the fileblock, and that start is where the
sequential reader (the header read followed by `b` calls of `next`) stands. -/
theorem seek_matches_sequential (ext : Ext) (hb : Fileblock) (dbs : List Fileblock)
    (hhb : well_formed ext hb) (hty : block_type ext hb = some "OSMHeader")
    (hdbs : ∀ b ∈ dbs, well_formed_data ext b) (p : Parser)
    (hr : Reachable ext (file_bytes (hb :: dbs)) p) (b : Nat) (hb1 : b < size_getter p)
    (hb2 : b ≤ 2147483647) :
    ∃ (blk : Fileblock) (data : Data) (d : BlobInfo),
      dbs[b]? = some blk ∧ decode_payload ext blk.payload = .ok data ∧
      (seek_to_osm_data ext p b).1 = .ok true ∧
      (seek_to_osm_data ext p b).2.data = some data ∧
      (seek_to_osm_data ext p b).2.pos = b ∧
      (advance_n ext b (initialize_obj ext (file_bytes (hb :: dbs))).2).data = some data ∧
      (advance_n ext b (initialize_obj ext (file_bytes (hb :: dbs))).2).pos = b ∧
      p.blobs[b]? = some d ∧
      d.header_pos - 4 =
        (advance_n ext b
          (parse_osm_header ext (Parser.opened (file_bytes (hb :: dbs)))).2).input.pos := by
  obtain ⟨⟨hc, hbl, hst⟩, hopen⟩ := reachable_valid_state ext hb dbs hhb hty hdbs p hr
  have hty2 : ∀ x ∈ dbs, block_type ext x = some "OSMData" := fun x hx => (hdbs x hx).2.1
  have hlen : p.blobs.length = dbs.length := by
    rw [hbl]; exact descriptors_valid_length ext hb dbs hty hty2
  have hbn : b < dbs.length := by simp only [size_getter] at hb1; omega
  have hblk : dbs[b]? = some dbs[b] := List.getElem?_eq_getElem hbn
  have hwfb := hdbs dbs[b] (List.getElem_mem hbn)
  obtain ⟨d, hd1, hd2⟩ := descriptors_valid_get ext hb dbs hty hty2 b hbn
  rw [← hbl] at hd1
  have hp0 : initialize_obj ext (file_bytes (hb :: dbs)) =
      (.ok (), (initialize_obj ext (file_bytes (hb :: dbs))).2) := by
    rw [← hopen]
  obtain ⟨⟨hc0, -, -⟩, h0⟩ := initialize_obj_state ext hb dbs hhb hty hdbs _ hp0
  obtain ⟨hh0, hpos0⟩ := h0 (by omega)
  obtain ⟨hseq1, hseq2⟩ := advance_n_holds ext hb dbs hdbs b 0 _ hc0 hh0 (by simp [hpos0])
    (by omega)
  simp only [Nat.zero_add] at hseq1 hseq2
  rcases hh : parse_osm_header ext (Parser.opened (file_bytes (hb :: dbs))) with ⟨r1, p1⟩
  have hr1 : r1 = .ok () := by
    have h := hp0
    unfold initialize_obj at h
    simp only at h
    rw [hh] at h
    rcases r1 with e | u
    · simp only [Prod.mk.injEq] at h; exact absurd h.1 (by simp)
    · rfl
  subst hr1
  obtain ⟨c1, c2, -⟩ := parse_osm_header_valid ext hb dbs hhb hty p1 hh
  have hfile := advance_n_file_pos ext hb dbs hdbs b 0 p1 c1 c2 (by omega)
  simp only [Nat.zero_add] at hfile
  have hdata : (seek_to_osm_data ext p b).1 = .ok true ∧
      (seek_to_osm_data ext p b).2.data = some (block_data ext dbs[b]) ∧
      (seek_to_osm_data ext p b).2.pos = b := by
    by_cases hsame : p.pos = b
    · rw [seek_to_osm_data_same ext p b (by omega) (by omega) hsame]
      refine ⟨rfl, ?_, hsame⟩
      rcases hst with h0 | ⟨k, hk⟩
      · rw [h0] at hbn; simp at hbn
      · have hkb := holds_block_unique ext hb dbs p k hk b hsame
        subst hkb
        rw [hk.2.2.1, getD_of_lt hb dbs k hbn]
    · rw [seek_to_block ext hb dbs hty hdbs p hc hbl b (by omega) (by omega) hsame b hbn
        (Or.inl rfl)]
      exact ⟨rfl, by simp only; rw [getD_of_lt hb dbs b hbn], rfl⟩
  refine ⟨dbs[b], block_data ext dbs[b], d, hblk, block_data_of_well_formed ext _ hwfb,
    hdata.1, hdata.2.1, hdata.2.2, ?_, hseq2, hd1, ?_⟩
  · rw [hseq1.2.2.1, getD_of_lt hb dbs b hbn]
  · rw [hd2, hfile]; omega

/-- Witness for C11: `seek(1)` on the example file, right after it is opened. -/
theorem seek_matches_sequential_witness :
    ∃ (blk : Fileblock) (data : Data) (d : BlobInfo),
      [({ header_bytes := [2], payload := [7] } : Fileblock),
        { header_bytes := [2], payload := [8] }][1]? = some blk ∧
      decode_payload example_ext blk.payload = .ok data ∧
      (seek_to_osm_data example_ext (initialize_obj example_ext example_file).2 (1 : Nat)).1
        = .ok true ∧
      (seek_to_osm_data example_ext (initialize_obj example_ext example_file).2 (1 : Nat)).2.data
        = some data ∧
      (seek_to_osm_data example_ext (initialize_obj example_ext example_file).2 (1 : Nat)).2.pos
        = (1 : Nat) ∧
      (advance_n example_ext 1 (initialize_obj example_ext example_file).2).data = some data ∧
      (advance_n example_ext 1 (initialize_obj example_ext example_file).2).pos = (1 : Nat) ∧
      (initialize_obj example_ext example_file).2.blobs[1]? = some d ∧
      d.header_pos - 4 =
        (advance_n example_ext 1
          (parse_osm_header example_ext (Parser.opened example_file)).2).input.pos :=
  seek_matches_sequential example_ext { header_bytes := [1], payload := [9] }
    [{ header_bytes := [2], payload := [7] }, { header_bytes := [2], payload := [8] }]
    ⟨by decide, by decide, by decide, ⟨_, rfl, rfl⟩⟩ rfl example_file_well_formed_data
    (initialize_obj example_ext example_file).2
    (Reachable.opened _ (by decide)) 1 (by decide) (by decide)

theorem iterate_loop_valid (ext : Ext) (hb : Fileblock) (dbs : List Fileblock)
    (hdbs : ∀ b ∈ dbs, well_formed_data ext b) :
    ∀ (m k fuel : Nat) (p : Parser) (ys : List Yielded), k + m + 1 = dbs.length →
      p.input.content = file_bytes (hb :: dbs) → holds_block ext hb dbs p k → p.pos = k →
      m < fuel →
      ∃ p1, iterate_loop ext fuel p ys =
          (.ok (), p1, ys ++ (dbs.drop k).map (fun b =>
            ((block_data ext b).nodes, (block_data ext b).ways, (block_data ext b).relations))) ∧
        p1.pos = (k + m : Nat) := by
  intro m
  induction m with
  | zero =>
    intro k fuel p ys hkm hc h hpos hfuel
    obtain ⟨f, rfl⟩ : ∃ f, fuel = f + 1 := ⟨fuel - 1, by omega⟩
    obtain ⟨hk, -, hdata, hfp⟩ := h
    have hend := parse_osm_data_end ext hb dbs p hc (by rw [hfp, show k + 1 = dbs.length by omega])
    have hdrop : dbs.drop k = [dbs[k]] := by
      rw [List.drop_eq_getElem_cons hk, List.drop_of_length_le (by omega)]
    refine ⟨{ p with input := ⟨p.input.content, p.input.pos, true⟩ }, ?_, ?_⟩
    · rw [iterate_loop, hdata]
      simp only [hend, hdrop, List.map_cons, List.map_nil, getD_of_lt hb dbs k hk]
      rw [hdata, getD_of_lt hb dbs k hk]
    · simpa using hpos
  | succ m ih =>
    intro k fuel p ys hkm hc h hpos hfuel
    obtain ⟨f, rfl⟩ : ∃ f, fuel = f + 1 := ⟨fuel - 1, by omega⟩
    obtain ⟨hk, -, hdata, hfp⟩ := h
    have hstep := parse_osm_data_block ext hb dbs hdbs p (k + 1) (by omega) hc hfp
    have hdrop : dbs.drop k = dbs[k] :: dbs.drop (k + 1) := List.drop_eq_getElem_cons hk
    obtain ⟨p1, hp1, hp1pos⟩ := ih (k + 1) f
      { p with input := ⟨p.input.content, block_offset hb dbs (k + 1 + 1), p.input.eof⟩,
               data := some (block_data ext (dbs.getD (k + 1) hb)), pos := p.pos + 1 }
      (ys ++ [((block_data ext dbs[k]).nodes, (block_data ext dbs[k]).ways,
        (block_data ext dbs[k]).relations)])
      (by omega) hc ⟨by omega, Or.inl (by simp only; push_cast; omega), rfl, rfl⟩
      (by simp only; push_cast; omega) (by omega)
    refine ⟨p1, ?_, by rw [hp1pos]; congr 1; omega⟩
    rw [iterate_loop, hdata]
    simp only [hstep, getD_of_lt hb dbs k hk]
    rw [hp1, hdrop]
    simp only [List.map_cons, List.append_assoc, List.singleton_append]

/-- C13. On a freshly opened parser over a valid file with `n >= 1` data blocks,
`iterate` (`each`) returns after yielding exactly `n` tuples, the `k`-th being the
`(nodes, ways, relations)` of the records of data block `k` in file order, and leaves
`pos == n - 1`.  The records of a data block are those of the primitive block that its
Blob unpacks to: group after group, the decoded row-wise nodes followed by the decoded
dense nodes, the decoded ways, and the decoded relations, each record holding the id,
the coordinate integers, the running sums of `refs`, the members, the tags and the
meta values of its entity. -/
theorem iterate_yields_all_blocks (ext : Ext) (hb : Fileblock) (dbs : List Fileblock)
    (hhb : well_formed ext hb) (hty : block_type ext hb = some "OSMHeader")
    (hdbs : ∀ b ∈ dbs, well_formed_data ext b) (hn : 1 ≤ dbs.length) (p : Parser)
    (hopen : initialize_obj ext (file_bytes (hb :: dbs)) = (.ok (), p)) :
    ∃ (p1 : Parser) (yielded : List Yielded),
      iterate ext p = (.ok (), p1, yielded) ∧ yielded.length = dbs.length ∧
      (∀ (k : Nat) (blk : Fileblock), dbs[k]? = some blk →
        ∃ data, decode_payload ext blk.payload = .ok data ∧
          payload_records ext blk.payload data ∧
          yielded[k]? = some (data.nodes, data.ways, data.relations)) ∧
      p1.pos = (dbs.length : Int) - 1 := by
  obtain ⟨⟨hc, -, -⟩, h0⟩ := initialize_obj_state ext hb dbs hhb hty hdbs p hopen
  obtain ⟨hh0, hpos0⟩ := h0 (by omega)
  have hfuel : dbs.length - 1 < p.input.content.length + 1 := by
    have := file_bytes_length_ge (hb :: dbs)
    rw [← hc] at this
    simp only [List.length_cons] at this
    omega
  obtain ⟨p1, hp1, hp1pos⟩ := iterate_loop_valid ext hb dbs hdbs (dbs.length - 1) 0
    (p.input.content.length + 1) p [] (by omega) hc hh0 (by simp [hpos0]) hfuel
  simp only [List.drop_zero, List.nil_append] at hp1
  refine ⟨p1, _, hp1, by simp, ?_, by rw [hp1pos]; omega⟩
  intro k blk hblk
  have hmem : blk ∈ dbs := List.getElem?_mem hblk
  obtain ⟨data, hdec⟩ := (hdbs blk hmem).2.2.2.2
  refine ⟨data, hdec, decode_payload_records ext blk.payload data hdec, ?_⟩
  rw [List.getElem?_map, hblk]
  have hbd := block_data_of_well_formed ext blk (hdbs blk hmem)
  rw [hdec] at hbd
  simp only [Except.ok.injEq] at hbd
  simp only [Option.map_some', hbd]

/-- Witness for C13: iterating the example file yields its two data blocks, the dense
node 7 and then the dense node 8. -/
theorem iterate_yields_all_blocks_witness :
    (∃ (p1 : Parser) (yielded : List Yielded),
      iterate example_ext (initialize_obj example_ext example_file).2 = (.ok (), p1, yielded) ∧
      yielded.length = 2 ∧
      (∀ (k : Nat) (blk : Fileblock),
        [({ header_bytes := [2], payload := [7] } : Fileblock),
          { header_bytes := [2], payload := [8] }][k]? = some blk →
        ∃ data, decode_payload example_ext blk.payload = .ok data ∧
          payload_records example_ext blk.payload data ∧
          yielded[k]? = some (data.nodes, data.ways, data.relations)) ∧
      p1.pos = ((2 : Nat) : Int) - 1) ∧
    (iterate example_ext (initialize_obj example_ext example_file).2).2.2 =
      [([{ id := 7, lat_nano := 0, lon_nano := 0, meta := none, tags := [] }], [], []),
       ([{ id := 8, lat_nano := 0, lon_nano := 0, meta := none, tags := [] }], [], [])] :=
  ⟨iterate_yields_all_blocks example_ext { header_bytes := [1], payload := [9] }
    [{ header_bytes := [2], payload := [7] }, { header_bytes := [2], payload := [8] }]
    ⟨by decide, by decide, by decide, ⟨_, rfl, rfl⟩⟩ rfl example_file_well_formed_data
    (by decide) (initialize_obj example_ext example_file).2 (by decide), by decide⟩

/-! ## Framing: length bounds, end of file and truncation, blob formats -/

theorem fread_consistent (f : CFile) (size : Nat) (h : f.consistent) :
    (fread f size).2.consistent := by
  unfold fread
  split_ifs
  · exact h
  · intro he
    have := h he
    simp only at this ⊢
    omega
  · intro _
    simp only
    omega

theorem fseek_set_consistent (f f1 : CFile) (offset : Int) (h : fseek_set f offset = some f1) :
    f1.consistent := by
  unfold fseek_set at h
  split_ifs at h
  simp only [Option.some.injEq] at h
  rw [← h]
  intro he
  exact absurd he (by simp)

theorem fseek_cur_consistent (f f1 : CFile) (offset : Int) (h : fseek_cur f offset = some f1) :
    f1.consistent := by
  unfold fseek_cur at h
  split_ifs at h
  simp only [Option.some.injEq] at h
  rw [← h]
  intro he
  exact absurd he (by simp)

theorem fread_four (f : CFile) (h : f.pos + 4 ≤ f.content.length) :
    fread f 4 = (some ((f.content.drop f.pos).take 4), ⟨f.content, f.pos + 4, f.eof⟩) := by
  unfold fread
  rw [if_neg (by decide), if_pos h]

/-- C14. With four bytes read as the big-endian length `L`, `read_blob_header` fails with
"Invalid blob header size", having consumed only these four bytes, when `L` is 0 or
above 65536, and does not fail with that error when `1 <= L <= 65536`; `read_blob` fails
with "Invalid blob size", the file untouched, when the declared `datasize` `D` (an
`int32`) is below 1 or above 33554432, and does not fail with that error when
`1 <= D <= 33554432`. -/
theorem length_bounds (ext : Ext) :
    (∀ f : CFile, f.consistent → f.pos + 4 ≤ f.content.length →
      ((ntohl ((f.content.drop f.pos).take 4) < 1 ∨
          65536 < ntohl ((f.content.drop f.pos).take 4)) →
        read_blob_header ext f =
          (.error (.io "Invalid blob header size"), ⟨f.content, f.pos + 4, f.eof⟩)) ∧
      ((1 ≤ ntohl ((f.content.drop f.pos).take 4) ∧
          ntohl ((f.content.drop f.pos).take 4) ≤ 65536) →
        (read_blob_header ext f).1 ≠ .error (.io "Invalid blob header size"))) ∧
    (∀ (f : CFile) (D : Int), -2147483648 ≤ D → D ≤ 2147483647 →
      ((D < 1 ∨ 33554432 < D) →
        read_blob ext f (to_u64 D).toNat = (.error (.io "Invalid blob size"), f)) ∧
      ((1 ≤ D ∧ D ≤ 33554432) →
        (read_blob ext f (to_u64 D).toNat).1 ≠ .error (.io "Invalid blob size"))) := by
  constructor
  · intro f hcons h4
    have hfr := fread_four f h4
    have heof : f.eof = false := by
      cases he : f.eof with
      | false => rfl
      | true => have := hcons he; omega
    constructor
    · intro hL
      have hcond : ntohl ((f.content.drop f.pos).take 4) < 1 ∨
          ntohl ((f.content.drop f.pos).take 4) > MAX_BLOB_HEADER_SIZE := by
        unfold MAX_BLOB_HEADER_SIZE; omega
      simp only [read_blob_header, get_header_size, hfr, hcond, ↓reduceIte, feof, heof,
        Bool.false_eq_true]
    · intro hL
      have hcond : ¬ (ntohl ((f.content.drop f.pos).take 4) < 1 ∨
          ntohl ((f.content.drop f.pos).take 4) > MAX_BLOB_HEADER_SIZE) := by
        unfold MAX_BLOB_HEADER_SIZE; omega
      simp only [read_blob_header, get_header_size, hfr, hcond, ↓reduceIte]
      rcases fread ⟨f.content, f.pos + 4, f.eof⟩ (ntohl ((f.content.drop f.pos).take 4)) with
        ⟨_ | buffer, f1⟩
      · simp
      · simp only
        rcases ext.blob_header__unpack buffer with _ | header <;> simp
  · intro f D h1 h2
    constructor
    · intro hD
      have hcond : (to_u64 D).toNat < 1 ∨ (to_u64 D).toNat > MAX_BLOB_SIZE := by
        unfold to_u64 MAX_BLOB_SIZE; omega
      simp only [read_blob, hcond, ↓reduceIte]
    · intro hD
      have hcond : ¬ ((to_u64 D).toNat < 1 ∨ (to_u64 D).toNat > MAX_BLOB_SIZE) := by
        unfold to_u64 MAX_BLOB_SIZE; omega
      simp only [read_blob, hcond, ↓reduceIte]
      rcases fread f (to_u64 D).toNat with ⟨_ | buffer, f1⟩
      · simp
      · simp only
        rcases ext.blob__unpack buffer with _ | blob
        · simp
        · simp only
          unfold blob_data
          rcases blob.raw with _ | raw
          · simp only
            rcases blob.zlib_data with _ | z
            · simp only
              rcases blob.lzma_data with _ | l <;> simp
            · simp only
              rcases ext.inflate z with _ | out
              · simp
              · simp only
                split_ifs <;> simp
          · simp

/-- Witness for C14: a length of 65537 is rejected after the four bytes are read, a
declared `datasize` of 33554433 is rejected before anything is read. -/
theorem length_bounds_witness :
    read_blob_header example_ext ⟨[0, 1, 0, 1, 5], 0, false⟩ =
        (.error (.io "Invalid blob header size"), ⟨[0, 1, 0, 1, 5], 0 + 4, false⟩) ∧
      read_blob example_ext ⟨[7], 0, false⟩ (to_u64 33554433).toNat =
        (.error (.io "Invalid blob size"), ⟨[7], 0, false⟩) :=
  ⟨((length_bounds example_ext).1 ⟨[0, 1, 0, 1, 5], 0, false⟩ (by intro h; exact absurd h (by decide))
      (by decide)).1 (by decide),
    ((length_bounds example_ext).2 ⟨[7], 0, false⟩ 33554433 (by decide) (by decide)).1 (by decide)⟩

theorem read_blob_header_partial_prefix (ext : Ext) (f : CFile)
    (h1 : f.pos < f.content.length) (h2 : f.content.length < f.pos + 4) :
    read_blob_header ext f = (.ok none, ⟨f.content, f.content.length, true⟩) := by
  have hfr : fread f 4 = (none, ⟨f.content, f.content.length, true⟩) := by
    unfold fread
    rw [if_neg (by decide), if_neg (by omega)]
    congr 2
    omega
  simp [read_blob_header, get_header_size, hfr, feof]

theorem read_blob_header_truncated (ext : Ext) (f : CFile)
    (h4 : f.pos + 4 ≤ f.content.length)
    (hL : 1 ≤ ntohl ((f.content.drop f.pos).take 4) ∧
      ntohl ((f.content.drop f.pos).take 4) ≤ 65536)
    (hshort : f.content.length < f.pos + 4 + ntohl ((f.content.drop f.pos).take 4)) :
    read_blob_header ext f =
      (.error (.io "Unable to read the blob header"), ⟨f.content, f.content.length, true⟩) := by
  have hcond : ¬ (ntohl ((f.content.drop f.pos).take 4) < 1 ∨
      ntohl ((f.content.drop f.pos).take 4) > MAX_BLOB_HEADER_SIZE) := by
    unfold MAX_BLOB_HEADER_SIZE; omega
  have hfr : fread ⟨f.content, f.pos + 4, f.eof⟩ (ntohl ((f.content.drop f.pos).take 4)) =
      (none, ⟨f.content, f.content.length, true⟩) := by
    unfold fread
    rw [if_neg (by omega), if_neg (by simp only; omega)]
    simp only [Prod.mk.injEq, CFile.mk.injEq, true_and, and_true]
    omega
  simp only [read_blob_header, get_header_size, fread_four f h4, hcond, ↓reduceIte, hfr]

theorem read_blob_truncated (ext : Ext) (f : CFile) (length : Nat)
    (hlen : 1 ≤ length ∧ length ≤ 33554432) (hshort : f.content.length < f.pos + length) :
    read_blob ext f length =
      (.error (.io "Unable to read the blob"), ⟨f.content, max f.pos f.content.length, true⟩) := by
  have hcond : ¬ (length < 1 ∨ length > MAX_BLOB_SIZE) := by
    unfold MAX_BLOB_SIZE; omega
  have hfr : fread f length = (none, ⟨f.content, max f.pos f.content.length, true⟩) := by
    unfold fread
    rw [if_neg (by omega), if_neg (by omega)]
  simp only [read_blob, hcond, ↓reduceIte, hfr]

/-- C15 (failing input). A header fileblock followed by two stray bytes: the two bytes
are a partial length prefix, yet `read_blob_header` there reports end of file (`NULL`,
no error), the file opens with an empty index, and `next` returns false; a file
cut inside a BlobHeader or inside a payload does raise an `IOError`. -/
theorem partial_length_prefix_reads_as_eof :
    read_blob_header example_ext ⟨file_bytes [⟨[1], [9]⟩] ++ [0, 0], 6, false⟩ =
        (.ok none, ⟨file_bytes [⟨[1], [9]⟩] ++ [0, 0], 8, true⟩) ∧
      (initialize_obj example_ext (file_bytes [⟨[1], [9]⟩] ++ [0, 0])).1 = .ok () ∧
      (initialize_obj example_ext (file_bytes [⟨[1], [9]⟩] ++ [0, 0])).2.blobs = [] ∧
      (parse_osm_data example_ext
        (initialize_obj example_ext (file_bytes [⟨[1], [9]⟩] ++ [0, 0])).2).1 = .ok false ∧
      (read_blob_header example_ext ⟨[0, 0, 0, 2, 1], 0, false⟩).1 =
        .error (.io "Unable to read the blob header") ∧
      (parse_osm_data example_ext ⟨⟨[0, 0, 0, 1, 2], 0, false⟩, none, none, [], -1⟩).1 =
        .error (.io "Unable to read the blob") := by
  decide

/-- C16. For a Blob read and unpacked within the size bound: with `raw` present the
payload returned is `raw` itself (so its length is `raw.len`); with only `lzma_data`
present the read raises `NotImplementedError` "LZMA compression is not supported";
with none of `raw`, `zlib_data`, `lzma_data` present it raises `NotImplementedError`
"Unknown blob format"; and a `NotImplementedError` is never an `IOError`. -/
theorem read_blob_formats (ext : Ext) (f f1 : CFile) (length : Nat) (buffer : List Nat)
    (blob : Blob) (hlen : 1 ≤ length ∧ length ≤ 33554432)
    (hread : fread f length = (some buffer, f1))
    (hunpack : ext.blob__unpack buffer = some blob) :
    (∀ raw, blob.raw = some raw → read_blob ext f length = (.ok raw, f1)) ∧
    (∀ lzma, blob.raw = none → blob.zlib_data = none → blob.lzma_data = some lzma →
      read_blob ext f length = (.error (.notimp "LZMA compression is not supported"), f1)) ∧
    (blob.raw = none → blob.zlib_data = none → blob.lzma_data = none →
      read_blob ext f length = (.error (.notimp "Unknown blob format"), f1)) ∧
    (∀ msg1 msg2, Err.notimp msg1 ≠ Err.io msg2) := by
  have hcond : ¬ (length < 1 ∨ length > MAX_BLOB_SIZE) := by
    unfold MAX_BLOB_SIZE; omega
  refine ⟨?_, ?_, ?_, ?_⟩
  · intro raw hraw
    simp only [read_blob, hcond, ↓reduceIte, hread, hunpack, blob_data, hraw]
  · intro lzma hraw hz hl
    simp only [read_blob, hcond, ↓reduceIte, hread, hunpack, blob_data, hraw, hz, hl]
  · intro hraw hz hl
    simp only [read_blob, hcond, ↓reduceIte, hread, hunpack, blob_data, hraw, hz, hl]
  · intro msg1 msg2 h
    cases h

/-- Witness for C16: with the example unpacker every Blob is raw, and the payload of
the one-byte blob `[9]` is `[9]`. -/
theorem read_blob_formats_witness :
    read_blob example_ext ⟨[9], 0, false⟩ 1 = (.ok [9], ⟨[9], 1, false⟩) :=
  (read_blob_formats example_ext ⟨[9], 0, false⟩ ⟨[9], 1, false⟩ 1 [9]
    ⟨some [9], 0, none, none⟩ (by decide) (by decide) rfl).1 [9] rfl

theorem blob_data_zlib (ext : Ext) (blob : Blob) (zdata out : List Nat)
    (hraw : blob.raw = none) (hz : blob.zlib_data = some zdata)
    (hinf : ext.inflate zdata = some out)
    (hsize : 0 ≤ blob.raw_size ∧ blob.raw_size ≤ 33554432) :
    (blob.raw_size < out.length → blob_data ext blob = .error (.runtime "Zlib compression failed")) ∧
    (blob.raw_size = out.length → blob_data ext blob = .ok out) ∧
    ((out.length : Int) < blob.raw_size →
      blob_data ext blob =
        .ok (out ++ (List.range (blob.raw_size.toNat - out.length)).map
          (fun k => ext.uninitialised (out.length + k)))) := by
  have h32 : (to_u32 blob.raw_size).toNat = blob.raw_size.toNat := by
    unfold to_u32; omega
  have h64 : (to_u64 blob.raw_size).toNat = blob.raw_size.toNat := by
    unfold to_u64; omega
  have hmin : ¬ (min out.length blob.raw_size.toNat > MAX_BLOB_SIZE) := by
    unfold MAX_BLOB_SIZE; omega
  have hmax : ¬ (blob.raw_size.toNat > MAX_BLOB_SIZE) := by
    unfold MAX_BLOB_SIZE; omega
  refine ⟨?_, ?_, ?_⟩
  · intro h
    have hle : ¬ (out.length ≤ blob.raw_size.toNat) := by omega
    simp only [blob_data, hraw, hz, hinf, h32, h64, hmin, hmax, hle, ↓reduceIte]
  · intro h
    have hle : out.length ≤ blob.raw_size.toNat := by omega
    have h0 : blob.raw_size.toNat - out.length = 0 := by omega
    simp only [blob_data, hraw, hz, hinf, h32, h64, hmin, hmax, hle, ↓reduceIte, h0,
      List.range_zero, List.map_nil, List.append_nil]
  · intro h
    have hle : out.length ≤ blob.raw_size.toNat := by omega
    simp only [blob_data, hraw, hz, hinf, h32, h64, hmin, hmax, hle, ↓reduceIte]

/-- C17 (failing input). A zlib blob that declares `raw_size = 4` while its stream
decompresses to the three bytes `[1, 2, 3]`: `read_blob` raises nothing and returns
a payload of four bytes, the last one being whatever the fresh buffer held (170 in
the example instance); a declared `raw_size = 2` raises the decompression error
and `raw_size = 3` returns the three bytes. -/
theorem zlib_raw_size_larger_is_accepted :
    read_blob example_zlib_ext ⟨[4, 1, 2, 3], 0, false⟩ 4 =
        (.ok [1, 2, 3, 170], ⟨[4, 1, 2, 3], 4, false⟩) ∧
      read_blob example_zlib_ext ⟨[2, 1, 2, 3], 0, false⟩ 4 =
        (.error (.runtime "Zlib compression failed"), ⟨[2, 1, 2, 3], 4, false⟩) ∧
      read_blob example_zlib_ext ⟨[3, 1, 2, 3], 0, false⟩ 4 =
        (.ok [1, 2, 3], ⟨[3, 1, 2, 3], 4, false⟩) := by
  decide

/-! ## Row-wise tags: the size of the tag hash -/

theorem rb_hash_aset_keys (tags : Tags) (k v : String) :
    (rb_hash_aset tags k v).map Prod.fst =
      if k ∈ tags.map Prod.fst then tags.map Prod.fst else tags.map Prod.fst ++ [k] := by
  induction tags with
  | nil => simp [rb_hash_aset]
  | cons kv rest ih =>
    obtain ⟨k0, v0⟩ := kv
    by_cases h : k0 = k
    · simp [rb_hash_aset, h]
    · have h1 : ¬ k = k0 := fun e => h e.symm
      simp only [rb_hash_aset, h, ↓reduceIte, List.map_cons, ih, List.mem_cons, h1, false_or]
      split_ifs <;> simp

theorem rb_hash_aset_nodup (tags : Tags) (k v : String) (h : (tags.map Prod.fst).Nodup) :
    ((rb_hash_aset tags k v).map Prod.fst).Nodup := by
  rw [rb_hash_aset_keys]
  split_ifs with hk
  · exact h
  · exact List.Nodup.append h (List.nodup_singleton k) (by
      intro x hx hx1
      simp only [List.mem_singleton] at hx1
      exact hk (hx1 ▸ hx))

theorem rb_hash_aset_mem (tags : Tags) (k v x : String) :
    x ∈ (rb_hash_aset tags k v).map Prod.fst ↔ x ∈ tags.map Prod.fst ∨ x = k := by
  rw [rb_hash_aset_keys]
  split_ifs with hk
  · constructor
    · intro h; exact Or.inl h
    · rintro (h | h)
      · exact h
      · exact h ▸ hk
  · simp

theorem tags_loop_keys (st : List String) (vals : List Int) (keys : List Int) :
    ∀ (j : Nat) (tags out : Tags), tags_loop st vals keys j tags = .ok out →
      (tags.map Prod.fst).Nodup →
      (out.map Prod.fst).Nodup ∧
      ∀ x, x ∈ out.map Prod.fst ↔ x ∈ tags.map Prod.fst ∨ x ∈ tag_keys st keys := by
  induction keys with
  | nil =>
    intro j tags out h hn
    simp only [tags_loop, Except.ok.injEq] at h
    subst h
    exact ⟨hn, by simp [tag_keys]⟩
  | cons key_sid rest ih =>
    intro j tags out h hn
    rw [tags_loop] at h
    split at h
    · exact absurd h (by simp)
    · rename_i key hkey
      split at h
      · exact absurd h (by simp)
      · split at h
        · exact absurd h (by simp)
        · rename_i value _
          have hk : key = st.getD key_sid.toNat "" := by
            unfold string_table_s at hkey
            split_ifs at hkey
            simp only [Except.ok.injEq] at hkey
            exact hkey.symm
          obtain ⟨h1, h2⟩ := ih _ _ _ h (rb_hash_aset_nodup tags _ _ hn)
          refine ⟨h1, ?_⟩
          intro x
          rw [h2 x, rb_hash_aset_mem, hk]
          simp only [tag_keys, List.map_cons, List.mem_cons]
          tauto

theorem tags_loop_size (st : List String) (vals keys : List Int) (tags : Tags)
    (h : tags_loop st vals keys 0 [] = .ok tags) : tag_size_law st keys tags := by
  obtain ⟨h1, h2⟩ := tags_loop_keys st vals keys 0 [] tags h (by simp)
  have hperm : (tags.map Prod.fst).Perm (tag_keys st keys).dedup := by
    rw [List.perm_ext_iff_of_nodup h1 (List.nodup_dedup _)]
    intro x
    rw [h2 x, List.mem_dedup]
    simp
  have hlen : tags.length = (tag_keys st keys).dedup.length := by
    rw [← hperm.length_eq, List.length_map]
  have hkl : (tag_keys st keys).length = keys.length := by simp [tag_keys]
  have hsub := List.dedup_sublist (tag_keys st keys)
  refine ⟨hlen, ?_, ?_⟩
  · rw [hlen, ← hkl]
    exact hsub.length_le
  · rw [hlen, ← hkl]
    constructor
    · intro he
      have := hsub.eq_of_length he
      rw [← this]
      exact List.nodup_dedup _
    · intro hn
      rw [List.Nodup.dedup hn]

theorem tags_loop_complete (st : List String) (vals : List Int) (keys : List Int) :
    ∀ (j : Nat) (tags : Tags), j + keys.length ≤ vals.length →
      (∀ x ∈ keys, 0 ≤ x ∧ x < st.length) → (∀ x ∈ vals, 0 ≤ x ∧ x < st.length) →
      ∃ out, tags_loop st vals keys j tags = .ok out := by
  induction keys with
  | nil => intro j tags _ _ _; exact ⟨tags, rfl⟩
  | cons key_sid rest ih =>
    intro j tags hj hk hv
    have hjlt : j < vals.length := by simp only [List.length_cons] at hj; omega
    have h1 : string_table_s st key_sid = .ok (st.getD key_sid.toNat "") := by
      simp [string_table_s, hk key_sid (by simp)]
    have h2 : arr_get "vals" vals j = .ok vals[j] := by
      simp [arr_get, List.getElem?_eq_getElem hjlt]
    have h3 : string_table_s st vals[j] = .ok (st.getD vals[j].toNat "") := by
      simp [string_table_s, hv vals[j] (List.getElem_mem hjlt)]
    obtain ⟨out, hout⟩ := ih (j + 1) (rb_hash_aset tags (str_new (st.getD key_sid.toNat ""))
      (str_new (st.getD vals[j].toNat ""))) (by simp only [List.length_cons] at hj; omega)
      (fun x hx => hk x (by simp [hx])) hv
    exact ⟨out, by simp only [tags_loop, h1, h2, h3]; exact hout⟩

theorem process_node_tags (node : Node) (st : List String) (lo la g tg : Int) (out : NodeOut)
    (h : process_node node st lo la g tg = .ok out) :
    tags_loop st node.vals node.keys 0 [] = .ok out.tags := by
  unfold process_node at h
  simp only at h
  split at h
  · exact absurd h (by simp)
  · split at h
    · exact absurd h (by simp)
    · rename_i tags htags
      simp only [Except.ok.injEq] at h
      rw [htags, ← h]

theorem process_way_tags (way : Way) (st : List String) (tg : Int) (out : WayOut)
    (h : process_way way st tg = .ok out) :
    tags_loop st way.vals way.keys 0 [] = .ok out.tags := by
  unfold process_way at h
  split at h
  · exact absurd h (by simp)
  · rename_i tags htags
    simp only at h
    split at h
    · exact absurd h (by simp)
    · simp only [Except.ok.injEq] at h
      rw [htags, ← h]

theorem process_relation_tags (r : Relation) (st : List String) (tg : Int) (out : RelationOut)
    (h : process_relation r st tg = .ok out) :
    tags_loop st r.vals r.keys 0 [] = .ok out.tags := by
  unfold process_relation at h
  split at h
  · exact absurd h (by simp)
  · rename_i tags htags
    split at h
    · exact absurd h (by simp)
    · split at h
      · exact absurd h (by simp)
      · simp only [Except.ok.injEq] at h
        rw [htags, ← h]

/-- C18 (as stated, refuted). A node, a way and a relation with `n_keys = n_vals = 2` and valid
indices, whose two keys are the same string: the tag hash has one entry (the second
value), not two. -/
theorem duplicate_keys_tag_size_counterexample :
    (process_node { id := 1, keys := [1, 1], vals := [2, 3], info := none, lat := 0, lon := 0 }
        ["", "name", "a", "b"] 0 0 100 1000).map (fun o => o.tags) = .ok [("name", "b")] ∧
    (process_way { id := 1, keys := [1, 1], vals := [2, 3], info := none, refs := [] }
        ["", "name", "a", "b"] 1000).map (fun o => o.tags) = .ok [("name", "b")] ∧
    (process_relation ⟨1, [1, 1], [2, 3], none, [], [], []⟩
        ["", "name", "a", "b"] 1000).map (fun o => o.tags) = .ok [("name", "b")] ∧
    ([("name", "b")] : Tags).length ≠ ([1, 1] : List Int).length := by
  decide

/-- C18 (amended). For every row-wise node, way and relation that is decoded, the size of
the tag hash is the number of distinct key strings among its `n_keys` keys (taken as
C strings): it is at most `n_keys`, and equal to `n_keys` exactly when the key strings
are pairwise distinct; the tag loop completes when `n_keys = n_vals` and all indices
are below the string-table length; the way of scenario S5 has two keys and two tags. -/
theorem tag_map_size (st : List String) (lat_offset lon_offset granularity tg : Int) :
    (∀ node out, process_node node st lat_offset lon_offset granularity tg = .ok out →
      tag_size_law st node.keys out.tags) ∧
    (∀ way out, process_way way st tg = .ok out → tag_size_law st way.keys out.tags) ∧
    (∀ relation out, process_relation relation st tg = .ok out →
      tag_size_law st relation.keys out.tags) ∧
    (∀ keys vals : List Int, keys.length = vals.length →
      (∀ x ∈ keys, 0 ≤ x ∧ x < st.length) → (∀ x ∈ vals, 0 ≤ x ∧ x < st.length) →
      ∃ tags, tags_loop st vals keys 0 [] = .ok tags) ∧
    (process_way { id := 42, keys := [1, 3], vals := [2, 4], info := none, refs := [100, 1, 1] }
        ["", "highway", "residential", "name", "Main"] 1000).map (fun o => o.tags) =
      .ok [("highway", "residential"), ("name", "Main")] := by
  refine ⟨?_, ?_, ?_, ?_, by decide⟩
  · intro node out h
    exact tags_loop_size st node.vals node.keys out.tags (process_node_tags _ _ _ _ _ _ _ h)
  · intro way out h
    exact tags_loop_size st way.vals way.keys out.tags (process_way_tags _ _ _ _ h)
  · intro r out h
    exact tags_loop_size st r.vals r.keys out.tags (process_relation_tags _ _ _ _ h)
  · intro keys vals hl hk hv
    exact tags_loop_complete st vals keys 0 [] (by omega) hk hv

/-- Witness for C18 (amended): a way with the keys "highway" and "name" has two tags. -/
theorem tag_map_size_witness :
    tag_size_law ["", "highway", "residential", "name", "Main"] [1, 3]
      [("highway", "residential"), ("name", "Main")] :=
  (tag_map_size ["", "highway", "residential", "name", "Main"] 0 0 100 1000).2.1
    { id := 42, keys := [1, 3], vals := [2, 4], info := none, refs := [100, 1, 1] }
    { id := 42, meta := none, tags := [("highway", "residential"), ("name", "Main")],
      refs := [100, 101, 102] } (by decide)

/-! ## Relation members: the role -/

theorem members_loop_roles (r : Relation) (st : List String) :
    ∀ (memids : List Int) (k : Nat) (s s1 : MemberState),
      members_loop r st memids k s = .ok s1 →
      ∀ j, j < memids.length → ∃ sid, r.roles_sid[k + j]? = some sid ∧
        (sid ≠ 0 → 0 ≤ sid ∧ sid < st.length) := by
  intro memids
  induction memids with
  | nil => intro k s s1 _ j hj; simp at hj
  | cons memid memids ih =>
    intro k s s1 h j hj
    rw [members_loop] at h
    split at h
    · exact absurd h (by simp)
    · rename_i role_sid hrole
      have hsid : r.roles_sid[k]? = some role_sid := by
        unfold arr_get at hrole
        split at hrole
        · rename_i v hv
          simp only [Except.ok.injEq] at hrole
          rw [hv, hrole]
        · exact absurd hrole (by simp)
      split at h
      · exact absurd h (by simp)
      · rename_i role hlook
        split at h
        · exact absurd h (by simp)
        · cases j with
          | zero =>
            refine ⟨role_sid, by simpa using hsid, ?_⟩
            intro hne
            rw [if_pos hne] at hlook
            unfold string_table_s at hlook
            split_ifs at hlook with hr
            · exact hr
            · simp [Except.map] at hlook
          | succ j =>
            have := ih (k + 1) _ _ h j (by simp only [List.length_cons] at hj; omega)
            rw [show k + (j + 1) = k + 1 + j by omega]
            exact this

theorem process_relation_roles (r : Relation) (st : List String) (tg : Int) (ro : RelationOut)
    (h : process_relation r st tg = .ok ro) (k : Nat) (hk : k < r.memids.length) :
    ∃ sid, r.roles_sid[k]? = some sid ∧ (sid ≠ 0 → 0 ≤ sid ∧ sid < st.length) := by
  unfold process_relation at h
  split at h
  · exact absurd h (by simp)
  · split at h
    · exact absurd h (by simp)
    · rename_i m hm
      have := members_loop_roles r st r.memids 0 _ m hm k hk
      simpa using this

theorem mem_members_upto (st : List String) (r : Relation) (type : Int) (n : Nat) (m : Member) :
    m ∈ members_upto st r type n ↔
      ∃ k, k < n ∧ r.types[k]? = some type ∧ m.id = wrap64 (running_sum r.memids k) ∧
        m.role = if r.roles_sid.getD k 0 = 0 then none
          else some (str_new (st.getD (r.roles_sid.getD k 0).toNat "")) := by
  unfold members_upto
  simp only [List.mem_map, List.mem_filter, List.mem_range, beq_iff_eq]
  constructor
  · rintro ⟨k, ⟨hk, ht⟩, rfl⟩
    exact ⟨k, hk, ht, rfl, rfl⟩
  · rintro ⟨k, hk, ht, hid, hrole⟩
    refine ⟨k, ⟨hk, ht⟩, ?_⟩
    cases m
    simp only at hid hrole
    simp only [hid, hrole]

/-- C19 (as stated, refuted). A relation with `roles_sid = [0, 1]`: the member with
`roles_sid` 0 is emitted without a role (the key `role` is not set), not with the
empty string as role, although entry 0 of the string table is the empty string. -/
theorem member_role_zero_is_absent_counterexample :
    (process_relation ⟨1, [], [], none, [0, 1], [7, 3], [1, 0]⟩ ["", "outer"] 1000).map
        (fun o => (o.ways, o.nodes)) =
      .ok ([{ id := 7, role := none }], [{ id := 10, role := some "outer" }]) ∧
    ({ id := 7, role := none } : Member) ≠ { id := 7, role := some "" } := by
  decide

/-- C19 (amended). For every decoded relation and every member index `k`, the array
`roles_sid` has an entry at `k`, and the member emitted for `k` (in the array of its
type, with the running sum of `memids[0..k]` as id) has no role when `roles_sid[k]` is 0
and, when `roles_sid[k]` is not 0, has as role the C string of the string-table entry at
that index, which is an index of the string table; every emitted member is the member
of some `k`; the relation is decoded when the three member arrays have equal
length, the non-zero `roles_sid` are indices of the string table, and the tag loop and
`add_info` complete. -/
theorem relation_member_roles (r : Relation) (st : List String) (tg : Int) :
    (∀ ro, process_relation r st tg = .ok ro → ∀ k, k < r.memids.length →
      ∃ sid m, r.roles_sid[k]? = some sid ∧ m.id = wrap64 (running_sum r.memids k) ∧
        (sid = 0 → m.role = none) ∧
        (sid ≠ 0 → 0 ≤ sid ∧ sid < st.length ∧
          m.role = some (str_new (st.getD sid.toNat ""))) ∧
        (r.types[k]? = some MEMBER_TYPE_NODE → m ∈ ro.nodes) ∧
        (r.types[k]? = some MEMBER_TYPE_WAY → m ∈ ro.ways) ∧
        (r.types[k]? = some MEMBER_TYPE_RELATION → m ∈ ro.relations)) ∧
    (∀ ro, process_relation r st tg = .ok ro → ∀ m ∈ ro.nodes ++ ro.ways ++ ro.relations,
      ∃ k sid, k < r.memids.length ∧ r.roles_sid[k]? = some sid ∧
        m.id = wrap64 (running_sum r.memids k) ∧
        (sid = 0 → m.role = none) ∧
        (sid ≠ 0 → m.role = some (str_new (st.getD sid.toNat "")))) ∧
    (r.roles_sid.length = r.memids.length → r.types.length = r.memids.length →
      (∀ x ∈ r.roles_sid, x = 0 ∨ (0 ≤ x ∧ x < st.length)) →
      (∃ t, tags_loop st r.vals r.keys 0 [] = .ok t) →
      (∃ i, add_info_opt r.info st tg = .ok i) →
      ∃ ro, process_relation r st tg = .ok ro) := by
  refine ⟨?_, ?_, ?_⟩
  · intro ro h k hk
    obtain ⟨sid, hsid, hrange⟩ := process_relation_roles r st tg ro h k hk
    obtain ⟨hn, hw, hr⟩ := process_relation_members r st tg ro h
    have hget : r.roles_sid.getD k 0 = sid := by
      simp [List.getD_eq_getElem?_getD, hsid]
    refine ⟨sid, ⟨wrap64 (running_sum r.memids k),
      if sid = 0 then none else some (str_new (st.getD sid.toNat ""))⟩, hsid, rfl, ?_, ?_, ?_, ?_, ?_⟩
    · intro h0
      simp only [h0, ↓reduceIte]
    · intro h0
      refine ⟨(hrange h0).1, (hrange h0).2, ?_⟩
      simp only [h0, ↓reduceIte]
    · intro ht
      rw [hn, members_of_type, mem_members_upto]
      exact ⟨k, hk, ht, rfl, by simp only [hget]⟩
    · intro ht
      rw [hw, members_of_type, mem_members_upto]
      exact ⟨k, hk, ht, rfl, by simp only [hget]⟩
    · intro ht
      rw [hr, members_of_type, mem_members_upto]
      exact ⟨k, hk, ht, rfl, by simp only [hget]⟩
  · intro ro h m hm
    obtain ⟨hn, hw, hr⟩ := process_relation_members r st tg ro h
    have hex : ∃ type, m ∈ members_upto st r type r.memids.length := by
      simp only [List.mem_append] at hm
      rcases hm with (hm | hm) | hm
      · exact ⟨_, by rw [hn] at hm; exact hm⟩
      · exact ⟨_, by rw [hw] at hm; exact hm⟩
      · exact ⟨_, by rw [hr] at hm; exact hm⟩
    obtain ⟨type, hmem⟩ := hex
    rw [mem_members_upto] at hmem
    obtain ⟨k, hk, _, hid, hrole⟩ := hmem
    obtain ⟨sid, hsid, _⟩ := process_relation_roles r st tg ro h k hk
    have hget : r.roles_sid.getD k 0 = sid := by
      simp [List.getD_eq_getElem?_getD, hsid]
    rw [hget] at hrole
    refine ⟨k, sid, hk, hsid, hid, ?_, ?_⟩
    · intro h0
      rw [hrole, if_pos h0]
    · intro h0
      rw [hrole, if_neg h0]
  · intro h1 h2 h3 h4 h5
    exact process_relation_complete r st tg h1 h2 h3 h4 h5

/-- Witness for C19 (amended): in the decoded relation with `roles_sid = [0, 1]` and
`types = [WAY, NODE]`, member 0 is a way without role. -/
theorem relation_member_roles_witness :
    ∃ sid m, ([0, 1] : List Int)[0]? = some sid ∧ m.id = wrap64 (running_sum [7, 3] 0) ∧
      (sid = 0 → m.role = none) ∧
      (sid ≠ 0 → 0 ≤ sid ∧ sid < ((["", "outer"] : List String).length : Int) ∧
        m.role = some (str_new ((["", "outer"] : List String).getD sid.toNat ""))) ∧
      (([1, 0] : List Int)[0]? = some MEMBER_TYPE_NODE → m ∈ [(⟨10, some "outer"⟩ : Member)]) ∧
      (([1, 0] : List Int)[0]? = some MEMBER_TYPE_WAY → m ∈ [(⟨7, none⟩ : Member)]) ∧
      (([1, 0] : List Int)[0]? = some MEMBER_TYPE_RELATION → m ∈ ([] : List Member)) :=
  (relation_member_roles ⟨1, [], [], none, [0, 1], [7, 3], [1, 0]⟩ ["", "outer"] 1000).1
    ⟨1, none, [], [⟨10, some "outer"⟩], [⟨7, none⟩], []⟩ (by decide) 0 (by decide)

/-! ## The timestamp of `add_info` -/

theorem add_info_complete (info : Info) (st : List String) (g : Int)
    (ht : info.timestamp = 0 ∨ (info.timestamp.natAbs < 9007199254740992 ∧
      (info.timestamp * g).natAbs < 9007199254740992))
    (hu : info.user_sid = 0 ∨ (0 ≤ info.user_sid ∧ info.user_sid < st.length)) :
    ∃ m, add_info info st g = .ok m := by
  have hts : ∃ ts, (if info.timestamp ≠ 0 then (timestamp_ll info.timestamp g).map some
      else Except.ok none) = .ok ts := by
    by_cases h0 : info.timestamp = 0
    · exact ⟨none, by rw [if_neg (by simp [h0])]⟩
    · rcases ht with ht | ⟨h1, h2⟩
      · exact absurd ht h0
      · exact ⟨some (info.timestamp * g), by
          rw [if_pos h0, timestamp_ll_exact _ _ h1 h2]; rfl⟩
  obtain ⟨ts, hts⟩ := hts
  unfold add_info
  simp only [hts]
  by_cases hs : info.user_sid = 0
  · simp only [hs, ne_eq, not_true_eq_false, ↓reduceIte]
    exact ⟨_, rfl⟩
  · rcases hu with hu | hu
    · exact absurd hu hs
    · simp only [ne_eq, hs, not_false_eq_true, ↓reduceIte,
        string_table_s_of_range st info.user_sid hu.1 hu.2]
      exact ⟨_, rfl⟩

theorem process_node_meta (node : Node) (st : List String) (lo la g tg : Int) (out : NodeOut)
    (h : process_node node st lo la g tg = .ok out) :
    add_info_opt node.info st tg = .ok out.meta := by
  unfold process_node at h
  simp only at h
  split at h
  · exact absurd h (by simp)
  · rename_i meta hmeta
    split at h
    · exact absurd h (by simp)
    · simp only [Except.ok.injEq] at h
      rw [hmeta, ← h]

theorem process_way_meta (way : Way) (st : List String) (tg : Int) (out : WayOut)
    (h : process_way way st tg = .ok out) : add_info_opt way.info st tg = .ok out.meta := by
  unfold process_way at h
  split at h
  · exact absurd h (by simp)
  · simp only at h
    split at h
    · exact absurd h (by simp)
    · rename_i meta hmeta
      simp only [Except.ok.injEq] at h
      rw [hmeta, ← h]

theorem process_relation_meta (r : Relation) (st : List String) (tg : Int) (out : RelationOut)
    (h : process_relation r st tg = .ok out) : add_info_opt r.info st tg = .ok out.meta := by
  unfold process_relation at h
  split at h
  · exact absurd h (by simp)
  · split at h
    · exact absurd h (by simp)
    · split at h
      · exact absurd h (by simp)
      · rename_i meta hmeta
        simp only [Except.ok.injEq] at h
        rw [hmeta, ← h]

theorem add_info_opt_timestamp_law (info : Info) (st : List String) (g : Int)
    (meta : Option Meta) (h : add_info_opt (some info) st g = .ok meta) :
    ∃ m, meta = some m ∧ timestamp_law info.timestamp g m := by
  unfold add_info_opt at h
  simp only at h
  cases hm : add_info info st g with
  | error e => rw [hm] at h; simp [Except.map] at h
  | ok m =>
    rw [hm] at h
    simp only [Except.map, Except.ok.injEq] at h
    exact ⟨m, h.symm, add_info_timestamp_law info st g m hm⟩

/-- C20 (as stated, refuted). An Info with raw timestamp 0 gets no timestamp (the key
`timestamp` is set to nil), not the integer 0; and for the raw timestamp `2^53 + 1`
with granularity 1 the emitted timestamp is `2^53`, not the exact product, which is
within 64-bit range. -/
theorem timestamp_zero_or_large_counterexample :
    (add_info ⟨1, 0, 1, 1, 0⟩ [""] 1000).map (fun m => m.timestamp) = .ok none ∧
    (add_info ⟨1, 9007199254740993, 1, 1, 0⟩ [""] 1).map (fun m => m.timestamp) =
      .ok (some 9007199254740992) ∧
    (9007199254740993 : Int) * 1 ≠ 9007199254740992 := by
  decide

/-- C20 (amended). For every Info that `add_info` attaches (the Info of a row-wise node, way
or relation, and the Info built for a dense node, whose raw timestamp is the 64-bit
running sum of the deltas) with raw timestamp `t`: for `t = 0` no timestamp is emitted
(nil); for `t ≠ 0` the emitted timestamp is the product `t * date_granularity` formed in
`double` arithmetic and converted back to an integer, which is the exact integer
`t * date_granularity` whenever `t` and the product are below `2^53` in absolute value;
`add_info` completes under these bounds when `user_sid` is 0 or an index of the
string table; the raw timestamp 1600000000 with granularity 1000 gives
1600000000000. -/
theorem add_info_timestamp (st : List String) (lat_offset lon_offset granularity tg : Int) :
    (∀ info m, add_info info st tg = .ok m → timestamp_law info.timestamp tg m) ∧
    (∀ node out info,
      process_node node st lat_offset lon_offset granularity tg = .ok out →
      node.info = some info → ∃ m, out.meta = some m ∧ timestamp_law info.timestamp tg m) ∧
    (∀ way out info, process_way way st tg = .ok out → way.info = some info →
      ∃ m, out.meta = some m ∧ timestamp_law info.timestamp tg m) ∧
    (∀ relation out info, process_relation relation st tg = .ok out →
      relation.info = some info →
      ∃ m, out.meta = some m ∧ timestamp_law info.timestamp tg m) ∧
    (∀ out d di outs,
      process_dense_nodes out d st lat_offset lon_offset granularity tg = .ok outs →
      d.denseinfo = some di →
      ∃ new, outs = out ++ new ∧ new.length = d.id.length ∧
        ∀ i, i < d.id.length → ∃ nd m, new[i]? = some nd ∧ nd.meta = some m ∧
          timestamp_law (wrap64 (running_sum di.timestamp i)) tg m) ∧
    (∀ info : Info,
      (info.timestamp = 0 ∨ (info.timestamp.natAbs < 9007199254740992 ∧
        (info.timestamp * tg).natAbs < 9007199254740992)) →
      (info.user_sid = 0 ∨ (0 ≤ info.user_sid ∧ info.user_sid < st.length)) →
      ∃ m, add_info info st tg = .ok m) ∧
    (add_info ⟨1, 1600000000, 1, 1, 0⟩ [""] 1000).map (fun m => m.timestamp) =
      .ok (some 1600000000000) := by
  refine ⟨?_, ?_, ?_, ?_, ?_, ?_, by decide⟩
  · intro info m h
    exact add_info_timestamp_law info st tg m h
  · intro node out info h hi
    have hm := process_node_meta node st lat_offset lon_offset granularity tg out h
    rw [hi] at hm
    exact add_info_opt_timestamp_law info st tg out.meta hm
  · intro way out info h hi
    have hm := process_way_meta way st tg out h
    rw [hi] at hm
    exact add_info_opt_timestamp_law info st tg out.meta hm
  · intro r out info h hi
    have hm := process_relation_meta r st tg out h
    rw [hi] at hm
    exact add_info_opt_timestamp_law info st tg out.meta hm
  · intro out d di outs h hden
    unfold process_dense_nodes at h
    split at h
    · exact absurd h (by simp)
    · rename_i s hs
      simp only [Except.ok.injEq] at h
      have hinv := dense_loop_inv d st lat_offset lon_offset granularity tg
        (dense_num_inv d st lat_offset lon_offset granularity tg out)
        (dense_num_inv_step d st lat_offset lon_offset granularity tg out)
        d.id [] (DenseState.init out) s (by simp) hs
        (dense_num_inv_init d st lat_offset lon_offset granularity tg out)
      obtain ⟨-, -, -, -, nodes, hout, hlen, hnodes⟩ := hinv
      refine ⟨nodes, by rw [← h, hout], hlen, ?_⟩
      intro i hi
      obtain ⟨nd, hnd, -, -, -, -, hmeta⟩ := hnodes i hi
      obtain ⟨m, hm, hndm⟩ := hmeta di hden
      exact ⟨nd, m, hnd, hndm, add_info_timestamp_law (dense_info_at di i) st tg m hm⟩
  · intro info ht hu
    exact add_info_complete info st tg ht hu

/-- Witness for C20 (amended): the raw timestamp 1600000000 with granularity 1000. -/
theorem add_info_timestamp_witness :
    timestamp_law 1600000000 1000 ⟨some 1, some 1600000000000, some 1, some 1, none⟩ :=
  (add_info_timestamp [""] 0 0 100 1000).1 ⟨1, 1600000000, 1, 1, 0⟩
    ⟨some 1, some 1600000000000, some 1, some 1, none⟩ (by decide)

/-! ## Termination of the index scan -/

theorem read_blob_header_not_fuel (ext : Ext) (f : CFile) :
    (read_blob_header ext f).1 ≠ .error .fuel := by
  unfold read_blob_header
  rcases get_header_size f with ⟨length, f0⟩
  simp only
  split_ifs
  · simp
  · simp
  · rcases fread f0 length with ⟨_ | buffer, f1⟩
    · simp
    · simp only
      rcases ext.blob_header__unpack buffer with _ | header <;> simp

theorem find_all_blobs_step (ext : Ext) (content : List Nat) (pos : Nat) (f1 : CFile)
    (header : BlobHeader) (hds : scanned_datasize_nonneg ext content)
    (hat : ScanAt ext content pos)
    (h : read_blob_header ext ⟨content, pos, false⟩ = (.ok (some header), f1)) :
    1 ≤ ntohl ((content.drop pos).take 4) ∧ 0 ≤ header.datasize ∧
      pos + 4 + ntohl ((content.drop pos).take 4) ≤ content.length ∧
      fseek_cur f1 header.datasize =
        some ⟨content, pos + 4 + ntohl ((content.drop pos).take 4) + header.datasize.toNat,
          false⟩ ∧
      ScanAt ext content
        (pos + 4 + ntohl ((content.drop pos).take 4) + header.datasize.toNat) := by
  obtain ⟨hbytes, h1, h2, -, h4, -, -, h7⟩ :=
    read_blob_header_some ext ⟨content, pos, false⟩ f1 header h
  simp only at h1 h2 h7
  have hd : 0 ≤ header.datasize := hds pos header f1 hat h
  have hseek : fseek_cur f1 header.datasize =
      some ⟨content, pos + 4 + ntohl ((content.drop pos).take 4) + header.datasize.toNat,
        false⟩ := by
    rw [h7, h1]
    unfold fseek_cur
    simp only
    rw [if_neg (by omega)]
    congr 2
    omega
  exact ⟨by omega, hd, by omega, hseek, ScanAt.step pos header f1 _ hat h hseek⟩

theorem find_all_blobs_loop_terminates (ext : Ext) (content : List Nat)
    (hds : scanned_datasize_nonneg ext content) :
    ∀ (fuel n : Nat) (pos : Int) (blobs : List BlobInfo), ScanAt ext content n →
      1 ≤ fuel → content.length < n + fuel →
      (find_all_blobs_loop ext fuel ⟨content, n, false⟩ pos blobs).1 ≠ .error .fuel ∧
      ∀ fuel1, fuel ≤ fuel1 →
        find_all_blobs_loop ext fuel1 ⟨content, n, false⟩ pos blobs =
          find_all_blobs_loop ext fuel ⟨content, n, false⟩ pos blobs := by
  intro fuel
  induction fuel with
  | zero => intro n pos blobs _ h; omega
  | succ k ih =>
    intro n pos blobs hat _ hlen
    have hnf := read_blob_header_not_fuel ext ⟨content, n, false⟩
    cases hr : read_blob_header ext ⟨content, n, false⟩ with
    | mk r f1 =>
      rw [hr] at hnf
      simp only at hnf
      cases r with
      | error e =>
        have hne : e ≠ .fuel := fun he => hnf (by rw [he])
        refine ⟨by simp only [find_all_blobs_loop, hr]; exact fun he => hne (by injection he), ?_⟩
        intro fuel1 hle
        obtain ⟨m, rfl⟩ : ∃ m, fuel1 = m + 1 := ⟨fuel1 - 1, by omega⟩
        simp only [find_all_blobs_loop, hr]
      | ok o =>
        cases o with
        | none =>
          refine ⟨by simp [find_all_blobs_loop, hr], ?_⟩
          intro fuel1 hle
          obtain ⟨m, rfl⟩ : ∃ m, fuel1 = m + 1 := ⟨fuel1 - 1, by omega⟩
          simp only [find_all_blobs_loop, hr]
        | some header =>
          obtain ⟨hL, -, hin, hseek, hat1⟩ := find_all_blobs_step ext content n f1 header hds hat hr
          have hrec := ih
            (n + 4 + ntohl ((content.drop n).take 4) + header.datasize.toNat)
            (ftell ⟨content,
              n + 4 + ntohl ((content.drop n).take 4) + header.datasize.toNat, false⟩)
            (if header.type = "OSMData" then
              blobs ++ [{ header_pos := pos + 4, header_size := ftell f1 - pos - 4,
                          data_pos := ftell f1, data_size := to_u32 header.datasize }]
             else blobs)
            hat1 (by omega) (by omega)
          refine ⟨by simp only [find_all_blobs_loop, hr, hseek]; exact hrec.1, ?_⟩
          intro fuel1 hle
          obtain ⟨m, rfl⟩ : ∃ m, fuel1 = m + 1 := ⟨fuel1 - 1, by omega⟩
          simp only [find_all_blobs_loop, hr, hseek]
          exact hrec.2 m (by omega)

theorem find_all_blobs_not_fuel (ext : Ext) (p : Parser)
    (hds : scanned_datasize_nonneg ext p.input.content) :
    (find_all_blobs ext p).1 ≠ .error .fuel := by
  unfold find_all_blobs
  have hseek : fseek_set p.input 0 = some ⟨p.input.content, 0, false⟩ := by
    simp [fseek_set]
  simp only [hseek]
  have h := (find_all_blobs_loop_terminates ext p.input.content hds
    (p.input.content.length + 1) 0 0 [] ScanAt.start (by omega) (by omega)).1
  rcases hl : find_all_blobs_loop ext (p.input.content.length + 1)
    ⟨p.input.content, 0, false⟩ 0 [] with ⟨r, f1, blobs⟩
  rw [hl] at h
  simp only at h
  cases r with
  | error e => simpa using h
  | ok u =>
    simp only
    split <;> simp

theorem backward_scan_cycles :
    ∀ (fuel : Nat) (pos : Int) (blobs : List BlobInfo),
      (find_all_blobs_loop example_backward_ext fuel
        ⟨[0, 0, 0, 1, 1, 9, 0, 0, 0, 1, 2, 7, 0, 0, 0, 1, 3], 12, false⟩ pos blobs).1 =
        .error .fuel := by
  intro fuel
  induction fuel with
  | zero => intro pos blobs; rfl
  | succ n ih =>
    intro pos blobs
    have hr : read_blob_header example_backward_ext
        ⟨[0, 0, 0, 1, 1, 9, 0, 0, 0, 1, 2, 7, 0, 0, 0, 1, 3], 12, false⟩ =
        (.ok (some ⟨"OSMData", -5⟩),
          ⟨[0, 0, 0, 1, 1, 9, 0, 0, 0, 1, 2, 7, 0, 0, 0, 1, 3], 17, false⟩) := by decide
    have hs : fseek_cur ⟨[0, 0, 0, 1, 1, 9, 0, 0, 0, 1, 2, 7, 0, 0, 0, 1, 3], 17, false⟩ (-5) =
        some ⟨[0, 0, 0, 1, 1, 9, 0, 0, 0, 1, 2, 7, 0, 0, 0, 1, 3], 12, false⟩ := by decide
    simp only [find_all_blobs_loop, hr, hs]
    exact ih _ _

theorem scan_positions_small_file (pos : Nat)
    (h : ScanAt example_backward_ext [0, 0, 0, 1, 1, 3] pos) : pos = 0 ∨ pos = 6 := by
  induction h with
  | start => exact Or.inl rfl
  | step pos header f1 f2 _ hr hs ih =>
    rcases ih with rfl | rfl
    · have h0 : read_blob_header example_backward_ext ⟨[0, 0, 0, 1, 1, 3], 0, false⟩ =
          (.ok (some ⟨"OSMHeader", 1⟩), ⟨[0, 0, 0, 1, 1, 3], 5, false⟩) := by decide
      rw [h0] at hr
      simp only [Prod.mk.injEq, Except.ok.injEq, Option.some.injEq] at hr
      obtain ⟨hh, hf⟩ := hr
      rw [← hh, ← hf] at hs
      have h1 : fseek_cur ⟨[0, 0, 0, 1, 1, 3], 5, false⟩ 1 =
          some ⟨[0, 0, 0, 1, 1, 3], 6, false⟩ := by decide
      rw [h1] at hs
      simp only [Option.some.injEq] at hs
      rw [← hs]
      exact Or.inr rfl
    · have h6 : read_blob_header example_backward_ext ⟨[0, 0, 0, 1, 1, 3], 6, false⟩ =
          (.ok none, ⟨[0, 0, 0, 1, 1, 3], 6, true⟩) := by decide
      rw [h6] at hr
      simp at hr

theorem small_file_datasize_nonneg :
    scanned_datasize_nonneg example_backward_ext [0, 0, 0, 1, 1, 3] := by
  intro pos header f1 hat hr
  rcases scan_positions_small_file pos hat with rfl | rfl
  · have h0 : read_blob_header example_backward_ext ⟨[0, 0, 0, 1, 1, 3], 0, false⟩ =
        (.ok (some ⟨"OSMHeader", 1⟩), ⟨[0, 0, 0, 1, 1, 3], 5, false⟩) := by decide
    rw [h0] at hr
    simp only [Prod.mk.injEq, Except.ok.injEq, Option.some.injEq] at hr
    rw [← hr.1]
    decide
  · have h6 : read_blob_header example_backward_ext ⟨[0, 0, 0, 1, 1, 3], 6, false⟩ =
        (.ok none, ⟨[0, 0, 0, 1, 1, 3], 6, true⟩) := by decide
    rw [h6] at hr
    simp at hr

/-- C21. On a file in which every BlobHeader that the scan reads declares a non-negative
`datasize`, every iteration of the scan loop of `find_all_blobs` that reads a header
moves the file position strictly forward, by 4 + header length + `datasize` with
header length at least 1; with the position at or past the end of the file the header
read reports end of file and the loop exits; so the loop ends within `length + 1`
iterations from any position it reaches (more iterations give the same result) and
`find_all_blobs` ends.  Without the hypothesis the scan need not end: a header that
declares `datasize = -5` after a 5-byte length prefix and header sends the scan back
to the same position for ever. -/
theorem find_all_blobs_terminates (ext : Ext) (content : List Nat)
    (hds : scanned_datasize_nonneg ext content) :
    (∀ (pos : Nat) (f1 : CFile) (header : BlobHeader), ScanAt ext content pos →
      read_blob_header ext ⟨content, pos, false⟩ = (.ok (some header), f1) →
      ∃ f2, fseek_cur f1 header.datasize = some f2 ∧
        1 ≤ ntohl ((content.drop pos).take 4) ∧
        (f2.pos : Int) = pos + 4 + ntohl ((content.drop pos).take 4) + header.datasize ∧
        pos < f2.pos ∧ f2.content = content ∧ f2.eof = false) ∧
    (∀ (f : CFile) (pos : Int) (blobs : List BlobInfo) (fuel : Nat),
      f.content.length ≤ f.pos →
      find_all_blobs_loop ext (fuel + 1) f pos blobs =
        (.ok (), ⟨f.content, f.pos, true⟩, blobs)) ∧
    (∀ (n : Nat) (pos : Int) (blobs : List BlobInfo), ScanAt ext content n →
      (find_all_blobs_loop ext (content.length + 1) ⟨content, n, false⟩ pos blobs).1 ≠
        .error .fuel ∧
      ∀ fuel, content.length + 1 ≤ fuel →
        find_all_blobs_loop ext fuel ⟨content, n, false⟩ pos blobs =
          find_all_blobs_loop ext (content.length + 1) ⟨content, n, false⟩ pos blobs) ∧
    (∀ p : Parser, p.input.content = content → (find_all_blobs ext p).1 ≠ .error .fuel) ∧
    (∀ fuel : Nat,
      (find_all_blobs_loop example_backward_ext fuel
        ⟨[0, 0, 0, 1, 1, 9, 0, 0, 0, 1, 2, 7, 0, 0, 0, 1, 3], 0, false⟩ 0 []).1 =
        .error .fuel) := by
  refine ⟨?_, ?_, ?_, ?_, ?_⟩
  · intro pos f1 header hat h
    obtain ⟨hL, hd, -, hseek, -⟩ := find_all_blobs_step ext content pos f1 header hds hat h
    refine ⟨_, hseek, hL, ?_, ?_, rfl, rfl⟩
    · simp only
      push_cast
      rw [Int.toNat_of_nonneg hd]
    · simp only
      omega
  · intro f pos blobs fuel h
    simp only [find_all_blobs_loop, read_blob_header_eof ext f h]
  · intro n pos blobs hat
    exact find_all_blobs_loop_terminates ext content hds (content.length + 1) n pos blobs hat
      (by omega) (by omega)
  · intro p hc
    exact find_all_blobs_not_fuel ext p (hc ▸ hds)
  · intro fuel
    have hr0 : read_blob_header example_backward_ext
        ⟨[0, 0, 0, 1, 1, 9, 0, 0, 0, 1, 2, 7, 0, 0, 0, 1, 3], 0, false⟩ =
        (.ok (some ⟨"OSMHeader", 1⟩),
          ⟨[0, 0, 0, 1, 1, 9, 0, 0, 0, 1, 2, 7, 0, 0, 0, 1, 3], 5, false⟩) := by decide
    have hs0 : fseek_cur ⟨[0, 0, 0, 1, 1, 9, 0, 0, 0, 1, 2, 7, 0, 0, 0, 1, 3], 5, false⟩ 1 =
        some ⟨[0, 0, 0, 1, 1, 9, 0, 0, 0, 1, 2, 7, 0, 0, 0, 1, 3], 6, false⟩ := by decide
    have hr6 : read_blob_header example_backward_ext
        ⟨[0, 0, 0, 1, 1, 9, 0, 0, 0, 1, 2, 7, 0, 0, 0, 1, 3], 6, false⟩ =
        (.ok (some ⟨"OSMData", 1⟩),
          ⟨[0, 0, 0, 1, 1, 9, 0, 0, 0, 1, 2, 7, 0, 0, 0, 1, 3], 11, false⟩) := by decide
    have hs6 : fseek_cur ⟨[0, 0, 0, 1, 1, 9, 0, 0, 0, 1, 2, 7, 0, 0, 0, 1, 3], 11, false⟩ 1 =
        some ⟨[0, 0, 0, 1, 1, 9, 0, 0, 0, 1, 2, 7, 0, 0, 0, 1, 3], 12, false⟩ := by decide
    rcases fuel with _ | _ | n
    · rfl
    · simp only [find_all_blobs_loop, hr0, hs0]
    · simp only [find_all_blobs_loop, hr0, hs0, hr6, hs6]
      exact backward_scan_cycles n _ _

/-- Witness for C21: the file `[0, 0, 0, 1, 1, 3]` read with `example_backward_ext` has one
BlobHeader, with `datasize` 1, although its payload byte 3 would unpack to a header with
`datasize` -5; the scan of this file ends. -/
theorem find_all_blobs_terminates_witness :
    (find_all_blobs example_backward_ext (Parser.opened [0, 0, 0, 1, 1, 3])).1 ≠
      .error .fuel :=
  (find_all_blobs_terminates example_backward_ext [0, 0, 0, 1, 1, 3]
    small_file_datasize_nonneg).2.2.2.1 (Parser.opened [0, 0, 0, 1, 1, 3]) rfl

/-! ## `seek` that does not succeed -/

theorem parse_osm_data_failure (ext : Ext) (p : Parser)
    (h : (parse_osm_data ext p).1 ≠ .ok true) :
    (parse_osm_data ext p).2.data = p.data ∧ (parse_osm_data ext p).2.pos = p.pos := by
  revert h
  unfold parse_osm_data
  rcases read_blob_header ext p.input with ⟨_ | _ | header, f⟩
  · intro _; exact ⟨rfl, rfl⟩
  · intro _; exact ⟨rfl, rfl⟩
  · simp only
    split_ifs
    · intro _; exact ⟨rfl, rfl⟩
    · rcases read_blob ext f (to_u64 header.datasize).toNat with ⟨_ | blob, f1⟩
      · intro _; exact ⟨rfl, rfl⟩
      · simp only
        rcases ext.primitive_block__unpack blob with _ | pb
        · intro _; exact ⟨rfl, rfl⟩
        · simp only
          rcases decode_block pb with _ | data
          · intro _; exact ⟨rfl, rfl⟩
          · intro h; exact absurd rfl h

theorem seek_to_osm_data_failure (ext : Ext) (p : Parser) (index : Int)
    (h : (seek_to_osm_data ext p index).1 ≠ .ok true) :
    (seek_to_osm_data ext p index).2.data = p.data ∧
      ((seek_to_osm_data ext p index).2.pos = p.pos ∨
        (seek_to_osm_data ext p index).2.pos = index - 1) := by
  revert h
  unfold seek_to_osm_data
  by_cases hr : index < -2147483648 ∨ 2147483647 < index
  · rw [if_pos hr]
    intro _
    exact ⟨rfl, Or.inl rfl⟩
  · rw [if_neg hr]
    simp only
    by_cases hp : p.pos = index
    · rw [if_pos hp]
      intro _
      exact ⟨rfl, Or.inl rfl⟩
    · rw [if_neg hp]
      rcases rb_ary_entry p.blobs index with _ | blob_info
      · intro _; exact ⟨rfl, Or.inl rfl⟩
      · simp only
        rcases fseek_set p.input (blob_info.header_pos - 4) with _ | f
        · intro _; exact ⟨rfl, Or.inl rfl⟩
        · simp only
          intro h
          obtain ⟨h1, h2⟩ := parse_osm_data_failure ext _ h
          exact ⟨h1, Or.inr h2⟩

/-- C22 (failing input). The example file followed by the length prefix and BlobHeader of a
third data block whose payload is missing: the file opens with `pos == 0` and
`size == 3`; `seek(2)` then raises `IOError` "Unable to read the blob", and after the call
`pos` is 1, no longer 0, while the records are still those of block 0. -/
theorem seek_failure_changes_pos :
    (initialize_obj example_ext (example_file ++ [0, 0, 0, 1, 2])).1 = .ok () ∧
    (initialize_obj example_ext (example_file ++ [0, 0, 0, 1, 2])).2.pos = 0 ∧
    size_getter (initialize_obj example_ext (example_file ++ [0, 0, 0, 1, 2])).2 = 3 ∧
    (seek_to_osm_data example_ext
      (initialize_obj example_ext (example_file ++ [0, 0, 0, 1, 2])).2 2).1 =
      .error (.io "Unable to read the blob") ∧
    (seek_to_osm_data example_ext
      (initialize_obj example_ext (example_file ++ [0, 0, 0, 1, 2])).2 2).2.pos = 1 ∧
    (seek_to_osm_data example_ext
      (initialize_obj example_ext (example_file ++ [0, 0, 0, 1, 2])).2 2).2.data =
      (initialize_obj example_ext (example_file ++ [0, 0, 0, 1, 2])).2.data := by
  decide

end PbfParser
